import Mathlib

/-!
The post-add pipeline of whq and its failure rollback.

A shallow embedding of `cmd/whq/post_add.go` and of the parts of
`cmd/whq/main.go` it works with (`removeWorktree`, `deleteBranch`,
`branchExists`, the `add` command), followed by the properties proved of them.

Strings are Lean strings; the path functions work on their character lists.
The separator and the dot are ASCII, so working on characters instead of
bytes changes nothing for well-formed UTF-8 input.  The target is Unix
(`filepath.Separator = '/'`, no volume names).
-/

namespace Whq

/-! ## Part 1: definitions -/

/-! ### `path/filepath` (Unix) as used by `safeJoin` -/

/-- Unix `os.IsPathSeparator`. -/
def IsPathSeparator (c : Char) : Bool := c == '/'

/-- Unix `filepath.IsAbs`: `strings.HasPrefix(path, "/")`. -/
def IsAbs (path : String) : Bool :=
  match path.data with
  | c :: _ => c == '/'
  | [] => false

/-- The inner loop of the `..` case of `filepath.Clean`, after the first
`out.w--`.  The buffer is the reversed list of the bytes written so far (its
length is `out.w`), and `c` is the byte at index `out.w`:
`for out.w > dotdot && !os.IsPathSeparator(out.index(out.w)) { out.w-- }`. -/
def backtrack (dotdot : Nat) : List Char → Char → List Char
  | [], _ => []
  | c1 :: rest, c =>
    if (c1 :: rest).length > dotdot && !IsPathSeparator c then backtrack dotdot rest c1
    else c1 :: rest

/-- The element copy of `filepath.Clean`:
`for ; r < n && !os.IsPathSeparator(path[r]); r++ { out.append(path[r]) }`.
Returns the unread rest of the path and the (reversed) buffer. -/
def copyElem : List Char → List Char → List Char × List Char
  | [], out => ([], out)
  | c :: p, out => if IsPathSeparator c then (c :: p, out) else copyElem p (c :: out)

/-- The test `r+1 == n || os.IsPathSeparator(path[r+1])` of `filepath.Clean`, on
the rest `p = path[r+1:]` of the path. -/
def atElemEnd (p : List Char) : Bool :=
  match p with
  | [] => true
  | c :: _ => IsPathSeparator c

/-- The main loop `for r < n { switch ... }` of `filepath.Clean`.  `p` is
`path[r:]`, `out` the reversed output buffer, `dotdot` the index where `..`
must stop.  Every round reads at least one byte, so `len(path)` rounds of
fuel are enough. -/
def cleanLoop (rooted : Bool) : Nat → List Char → List Char → Nat → List Char
  | 0, _, out, _ => out
  | fuel + 1, p, out, dotdot =>
    match p with
    | [] => out
    | c :: p1 =>
      if IsPathSeparator c then
        -- empty path element
        cleanLoop rooted fuel p1 out dotdot
      else if c == '.' && atElemEnd p1 then
        -- . element
        cleanLoop rooted fuel p1 out dotdot
      else if c == '.' && p1.head? == some '.' && atElemEnd (p1.drop 1) then
        -- .. element: remove to last separator
        if out.length > dotdot then
          match out with
          | [] => cleanLoop rooted fuel (p1.drop 1) out dotdot
          | c0 :: out1 => cleanLoop rooted fuel (p1.drop 1) (backtrack dotdot out1 c0) dotdot
        else if !rooted then
          let out1 := if out.length > 0 then '/' :: out else out
          let out2 := '.' :: '.' :: out1
          cleanLoop rooted fuel (p1.drop 1) out2 out2.length
        else
          cleanLoop rooted fuel (p1.drop 1) out dotdot
      else
        -- real path element: add slash if needed, copy element
        let out1 :=
          if (rooted && out.length != 1) || (!rooted && out.length != 0) then '/' :: out
          else out
        let r := copyElem (c :: p1) out1
        cleanLoop rooted fuel r.1 r.2 dotdot

/-- The function `filepath.Clean` on the characters of a path (Unix: no volume name,
`FromSlash` is the identity). -/
def cleanChars (path : List Char) : List Char :=
  match path with
  | [] => ['.']
  | c :: p1 =>
    let rooted := IsPathSeparator c
    let out :=
      if rooted then cleanLoop true (c :: p1).length p1 ['/'] 1
      else cleanLoop false (c :: p1).length (c :: p1) [] 0
    -- Turn empty string into "."
    if out.length = 0 then ['.'] else out.reverse

/-- The function `filepath.Clean`. -/
def Clean (path : String) : String := ⟨cleanChars path.data⟩

/-- The call `strings.Join(elem, "/")` on character lists. -/
def joinSep : List (List Char) → List Char
  | [] => []
  | [s] => s
  | s :: t :: rest => s ++ '/' :: joinSep (t :: rest)

/-- Unix `filepath.Join`: leading empty elements are dropped, the rest is
joined with the separator and cleaned; all empty gives the empty string. -/
def Join : List String → String
  | [] => ""
  | e :: rest =>
    if e.data ≠ [] then Clean ⟨joinSep ((e :: rest).map String.data)⟩ else Join rest

/-! ### Go errors -/

/-- A Go `error` value, as far as this program looks at one: its message, the
error it wraps (`%w`), and whether it is an `*exec.ExitError`. -/
inductive GoError where
  /-- The result of `errors.New`, of `fmt.Errorf` without `%w`, or an error of a library. -/
  | leaf (msg : String)
  /-- The result of `fmt.Errorf` with one `%w` operand. -/
  | wrap (msg : String) (inner : GoError)
  /-- An `*exec.ExitError` with its exit code. -/
  | exitError (code : Int)
  deriving DecidableEq, Repr

/-- The `Error()` method. -/
def GoError.Error : GoError → String
  | .leaf m => m
  | .wrap m _ => m
  | .exitError c => "exit status " ++ toString c

/-- The `Unwrap()` method (`errors.Unwrap`). -/
def GoError.Unwrap : GoError → Option GoError
  | .wrap _ inner => some inner
  | _ => none

/-! ### `safeJoin` (post_add.go) -/

/-- The test `strings.HasPrefix(clean, ".."+string(filepath.Separator))`. -/
def hasDotDotSepPrefix (clean : String) : Bool :=
  match clean.data with
  | '.' :: '.' :: '/' :: _ => true
  | _ => false

/-- The function `safeJoin` of post_add.go. Returns the pair `(string, error)`. -/
def safeJoin (root rel : String) : String × Option GoError :=
  if IsAbs rel then
    ("", some (.leaf "path must be relative"))
  else
    let clean := Clean rel
    if clean = "." || clean = "" then
      ("", some (.leaf "path resolves to root"))
    else if hasDotDotSepPrefix clean || clean = ".." then
      ("", some (.leaf "path escapes repository root"))
    else
      (Join [root, clean], none)

/-! ### Lexical reading of a relative expression (specification side) -/

/-- The elements of a path: the pieces between separators (`strings.Split(p, "/")`). -/
def splitSep : List Char → List (List Char)
  | [] => [[]]
  | c :: p =>
    if c = '/' then [] :: splitSep p
    else
      match splitSep p with
      | [] => [[c]]
      | s :: ss => (c :: s) :: ss

/-- Walking the elements of a relative expression from the root, counting the
depth below the root: empty elements and `.` stay, `..` goes up one level, any
other element goes down one level.  The result is `none` as soon as `..` is
met at the root itself (the expression resolves above the root), and the final
depth otherwise. -/
def lexWalk : List (List Char) → Nat → Option Nat
  | [], d => some d
  | s :: rest, d =>
    if s = [] ∨ s = ['.'] then lexWalk rest d
    else if s = ['.', '.'] then
      match d with
      | 0 => none
      | d + 1 => lexWalk rest d
    else lexWalk rest (d + 1)

/-- The expression lexically normalizes to the root itself. -/
def ResolvesToRoot (rel : String) : Prop := lexWalk (splitSep rel.data) 0 = some 0

/-- The expression lexically resolves above the root. -/
def ResolvesAbove (rel : String) : Prop := lexWalk (splitSep rel.data) 0 = none

/-- The first element of the expression is the parent-traversal segment `..`. -/
def LeadingParent (rel : String) : Prop := (splitSep rel.data).head? = some ['.', '.']

instance (rel : String) : Decidable (ResolvesToRoot rel) :=
  inferInstanceAs (Decidable (lexWalk (splitSep rel.data) 0 = some 0))

instance (rel : String) : Decidable (ResolvesAbove rel) :=
  inferInstanceAs (Decidable (lexWalk (splitSep rel.data) 0 = none))

instance (rel : String) : Decidable (LeadingParent rel) :=
  inferInstanceAs (Decidable ((splitSep rel.data).head? = some ['.', '.']))

/-- The expression stays within the root: it is relative and resolves to a
place strictly below the root without ever leaving it. -/
def StaysWithin (rel : String) : Prop :=
  IsAbs rel = false ∧ ∃ d, lexWalk (splitSep rel.data) 0 = some (d + 1)

/-- The elements of a path that name something: the pieces between separators,
without the empty ones and without `.` (both stay in place). -/
def lexElems (p : String) : List (List Char) :=
  (splitSep p.data).filter (fun s => decide (s ≠ [] ∧ s ≠ ['.']))

/-! ### The element-wise view of `filepath.Clean` (used in the proofs) -/

/-- An element that `filepath.Clean` copies to the output. -/
def NormalSeg (s : List Char) : Prop :=
  s ≠ [] ∧ s ≠ ['.'] ∧ s ≠ ['.', '.'] ∧ '/' ∉ s

/-- One element read by `filepath.Clean`, on the pair (number of leading `..`
kept, stack of the elements kept, last one first). -/
def normStep (rooted : Bool) (st : Nat × List (List Char)) (s : List Char) :
    Nat × List (List Char) :=
  if s = [] ∨ s = ['.'] then st
  else if s = ['.', '.'] then
    match st.2 with
    | _ :: stk => (st.1, stk)
    | [] => if rooted then st else (st.1 + 1, [])
  else (st.1, s :: st.2)

/-- All elements read in order. -/
def norm (rooted : Bool) (segs : List (List Char)) (st : Nat × List (List Char)) :
    Nat × List (List Char) :=
  segs.foldl (normStep rooted) st

/-- The reversed buffer holding `n` leading `..` elements. -/
def dotsR : Nat → List Char
  | 0 => []
  | 1 => ['.', '.']
  | n + 2 => '.' :: '.' :: '/' :: dotsR (n + 1)

/-- The reversed buffer before any kept element. -/
def baseR (rooted : Bool) (ups : Nat) : List Char :=
  if rooted then ['/'] else dotsR ups

/-- The reversed buffer for `ups` leading `..` and the stack of kept elements. -/
def outR (rooted : Bool) (ups : Nat) : List (List Char) → List Char
  | [] => baseR rooted ups
  | s :: stk =>
    s.reverse ++ (if stk = [] ∧ ups = 0 then baseR rooted ups else '/' :: outR rooted ups stk)

/-- The elements still to read after one element: nothing, or what follows the separator. -/
def tailSegs (rest : List (List Char)) : List (List Char) :=
  if rest = [] then [] else [] :: rest

/-- The invariant of the pair kept by `filepath.Clean`. -/
def Good (rooted : Bool) (ups : Nat) (stk : List (List Char)) : Prop :=
  (rooted = true → ups = 0) ∧ ∀ s ∈ stk, NormalSeg s

/-! ### Strings -/

/-- Go `unicode.IsSpace`: the Latin-1 spaces and the code points of the Unicode
`White_Space` property. -/
def isSpace (c : Char) : Bool :=
  let n := c.toNat
  n == 0x09 || n == 0x0A || n == 0x0B || n == 0x0C || n == 0x0D || n == 0x20 ||
  n == 0x85 || n == 0xA0 || n == 0x1680 || (0x2000 ≤ n && n ≤ 0x200A) ||
  n == 0x2028 || n == 0x2029 || n == 0x202F || n == 0x205F || n == 0x3000

/-- The function `strings.TrimSpace`: leading and trailing white space removed. -/
def TrimSpace (s : String) : String :=
  ⟨((s.data.dropWhile isSpace).reverse.dropWhile isSpace).reverse⟩

/-! ### Configuration (post_add.go) -/

/-- The struct `postAddConfig`. -/
structure postAddConfig where
  Copy : List String
  Commands : List String
  deriving DecidableEq, Repr

/-- The struct `whqConfig`; `PostAdd` is a pointer, `none` is `nil`. -/
structure whqConfig where
  PostAdd : Option postAddConfig
  deriving DecidableEq, Repr

/-! ### The outside world -/

/-- What the program does to the outside world, in the order it does it.
Reads (`os.ReadFile`, `os.Lstat`) change nothing and are not recorded. -/
inductive Event where
  /-- A write to `os.Stdout`. -/
  | stdout (text : String)
  /-- A write to `os.Stderr`. -/
  | stderr (text : String)
  /-- A call `copyPath(src, dest)`. -/
  | copy (src dest : String)
  /-- A run of `exec.Command(name, args...)` with `cmd.Dir = dir`. -/
  | exec (dir name : String) (args : List String)
  /-- A call `os.RemoveAll(path)`. -/
  | removeAll (path : String)
  deriving DecidableEq, Repr

/-- The event is a copy. -/
def Event.isCopy : Event → Bool
  | .copy _ _ => true
  | _ => false

/-- The event is the run of an external command. -/
def Event.isExec : Event → Bool
  | .exec _ _ _ => true
  | _ => false

/-- The event is a write to standard output. -/
def Event.isStdout : Event → Bool
  | .stdout _ => true
  | _ => false

/-- The event is a `git branch -d` or `git branch -D` run (a branch deletion of any kind). -/
def Event.isBranchDelete : Event → Bool
  | .exec _ "git" ("branch" :: flag :: _) => flag == "-d" || flag == "-D"
  | _ => false

/-- The operating system and the libraries the program calls, over a state
`σ` of the outside world (file system, repository, processes).  Every
operation is an arbitrary function of that state, so a statement proved for
all worlds holds for every behaviour of the file system, of git and of the
shell.  `copyPath` of post_add.go is taken here as one such operation: what
is proved of the pipeline holds whatever a copy does to the file system. -/
structure World (σ : Type) where
  /-- The function `os.ReadFile`. -/
  readFile : σ → String → Except GoError String
  /-- The test `errors.Is(err, os.ErrNotExist)`. -/
  isNotExist : GoError → Bool
  /-- The function `json.Unmarshal` into a `whqConfig`. -/
  unmarshal : String → Except GoError whqConfig
  /-- The error of `os.Lstat`, if any. -/
  lstat : σ → String → Option GoError
  /-- The function `copyPath(src, dest)`: the new state and the error, if any. -/
  copyPath : σ → String → String → σ × Option GoError
  /-- Running `exec.Command(name, args...)` with `cmd.Dir = dir` to its end:
  the new state and the error of `Run()`, if any. -/
  run : σ → String → String → List String → σ × Option GoError
  /-- The function `os.RemoveAll`. -/
  removeAll : σ → String → σ × Option GoError
  /-- The function `strconv.Quote`, the `%q` verb. -/
  quote : String → String

/-- The result of a function with effects: the state it leaves, the events it
caused in order, and what it returns. -/
structure Res (σ : Type) (α : Type) where
  state : σ
  events : List Event
  ret : α

/-! ### The post-add pipeline (post_add.go) -/

/-- The function `loadWHQConfig`. Returns the pair `(*whqConfig, error)`. -/
def loadWHQConfig {σ : Type} (w : World σ) (s : σ) (repoRoot : String) :
    Option whqConfig × Option GoError :=
  let cfgPath := Join [repoRoot, ".whq.json"]
  match w.readFile s cfgPath with
  | .error err =>
    if w.isNotExist err then (none, none)
    else (none, some (.wrap ("whq: failed to read .whq.json: " ++ err.Error) err))
  | .ok data =>
    match w.unmarshal data with
    | .error err => (none, some (.wrap ("whq: invalid .whq.json: " ++ err.Error) err))
    | .ok cfg => (some cfg, none)

/-- The loop `for _, raw := range entries` of `executePostAddCopies`. -/
def copyEntries {σ : Type} (w : World σ) (repoRoot worktreeRoot : String) :
    List String → σ → Res σ (Option GoError)
  | [], s => ⟨s, [], none⟩
  | raw :: rest, s =>
    let item := TrimSpace raw
    if item = "" then
      ⟨s, [], some (.leaf "whq: post-add copy entry cannot be empty")⟩
    else
      match safeJoin repoRoot item with
      | (_, some err) =>
        ⟨s, [], some (.wrap ("whq: invalid post-add copy path " ++ w.quote item ++ ": "
          ++ err.Error) err)⟩
      | (src, none) =>
        match w.lstat s src with
        | some err =>
          ⟨s, [], some (.wrap ("whq: post-add copy source " ++ w.quote item ++ " not found: "
            ++ err.Error) err)⟩
        | none =>
          match safeJoin worktreeRoot item with
          | (_, some err) =>
            ⟨s, [], some (.wrap ("whq: invalid destination for copy " ++ w.quote item ++ ": "
              ++ err.Error) err)⟩
          | (dest, none) =>
            let ev := Event.stdout ("Post-add copy: " ++ item ++ "\n")
            let c := w.copyPath s src dest
            match c.2 with
            | some err =>
              ⟨c.1, [ev, .copy src dest],
                some (.wrap ("whq: failed to copy " ++ w.quote item ++ ": " ++ err.Error) err)⟩
            | none =>
              let r := copyEntries w repoRoot worktreeRoot rest c.1
              ⟨r.state, ev :: .copy src dest :: r.events, r.ret⟩

/-- The function `executePostAddCopies`. -/
def executePostAddCopies {σ : Type} (w : World σ) (entries : List String)
    (repoRoot worktreeRoot : String) (s : σ) : Res σ (Option GoError) :=
  if entries.length = 0 then ⟨s, [], none⟩
  else copyEntries w repoRoot worktreeRoot entries s

/-- The loop `for i, raw := range commands` of `executePostAddCommands`;
`total` is `len(commands)` and `i` the index of the first entry of the list. -/
def commandEntries {σ : Type} (w : World σ) (worktreeRoot : String) (total : Nat) :
    Nat → List String → σ → Res σ (Option GoError)
  | _, [], s => ⟨s, [], none⟩
  | i, raw :: rest, s =>
    let cmdStr := TrimSpace raw
    if cmdStr = "" then
      ⟨s, [], some (.leaf ("whq: post-add command " ++ toString (i + 1) ++ " is empty"))⟩
    else
      let ev := Event.stdout ("Post-add cmd " ++ toString (i + 1) ++ "/" ++ toString total
        ++ ": " ++ cmdStr ++ "\n")
      let c := w.run s worktreeRoot "bash" ["-lc", cmdStr]
      match c.2 with
      | some err =>
        ⟨c.1, [ev, .exec worktreeRoot "bash" ["-lc", cmdStr]],
          some (.wrap ("whq: post-add command failed (" ++ cmdStr ++ "): " ++ err.Error) err)⟩
      | none =>
        let r := commandEntries w worktreeRoot total (i + 1) rest c.1
        ⟨r.state, ev :: .exec worktreeRoot "bash" ["-lc", cmdStr] :: r.events, r.ret⟩

/-- The function `executePostAddCommands`. -/
def executePostAddCommands {σ : Type} (w : World σ) (commands : List String)
    (worktreeRoot : String) (s : σ) : Res σ (Option GoError) :=
  if commands.length = 0 then ⟨s, [], none⟩
  else commandEntries w worktreeRoot commands.length 0 commands s

/-- The function `runPostAddActions`. -/
def runPostAddActions {σ : Type} (w : World σ) (repoRoot worktreeRoot : String) (s : σ) :
    Res σ (Option GoError) :=
  match loadWHQConfig w s repoRoot with
  | (_, some err) => ⟨s, [], some err⟩
  | (cfg, none) =>
    match cfg.bind whqConfig.PostAdd with
    | none => ⟨s, [], none⟩
    | some pa =>
      let copyTotal := pa.Copy.length
      let cmdTotal := pa.Commands.length
      if copyTotal = 0 ∧ cmdTotal = 0 then ⟨s, [], none⟩
      else
        let ev0 := Event.stdout ("Post-add (.whq.json): starting (copy=" ++ toString copyTotal
          ++ ", commands=" ++ toString cmdTotal ++ ")\n")
        let c := executePostAddCopies w pa.Copy repoRoot worktreeRoot s
        match c.ret with
        | some err => ⟨c.state, ev0 :: c.events, some err⟩
        | none =>
          let r := executePostAddCommands w pa.Commands worktreeRoot c.state
          match r.ret with
          | some err => ⟨r.state, ev0 :: c.events ++ r.events, some err⟩
          | none =>
            ⟨r.state,
              ev0 :: c.events ++ r.events ++ [.stdout "Post-add (.whq.json): completed\n"],
              none⟩

/-! ### Rollback (post_add.go, main.go) -/

/-- The function `removeWorktree` of main.go. -/
def removeWorktree {σ : Type} (w : World σ) (repoRoot worktreePath : String) (force : Bool)
    (s : σ) : Res σ (Option GoError) :=
  let argsWT := ["worktree", "remove"]
  let argsWT := if force then argsWT ++ ["--force"] else argsWT
  let argsWT := argsWT ++ [worktreePath]
  let c := w.run s repoRoot "git" argsWT
  ⟨c.1, [.exec repoRoot "git" argsWT], c.2⟩

/-- The function `deleteBranch` of main.go. -/
def deleteBranch {σ : Type} (w : World σ) (repoRoot branch : String) (s : σ) :
    Res σ (Option GoError) :=
  let cb := w.run s repoRoot "git" ["branch", "-d", branch]
  match cb.2 with
  | some _ =>
    let cb2 := w.run cb.1 repoRoot "git" ["branch", "-D", branch]
    match cb2.2 with
    | some err2 =>
      ⟨cb2.1, [.exec repoRoot "git" ["branch", "-d", branch],
        .exec repoRoot "git" ["branch", "-D", branch]], some err2⟩
    | none =>
      ⟨cb2.1, [.exec repoRoot "git" ["branch", "-d", branch],
        .exec repoRoot "git" ["branch", "-D", branch]], none⟩
  | none => ⟨cb.1, [.exec repoRoot "git" ["branch", "-d", branch]], none⟩

/-- The function `cleanupFailedAdd` of post_add.go. -/
def cleanupFailedAdd {σ : Type} (w : World σ) (repoRoot worktreeRoot branch : String)
    (removeBranch : Bool) (s : σ) : Res σ (Option GoError) :=
  let ev0 := Event.stderr ("Post-add failed: removing worktree " ++ worktreeRoot ++ "\n")
  let r := removeWorktree w repoRoot worktreeRoot false s
  match r.ret with
  | some err =>
    ⟨r.state, ev0 :: r.events,
      some (.wrap ("whq: cleanup failed while removing worktree: " ++ err.Error) err)⟩
  | none =>
    -- _ = os.RemoveAll(worktreeRoot)
    let x := w.removeAll r.state worktreeRoot
    let evs := ev0 :: r.events ++ [.removeAll worktreeRoot]
    if removeBranch then
      let ev1 := Event.stderr ("Post-add failed: deleting branch " ++ branch ++ "\n")
      let d := deleteBranch w repoRoot branch x.1
      match d.ret with
      | some err =>
        ⟨d.state, evs ++ ev1 :: d.events,
          some (.wrap ("whq: cleanup failed while deleting branch: " ++ err.Error) err)⟩
      | none => ⟨d.state, evs ++ ev1 :: d.events, none⟩
    else ⟨x.1, evs, none⟩

/-! ### The `add` command (main.go) -/

/-- The struct `whqEnv`. -/
structure whqEnv where
  RepoRoot : String
  WHQRoot : String
  Host : String
  Owner : String
  Project : String
  RepoWHQRoot : String
  deriving DecidableEq, Repr

/-- The function `branchExists` of main.go. Returns the pair `(bool, error)`. -/
def branchExists {σ : Type} (w : World σ) (repoRoot branch : String) (s : σ) :
    Res σ (Bool × Option GoError) :=
  let args := ["show-ref", "--verify", "--quiet", "refs/heads/" ++ branch]
  let c := w.run s repoRoot "git" args
  match c.2 with
  | some err =>
    -- Non-zero exit likely means it doesn't exist
    match err with
    | .exitError code =>
      if code ≠ 0 then ⟨c.1, [.exec repoRoot "git" args], (false, none)⟩
      else ⟨c.1, [.exec repoRoot "git" args], (false, some err)⟩
    | _ => ⟨c.1, [.exec repoRoot "git" args], (false, some err)⟩
  | none => ⟨c.1, [.exec repoRoot "git" args], (true, none)⟩

/-- The arguments of the `git worktree add` run of the `add` command. -/
def worktreeAddArgs (found : Bool) (dest branch : String) : List String :=
  if found then ["worktree", "add", dest, branch]
  else ["worktree", "add", "-b", branch, dest]

/-- The `RunE` function of `addCmd` (main.go) in the environment `env`. -/
def addCmd {σ : Type} (w : World σ) (env : whqEnv) (args : List String) (s : σ) :
    Res σ (Option GoError) :=
  match args with
  | [branch] =>
    let dest := Join [env.RepoWHQRoot, branch]
    let b := branchExists w env.RepoRoot branch s
    match b.ret with
    | (_, some err) => ⟨b.state, b.events, some err⟩
    | (found, none) =>
      let c := w.run b.state env.RepoRoot "git" (worktreeAddArgs found dest branch)
      let evs := b.events ++ [.exec env.RepoRoot "git" (worktreeAddArgs found dest branch)]
      match c.2 with
      | some _ =>
        -- git error is already printed to stderr
        ⟨c.1, evs, some (.leaf "")⟩
      | none =>
        let p := runPostAddActions w env.RepoRoot dest c.1
        match p.ret with
        | some err =>
          let cl := cleanupFailedAdd w env.RepoRoot dest branch (!found) p.state
          match cl.ret with
          | some cleanupErr =>
            ⟨cl.state, evs ++ p.events ++ cl.events,
              some (.wrap (err.Error ++ "; cleanup failed: " ++ cleanupErr.Error) err)⟩
          | none => ⟨cl.state, evs ++ p.events ++ cl.events, some err⟩
        | none =>
          ⟨p.state, evs ++ p.events ++ [.stdout ("Created worktree: " ++ dest ++ "\n")], none⟩
  | _ => ⟨s, [], some (.leaf "Usage: whq add <branch>")⟩

/-! ### Runs in which every step succeeds (specification side) -/

/-- The copy made for a copy entry: from the repository root into the worktree root. -/
def copyEventOf (repoRoot worktreeRoot raw : String) : Event :=
  .copy (safeJoin repoRoot (TrimSpace raw)).1 (safeJoin worktreeRoot (TrimSpace raw)).1

/-- The command run for a command entry: the shell, in the worktree root. -/
def commandEventOf (worktreeRoot raw : String) : Event :=
  .exec worktreeRoot "bash" ["-lc", TrimSpace raw]

/-- Every copy entry of the list succeeds when its turn comes, starting in
state `s`: it is not empty after trimming, passes the containment guard under
both roots, its source exists, and the copy returns no error. -/
def CopiesSucceed {σ : Type} (w : World σ) (repoRoot worktreeRoot : String) :
    List String → σ → Prop
  | [], _ => True
  | raw :: rest, s =>
    TrimSpace raw ≠ "" ∧
    (safeJoin repoRoot (TrimSpace raw)).2 = none ∧
    w.lstat s (safeJoin repoRoot (TrimSpace raw)).1 = none ∧
    (safeJoin worktreeRoot (TrimSpace raw)).2 = none ∧
    (w.copyPath s (safeJoin repoRoot (TrimSpace raw)).1
      (safeJoin worktreeRoot (TrimSpace raw)).1).2 = none ∧
    CopiesSucceed w repoRoot worktreeRoot rest
      (w.copyPath s (safeJoin repoRoot (TrimSpace raw)).1
        (safeJoin worktreeRoot (TrimSpace raw)).1).1

/-- The state of the world after the copies of the list, made in order from state `s`. -/
def afterCopies {σ : Type} (w : World σ) (repoRoot worktreeRoot : String) :
    List String → σ → σ
  | [], s => s
  | raw :: rest, s =>
    afterCopies w repoRoot worktreeRoot rest
      (w.copyPath s (safeJoin repoRoot (TrimSpace raw)).1
        (safeJoin worktreeRoot (TrimSpace raw)).1).1

/-- Every command entry of the list succeeds when its turn comes, starting in
state `s`: it is not empty after trimming and the shell run returns no error. -/
def CommandsSucceed {σ : Type} (w : World σ) (worktreeRoot : String) : List String → σ → Prop
  | [], _ => True
  | raw :: rest, s =>
    TrimSpace raw ≠ "" ∧
    (w.run s worktreeRoot "bash" ["-lc", TrimSpace raw]).2 = none ∧
    CommandsSucceed w worktreeRoot rest (w.run s worktreeRoot "bash" ["-lc", TrimSpace raw]).1

/-- The state of the world after the commands of the list, run in order from state `s`. -/
def afterCommands {σ : Type} (w : World σ) (worktreeRoot : String) : List String → σ → σ
  | [], s => s
  | raw :: rest, s =>
    afterCommands w worktreeRoot rest (w.run s worktreeRoot "bash" ["-lc", TrimSpace raw]).1

/-- The events of a run of copy entries that all succeed: for each entry its
progress line and then its copy. -/
def copyRunEvents (repoRoot worktreeRoot : String) : List String → List Event
  | [] => []
  | raw :: rest =>
    .stdout ("Post-add copy: " ++ TrimSpace raw ++ "\n") ::
      copyEventOf repoRoot worktreeRoot raw :: copyRunEvents repoRoot worktreeRoot rest

/-- The events of a run of command entries that all succeed, the first at
index `i` of `total`: for each entry its progress line and then its run. -/
def commandRunEvents (worktreeRoot : String) (total : Nat) : Nat → List String → List Event
  | _, [] => []
  | i, raw :: rest =>
    .stdout ("Post-add cmd " ++ toString (i + 1) ++ "/" ++ toString total ++ ": "
      ++ TrimSpace raw ++ "\n") ::
      commandEventOf worktreeRoot raw :: commandRunEvents worktreeRoot total (i + 1) rest

/-- The actions among the events: the copies and the runs of external commands. -/
def actions (evs : List Event) : List Event :=
  evs.filter (fun e => e.isCopy || e.isExec)

/-! ### A small concrete world -/

/-- A world whose state is the list of the paths that exist.  The
configuration is `cfg` (`none`: no `.whq.json`), a copy creates its
destination, and the external commands listed in `failing` (name and
arguments) exit with status 1. -/
def demoWorld (cfg : Option whqConfig) (failing : List (List String)) : World (List String) where
  readFile := fun _ _ =>
    match cfg with
    | some _ => .ok ""
    | none => .error (.leaf "open .whq.json: no such file or directory")
  isNotExist := fun e => e == .leaf "open .whq.json: no such file or directory"
  unmarshal := fun _ =>
    match cfg with
    | some c => .ok c
    | none => .error (.leaf "unexpected end of JSON input")
  lstat := fun s p =>
    if p ∈ s then none else some (.leaf ("lstat " ++ p ++ ": no such file or directory"))
  copyPath := fun s _ dest => (dest :: s, none)
  run := fun s _ name args =>
    (s, if (name :: args) ∈ failing then some (.exitError 1) else none)
  removeAll := fun s p => (s.filter (fun q => q ≠ p), none)
  quote := fun t => "\"" ++ t ++ "\""

/-- A configuration with three copy entries, of which `missing.txt` has no source,
and one command. -/
def demoCopyConfig : whqConfig :=
  ⟨some ⟨["present.txt", " missing.txt ", "later.txt"], ["echo hi"]⟩⟩

/-- A configuration with two copy entries and three commands. -/
def demoConfig : whqConfig :=
  ⟨some ⟨["configs/app.env", "scripts"], ["true", " exit 9 ", "echo hi"]⟩⟩

/-- The environment of the concrete runs of the `add` command. -/
def demoEnv : whqEnv :=
  ⟨"/repo", "/home/u/whq", "example.com", "owner", "project", "/whq"⟩

/-- A world for the `add` command: the branch does not exist yet, the command
`exit 9` of the configuration fails, and so does the removal of the worktree. -/
def demoAddWorld : World (List String) :=
  demoWorld (some demoConfig)
    [["git", "show-ref", "--verify", "--quiet", "refs/heads/feature"],
     ["bash", "-lc", "exit 9"],
     ["git", "worktree", "remove", "/whq/feature"]]

/-- A configuration whose second copy entry is all white space. -/
def demoBlankCopyConfig : whqConfig :=
  ⟨some ⟨["present.txt", "  ", "later.txt"], ["echo hi"]⟩⟩

/-- A configuration whose second command entry is all white space. -/
def demoBlankCommandConfig : whqConfig :=
  ⟨some ⟨["present.txt"], ["true", " \t", "echo hi"]⟩⟩

/-! ### A file system

The file-system functions of post_add.go and init.go are embedded over an
explicit file system: a list of entries keyed by path, where the first entry
of a path counts.  A path is the list of the names of its elements from the
root (an absolute path in normal form; relative paths are taken from the
root).  Symbolic links are followed at the last element of a path by the
functions that follow them (`Stat`, `Open`, `OpenFile`, `ReadFile`,
`WriteFile`); a path that goes through a link does not resolve.  Permission
checks, the umask and entries other than regular files, directories and links
are not modelled. -/

/-- A path: the names of its elements from the root. -/
abbrev FPath := List String

deriving instance DecidableEq for Except

/-- What is at a path: a regular file with its permission bits and content, a
symbolic link with its target string, or a directory with its permission bits. -/
inductive FNode where
  | file (perm : Nat) (content : String)
  | symlink (target : String)
  | dir (perm : Nat)
  deriving DecidableEq, Repr

/-- A file system: its entries; the root directory is always there. -/
abbrev FileSys := List (FPath × FNode)

/-- The method `IsDir()` of a `FileInfo` or `DirEntry`. -/
def FNode.IsDir : FNode → Bool
  | .dir _ => true
  | _ => false

/-- The test `info.Mode()&os.ModeSymlink != 0`. -/
def FNode.isSymlink : FNode → Bool
  | .symlink _ => true
  | _ => false

/-- The value `info.Mode().Perm()`. -/
def FNode.Perm : FNode → Nat
  | .file p _ => p
  | .symlink _ => 0o777
  | .dir p => p

/-- The path `d` is `q` or an ancestor of `q`. -/
def isUnder : FPath → FPath → Bool
  | [], _ => true
  | _ :: _, [] => false
  | a :: d, b :: q => a == b && isUnder d q

/-- The path `q` lies strictly below `d`. -/
def isInside (d q : FPath) : Bool := isUnder d q && q != d

/-- The first entry of the path `p` in the list. -/
def lookupNode : FileSys → FPath → Option FNode
  | [], _ => none
  | (q, n) :: rest, p => if q = p then some n else lookupNode rest p

/-- What is at the path `p`; the root is a directory. -/
def node (fs : FileSys) (p : FPath) : Option FNode :=
  if p = [] then some (.dir 0o755) else lookupNode fs p

/-- The entry at `q` set to `n`: replaced where it is, or added at the end. -/
def putNode (fs : FileSys) (q : FPath) (n : FNode) : FileSys :=
  if lookupNode fs q = none then fs ++ [(q, n)]
  else fs.map (fun e => if e.1 = q then (q, n) else e)

/-- The path as a string. -/
def renderPath (p : FPath) : String := "/" ++ "/".intercalate p

/-- The error `ENOENT`. -/
def ENOENT : GoError := .leaf "no such file or directory"

/-- The error `ENOTDIR`. -/
def ENOTDIR : GoError := .leaf "not a directory"

/-- The error `EEXIST`. -/
def EEXIST : GoError := .leaf "file exists"

/-- The error `EISDIR`. -/
def EISDIR : GoError := .leaf "is a directory"

/-- The error `EINVAL`. -/
def EINVAL : GoError := .leaf "invalid argument"

/-- The error `ELOOP`. -/
def ELOOP : GoError := .leaf "too many levels of symbolic links"

/-- The error `EBUSY`. -/
def EBUSY : GoError := .leaf "device or resource busy"

/-- An `*fs.PathError`. -/
def pathError (op : String) (p : FPath) (errno : GoError) : GoError :=
  .wrap (op ++ " " ++ renderPath p ++ ": " ++ errno.Error) errno

/-- The test `errors.Is(err, os.ErrNotExist)`: the chain of the error ends in `ENOENT`. -/
def IsNotExist : GoError → Bool
  | .leaf m => m == "no such file or directory"
  | .wrap _ inner => IsNotExist inner
  | .exitError _ => false

/-- The function `os.Lstat`: the entry itself, a link is not followed. -/
def Lstat (fs : FileSys) (p : FPath) : Except GoError FNode :=
  match node fs p with
  | some n => .ok n
  | none => .error (pathError "lstat" p ENOENT)

/-- The place a link in the directory `dir` with target string `target` points to. -/
def linkDest (dir : FPath) (target : String) : FPath :=
  ((splitSep target.data).map String.mk).foldl
    (fun acc c => if c = "" ∨ c = "." then acc else if c = ".." then acc.dropLast else acc ++ [c])
    (if IsAbs target then [] else dir)

/-- The path reached from `p` by following links at the last element, at most `n` of them. -/
def follow (fs : FileSys) : Nat → FPath → Option FPath
  | 0, _ => none
  | n + 1, p =>
    match node fs p with
    | some (.symlink t) => follow fs n (linkDest p.dropLast t)
    | _ => some p

/-- The function `os.Stat`: as `Lstat`, after following links (at most 40). -/
def Stat (fs : FileSys) (p : FPath) : Except GoError FNode :=
  match follow fs 40 p with
  | none => .error (pathError "stat" p ELOOP)
  | some q =>
    match node fs q with
    | some n => .ok n
    | none => .error (pathError "stat" p ENOENT)

/-- The function `os.Readlink`. -/
def Readlink (fs : FileSys) (p : FPath) : Except GoError String :=
  match node fs p with
  | some (.symlink t) => .ok t
  | some _ => .error (pathError "readlink" p EINVAL)
  | none => .error (pathError "readlink" p ENOENT)

/-- The function `os.RemoveAll`: the entry and everything below it is removed;
nothing there is no error; the root cannot be removed. -/
def RemoveAll (fs : FileSys) (p : FPath) : FileSys × Option GoError :=
  (fs.filter (fun e => !isUnder p e.1),
    if p = [] then some (pathError "unlinkat" p EBUSY) else none)

/-- The function `os.Mkdir`. -/
def Mkdir (fs : FileSys) (p : FPath) (perm : Nat) : FileSys × Option GoError :=
  match node fs p with
  | some _ => (fs, some (pathError "mkdir" p EEXIST))
  | none =>
    match node fs p.dropLast with
    | some (.dir _) => (fs ++ [(p, .dir perm)], none)
    | some _ => (fs, some (pathError "mkdir" p ENOTDIR))
    | none => (fs, some (pathError "mkdir" p ENOENT))

/-- The function `os.MkdirAll` on the reversed path: the fast path when `Stat`
answers, otherwise the parent first, then `Mkdir`, with the second look when
`Mkdir` fails. -/
def mkdirAllRev (perm : Nat) : List String → FileSys → FileSys × Option GoError
  | [], fs => (fs, none)
  | c :: rparent, fs =>
    match Stat fs (c :: rparent).reverse with
    | .ok dir =>
      if dir.IsDir then (fs, none)
      else (fs, some (pathError "mkdir" (c :: rparent).reverse ENOTDIR))
    | .error _ =>
      let r := mkdirAllRev perm rparent fs
      match r.2 with
      | some err => (r.1, some err)
      | none =>
        let m := Mkdir r.1 (c :: rparent).reverse perm
        match m.2 with
        | some err =>
          match Lstat m.1 (c :: rparent).reverse with
          | .ok dir => if dir.IsDir then (m.1, none) else (m.1, some err)
          | .error _ => (m.1, some err)
        | none => (m.1, none)

/-- The function `os.MkdirAll`. -/
def MkdirAll (fs : FileSys) (p : FPath) (perm : Nat) : FileSys × Option GoError :=
  mkdirAllRev perm p.reverse fs

/-- The function `os.Symlink`. -/
def Symlink (fs : FileSys) (target : String) (p : FPath) : FileSys × Option GoError :=
  if target = "" then (fs, some (pathError "symlink" p ENOENT))
  else
    match node fs p with
    | some _ => (fs, some (pathError "symlink" p EEXIST))
    | none =>
      match node fs p.dropLast with
      | some (.dir _) => (fs ++ [(p, .symlink target)], none)
      | some _ => (fs, some (pathError "symlink" p ENOTDIR))
      | none => (fs, some (pathError "symlink" p ENOENT))

/-- The function `os.Open`: what is open for reading, after following links. -/
def Open (fs : FileSys) (p : FPath) : Except GoError FNode :=
  match follow fs 40 p with
  | none => .error (pathError "open" p ELOOP)
  | some q =>
    match node fs q with
    | some n => .ok n
    | none => .error (pathError "open" p ENOENT)

/-- The call `os.OpenFile(p, os.O_CREATE|os.O_WRONLY|os.O_TRUNC, perm)`: the
file system with the file there and empty, and the place of the file (links
are followed); an existing file keeps its permission bits. -/
def OpenFile (fs : FileSys) (p : FPath) (perm : Nat) : Except GoError (FileSys × FPath) :=
  match follow fs 40 p with
  | none => .error (pathError "open" p ELOOP)
  | some q =>
    match node fs q with
    | some (.file pm _) => .ok (putNode fs q (.file pm ""), q)
    | some _ => .error (pathError "open" p EISDIR)
    | none =>
      match node fs q.dropLast with
      | some (.dir _) => .ok (fs ++ [(q, .file perm "")], q)
      | some _ => .error (pathError "open" p ENOTDIR)
      | none => .error (pathError "open" p ENOENT)

/-- Writing `content` to the open file at `q`. -/
def writeContent (fs : FileSys) (q : FPath) (content : String) : FileSys :=
  match lookupNode fs q with
  | some (.file pm _) => putNode fs q (.file pm content)
  | _ => fs

/-- The function `os.WriteFile`. -/
def WriteFile (fs : FileSys) (p : FPath) (data : String) (perm : Nat) :
    FileSys × Option GoError :=
  match OpenFile fs p perm with
  | .error err => (fs, some err)
  | .ok (fs1, q) => (writeContent fs1 q data, none)

/-- The function `os.ReadFile`. -/
def ReadFile (fs : FileSys) (p : FPath) : Except GoError String :=
  match Open fs p with
  | .error err => .error err
  | .ok (.file _ c) => .ok c
  | .ok _ => .error (pathError "read" p EISDIR)

/-- The order of two lists of characters, element by element. -/
def ltChars : List Char → List Char → Bool
  | _, [] => false
  | [], _ :: _ => true
  | a :: s, b :: t => decide (a.toNat < b.toNat) || (a.toNat == b.toNat && ltChars s t)

/-- The comparison `<` of two strings in Go: byte by byte, which on UTF-8 is
the order of the code points. -/
def ltName (n m : String) : Bool := ltChars n.data m.data

/-- A name put in its place in a sorted list of names without repetition. -/
def insertName (n : String) : List String → List String
  | [] => [n]
  | m :: rest =>
    if ltName n m then n :: m :: rest
    else if n = m then m :: rest
    else m :: insertName n rest

/-- The name of the entry when it is a child of the directory `p`. -/
def childName (p : FPath) (e : FPath × FNode) : Option String :=
  if e.1 ≠ [] ∧ e.1.dropLast = p then e.1.getLast? else none

/-- The function `os.ReadDir`: the children of the directory sorted by name,
each with its `IsDir()`. -/
def ReadDir (fs : FileSys) (p : FPath) : Except GoError (List (String × Bool)) :=
  match node fs p with
  | some (.dir _) =>
    .ok (((fs.filterMap (childName p)).foldr insertName []).map
      (fun n => (n, match lookupNode fs (p ++ [n]) with
        | some d => d.IsDir
        | none => false)))
  | some _ => .error (pathError "open" p ENOTDIR)
  | none => .error (pathError "open" p ENOENT)

/-- The function `filepath.Rel` for a target under the base path (the only
use made of it: the walk hands out paths under its root). -/
def Rel (base targ : FPath) : Except GoError FPath :=
  if isUnder base targ then .ok (targ.drop base.length)
  else .error (.leaf ("Rel: can't make " ++ renderPath targ ++ " relative to "
    ++ renderPath base))

/-! ### Copying (post_add.go) -/

/-- The function `copySymlink` of post_add.go. -/
def copySymlink (fs : FileSys) (src dest : FPath) : FileSys × Option GoError :=
  let r := RemoveAll fs dest
  if r.2.isSome ∧ ¬ (r.2.elim false IsNotExist = true) then (r.1, r.2)
  else
    match Readlink r.1 src with
    | .error err => (r.1, some err)
    | .ok target =>
      let m := MkdirAll r.1 dest.dropLast 0o755
      match m.2 with
      | some err => (m.1, some err)
      | none => Symlink m.1 target dest

/-- The function `copyFile` of post_add.go. -/
def copyFile (fs : FileSys) (src dest : FPath) (perm : Nat) : FileSys × Option GoError :=
  let m := MkdirAll fs dest.dropLast 0o755
  match m.2 with
  | some err => (m.1, some err)
  | none =>
    let r := RemoveAll m.1 dest
    if r.2.isSome ∧ ¬ (r.2.elim false IsNotExist = true) then (r.1, r.2)
    else
      match Open r.1 src with
      | .error err => (r.1, some err)
      | .ok inFile =>
        match OpenFile r.1 dest perm with
        | .error err => (r.1, some err)
        | .ok (fs1, q) =>
          -- io.Copy(out, in)
          match inFile with
          | .file _ content => (writeContent fs1 q content, none)
          | _ => (fs1, some (pathError "read" src EISDIR))

/-- The function handed to `filepath.WalkDir` by `copyDirectory`; `isDir` is
`d.IsDir()`, and `d.Info()` is the `Lstat` of the path. -/
def copyDirectoryFn (src dest : FPath) (fs : FileSys) (path : FPath) (isDir : Bool)
    (walkErr : Option GoError) : FileSys × Option GoError :=
  match walkErr with
  | some err => (fs, some err)
  | none =>
    if path = src then (fs, none)
    else
      match Rel src path with
      | .error err => (fs, some err)
      | .ok rel =>
        let target := dest ++ rel
        if isDir then
          match Lstat fs path with
          | .error err => (fs, some err)
          | .ok info => MkdirAll fs target info.Perm
        else
          match Lstat fs path with
          | .error err => (fs, some err)
          | .ok info =>
            if info.isSymlink then copySymlink fs path target
            else copyFile fs path target info.Perm

/-- The loop `for _, d1 := range dirs` of `walkDir`, with `step` the walk of one child. -/
def walkList (step : FileSys → FPath → Bool → Option (FileSys × Option GoError))
    (path : FPath) : List (String × Bool) → FileSys → Option (FileSys × Option GoError)
  | [], fs => some (fs, none)
  | d1 :: rest, fs =>
    match step fs (path ++ [d1.1]) d1.2 with
    | none => none
    | some (fs1, some err) => some (fs1, some err)
    | some (fs1, none) => walkList step path rest fs1

/-- The function `walkDir` of `path/filepath`, at most `fuel` levels deep
(`none` when the levels run out).  The function walked never returns
`SkipDir` or `SkipAll`, so these are left out. -/
def walkDir (fn : FileSys → FPath → Bool → Option GoError → FileSys × Option GoError) :
    Nat → FileSys → FPath → Bool → Option (FileSys × Option GoError)
  | 0, _, _, _ => none
  | fuel + 1, fs, path, isDir =>
    let r := fn fs path isDir none
    if r.2.isSome ∨ isDir = false then some r
    else
      match ReadDir r.1 path with
      | .error err => some (fn r.1 path isDir (some err))
      | .ok dirs => walkList (walkDir fn fuel) path dirs r.1

/-- The function `filepath.WalkDir`. -/
def WalkDir (fn : FileSys → FPath → Bool → Option GoError → FileSys × Option GoError)
    (fuel : Nat) (fs : FileSys) (root : FPath) : Option (FileSys × Option GoError) :=
  match Lstat fs root with
  | .error err => some (fn fs root false (some err))
  | .ok info => walkDir fn fuel fs root info.IsDir

/-- The function `copyDirectory` of post_add.go; the walk goes at most `fuel`
levels deep (`none` when the levels run out). -/
def copyDirectory (fuel : Nat) (fs : FileSys) (src dest : FPath) :
    Option (FileSys × Option GoError) :=
  match Stat fs src with
  | .error err => some (fs, some err)
  | .ok info =>
    if !info.IsDir then
      some (fs, some (.leaf ("source is not a directory: " ++ renderPath src)))
    else
      let r := RemoveAll fs dest
      if r.2.isSome ∧ ¬ (r.2.elim false IsNotExist = true) then some (r.1, r.2)
      else
        let m := MkdirAll r.1 dest info.Perm
        match m.2 with
        | some err => some (m.1, some err)
        | none => WalkDir (copyDirectoryFn src dest) fuel m.1 src

/-- The function `copyPath` of post_add.go. -/
def copyPath (fuel : Nat) (fs : FileSys) (src dest : FPath) :
    Option (FileSys × Option GoError) :=
  match Lstat fs src with
  | .error err => some (fs, some err)
  | .ok info =>
    if info.isSymlink then some (copySymlink fs src dest)
    else if info.IsDir then copyDirectory fuel fs src dest
    else some (copyFile fs src dest info.Perm)

/-! ### Path strings and the pipeline over the file system -/

/-- The error `ENAMETOOLONG`. -/
def ENAMETOOLONG : GoError := .leaf "file name too long"

/-- The path a path string names: the elements of its normal form. -/
def toFPath (path : String) : FPath :=
  ((splitSep (Clean path).data).filter (fun c => c ≠ [] ∧ c ≠ ['.'])).map String.mk

/-- The world whose state is the file system.  What a command does to the file
system, the JSON decoder and the quoting are left open; a copy whose walk is
deeper than `fuel` levels ends with `ENAMETOOLONG`. -/
def fsWorld (fuel : Nat) (unmarshal : String → Except GoError whqConfig)
    (run : FileSys → String → String → List String → FileSys × Option GoError)
    (quote : String → String) : World FileSys where
  readFile := fun fs p => ReadFile fs (toFPath p)
  isNotExist := IsNotExist
  unmarshal := unmarshal
  lstat := fun fs p =>
    match Lstat fs (toFPath p) with
    | .ok _ => none
    | .error err => some err
  copyPath := fun fs src dest =>
    match copyPath fuel fs (toFPath src) (toFPath dest) with
    | some r => r
    | none => (fs, some (pathError "lstat" (toFPath src) ENAMETOOLONG))
  run := run
  removeAll := fun fs p => RemoveAll fs (toFPath p)
  quote := quote

/-! ### The `init` command (init.go) -/

/-- The constant `defaultWHQTemplate`. -/
def defaultWHQTemplate : String :=
  "\x7b\n  \"post_add\": \x7b\n    \"copy\": [],\n    \"commands\": []\n  \x7d\n\x7d\n"

/-- The end of `runInit`: the template is written and the creation reported;
`evs` are the events so far. -/
def runInitWrite (fs : FileSys) (configPath : FPath) (evs : List Event) :
    Res FileSys (Option GoError) :=
  let w := WriteFile fs configPath defaultWHQTemplate 0o644
  match w.2 with
  | some err => ⟨w.1, evs, some (.wrap ("whq: failed to write .whq.json: " ++ err.Error) err)⟩
  | none => ⟨w.1, evs ++ [.stdout "Created .whq.json\n"], none⟩

/-- The function `runInit` of init.go in the environment `env`; what is written
to the writers `stdout` and `stderr` is recorded as events. -/
def runInit (env : whqEnv) (force : Bool) (fs : FileSys) : Res FileSys (Option GoError) :=
  let repoRoot := env.RepoRoot
  if TrimSpace repoRoot = "" then
    ⟨fs, [], some (.leaf "whq: not inside a Git repository")⟩
  else
    let configPath := toFPath (Join [repoRoot, ".whq.json"])
    match Stat fs configPath with
    | .ok info =>
      if !force then
        ⟨fs, [.stderr ".whq.json already exists; use --force to overwrite\n"],
          some (.leaf "whq: .whq.json already exists (use --force to overwrite)")⟩
      else if info.IsDir then
        ⟨fs, [], some (.leaf "whq: .whq.json exists and is a directory")⟩
      else
        runInitWrite fs configPath [.stderr "Overwriting existing .whq.json (--force)\n"]
    | .error err =>
      if !IsNotExist err then
        ⟨fs, [], some (.wrap ("whq: failed to inspect .whq.json: " ++ err.Error) err)⟩
      else runInitWrite fs configPath []

/-- A file system with a repository that has a `.whq.json` and a link that points nowhere. -/
def demoFs : FileSys :=
  [(["repo"], .dir 0o755), (["repo", ".whq.json"], .file 0o644 "custom"),
   (["repo", "scripts"], .dir 0o700), (["repo", "scripts", "setup.sh"], .file 0o755 "echo ok"),
   (["repo", "scripts", "b"], .dir 0o711), (["repo", "scripts", "b", "l"], .symlink "../nowhere"),
   (["repo", "link"], .symlink "missing/target"),
   (["wt"], .dir 0o755), (["wt", "scripts"], .dir 0o755),
   (["wt", "scripts", "old"], .file 0o600 "old"), (["wt", "link"], .dir 0o755),
   (["wt", "link", "inner"], .file 0o644 "x"),
   (["fresh"], .dir 0o755)]

/-- The entries of the file system that are not strictly below `d`. -/
def outside (d : FPath) (fs : FileSys) : FileSys :=
  fs.filter (fun e => !isInside d e.1)

/-- Every path with an entry in `S2` has an entry in `S` already, or is one of the paths `K`. -/
def KeysFrom (K : FPath → Prop) (S S2 : FileSys) : Prop :=
  ∀ q, lookupNode S2 q ≠ none → lookupNode S q ≠ none ∨ K q

/-- Every entry of `S` strictly below `dest` has its counterpart below `src` in `S0`. -/
def NoStray (src dest : FPath) (S0 S : FileSys) : Prop :=
  ∀ rel, rel ≠ [] → lookupNode S (dest ++ rel) ≠ none → lookupNode S0 (src ++ rel) ≠ none

/-- Every path strictly between `src` and `p` has an entry in `S0`. -/
def AncestorsIn (src : FPath) (S0 : FileSys) (p : FPath) : Prop :=
  ∀ x, x ≠ [] → isInside (src ++ x) p = true → lookupNode S0 (src ++ x) ≠ none

/-- The file system `demoFs` after `/repo/scripts` has been copied to `/wt/scripts`. -/
def demoMirror : FileSys :=
  [(["repo"], .dir 0o755), (["repo", ".whq.json"], .file 0o644 "custom"),
   (["repo", "scripts"], .dir 0o700), (["repo", "scripts", "setup.sh"], .file 0o755 "echo ok"),
   (["repo", "scripts", "b"], .dir 0o711), (["repo", "scripts", "b", "l"], .symlink "../nowhere"),
   (["repo", "link"], .symlink "missing/target"),
   (["wt"], .dir 0o755), (["wt", "link"], .dir 0o755),
   (["wt", "link", "inner"], .file 0o644 "x"),
   (["fresh"], .dir 0o755),
   (["wt", "scripts"], .dir 0o700), (["wt", "scripts", "b"], .dir 0o711),
   (["wt", "scripts", "b", "l"], .symlink "../nowhere"),
   (["wt", "scripts", "setup.sh"], .file 0o755 "echo ok")]

/-! ## Part 2: theorems -/

/-! ### `filepath.Clean` element by element -/

theorem joinSep_cons_tailSegs (s : List Char) (rest : List (List Char)) :
    joinSep (s :: rest) = s ++ joinSep (tailSegs rest) := by
  cases rest with
  | nil => simp [joinSep, tailSegs]
  | cons t r => simp [joinSep, tailSegs]

theorem norm_tailSegs (rooted : Bool) (rest : List (List Char)) (st : Nat × List (List Char)) :
    norm rooted (tailSegs rest) st = norm rooted rest st := by
  cases rest with
  | nil => simp [tailSegs]
  | cons t r => simp [tailSegs, norm, normStep]

theorem atElemEnd_joinSep_tailSegs (rest : List (List Char)) :
    atElemEnd (joinSep (tailSegs rest)) = true := by
  cases rest with
  | nil => simp [tailSegs, joinSep, atElemEnd]
  | cons t r => cases r <;> simp [tailSegs, joinSep, atElemEnd, IsPathSeparator]

theorem atElemEnd_append (s t : List Char) (hs : '/' ∉ s) (ht : atElemEnd t = true) :
    atElemEnd (s ++ t) = decide (s = []) := by
  cases s with
  | nil => simpa using ht
  | cons c s1 =>
    have : c ≠ '/' := by intro h; apply hs; simp [h]
    simp [atElemEnd, IsPathSeparator, this]

theorem copyElem_append (s t out : List Char) (hs : '/' ∉ s) (ht : atElemEnd t = true) :
    copyElem (s ++ t) out = (t, s.reverse ++ out) := by
  induction s generalizing out with
  | nil =>
    cases t with
    | nil => simp [copyElem]
    | cons c t1 =>
      simp only [atElemEnd] at ht
      simp [copyElem, ht]
  | cons c s1 ih =>
    have hc : c ≠ '/' := by intro h; apply hs; simp [h]
    have hs1 : '/' ∉ s1 := by intro h; apply hs; simp [h]
    simp [copyElem, IsPathSeparator, hc, ih _ hs1]

theorem backtrack_base (dd : Nat) (t B : List Char) (c : Char) (ht : '/' ∉ t)
    (hc : c ≠ '/') (hB : B.length = dd) : backtrack dd (t ++ B) c = B := by
  induction t generalizing c with
  | nil =>
    cases B with
    | nil => simp [backtrack]
    | cons b B1 => simp [backtrack, ← hB]
  | cons c1 t1 ih =>
    have hc1 : c1 ≠ '/' := by intro h; apply ht; simp [h]
    have ht1 : '/' ∉ t1 := by intro h; apply ht; simp [h]
    simp only [List.cons_append, backtrack, IsPathSeparator]
    rw [if_pos (by simp [hc]; omega)]
    exact ih c1 ht1 hc1

theorem backtrack_sep (dd : Nat) (t B : List Char) (c : Char) (ht : '/' ∉ t)
    (hc : c ≠ '/') (hB : dd ≤ B.length) : backtrack dd (t ++ '/' :: B) c = B := by
  induction t generalizing c with
  | nil =>
    simp only [List.nil_append, backtrack, IsPathSeparator]
    rw [if_pos (by simp [hc]; omega)]
    cases B with
    | nil => simp [backtrack]
    | cons b B1 =>
      have hsep : IsPathSeparator '/' = true := by decide
      simp [backtrack, hsep]
  | cons c1 t1 ih =>
    have hc1 : c1 ≠ '/' := by intro h; apply ht; simp [h]
    have ht1 : '/' ∉ t1 := by intro h; apply ht; simp [h]
    simp only [List.cons_append, backtrack, IsPathSeparator]
    rw [if_pos (by simp [hc]; omega)]
    exact ih c1 ht1 hc1

theorem baseR_length_le_outR (rooted : Bool) (ups : Nat) (stk : List (List Char)) :
    (baseR rooted ups).length ≤ (outR rooted ups stk).length := by
  induction stk with
  | nil => simp [outR]
  | cons s stk ih =>
    simp only [outR]
    split
    · simp
    · simp; omega

theorem outR_cons_length (rooted : Bool) (ups : Nat) (s : List Char) (stk : List (List Char)) :
    s.length + (baseR rooted ups).length ≤ (outR rooted ups (s :: stk)).length := by
  have h := baseR_length_le_outR rooted ups stk
  simp only [outR]
  split
  · simp
  · simp; omega

theorem dotsR_length_pos (n : Nat) : 0 < (dotsR (n + 1)).length := by
  cases n <;> simp [dotsR]

theorem dotsR_succ (n : Nat) :
    dotsR (n + 1) = '.' :: '.' :: (if 0 < (dotsR n).length then '/' :: dotsR n else dotsR n) := by
  cases n with
  | zero => simp [dotsR]
  | succ m => simp [dotsR, dotsR_length_pos]

theorem cleanLoop_sep (rooted : Bool) (fuel : Nat) (p out : List Char) (dd : Nat) :
    cleanLoop rooted (fuel + 1) ('/' :: p) out dd = cleanLoop rooted fuel p out dd := by
  have hsep : IsPathSeparator '/' = true := by decide
  simp [cleanLoop, hsep]

theorem cleanLoop_dot (rooted : Bool) (fuel : Nat) (p out : List Char) (dd : Nat)
    (hp : atElemEnd p = true) :
    cleanLoop rooted (fuel + 1) ('.' :: p) out dd = cleanLoop rooted fuel p out dd := by
  have hsep : IsPathSeparator '.' = false := by decide
  simp [cleanLoop, hsep, hp]

theorem dotdot_step (rooted : Bool) (fuel : Nat) (p : List Char) (ups : Nat)
    (stk : List (List Char)) (hg : Good rooted ups stk) (hp : atElemEnd p = true) :
    cleanLoop rooted (fuel + 1) ('.' :: '.' :: p) (outR rooted ups stk) (baseR rooted ups).length
      = cleanLoop rooted fuel p
          (outR rooted (normStep rooted (ups, stk) ['.', '.']).1
            (normStep rooted (ups, stk) ['.', '.']).2)
          (baseR rooted (normStep rooted (ups, stk) ['.', '.']).1).length := by
  have hsep : IsPathSeparator '.' = false := by decide
  have hend : atElemEnd ('.' :: p) = false := by simp [atElemEnd, hsep]
  have hstep : cleanLoop rooted (fuel + 1) ('.' :: '.' :: p) (outR rooted ups stk)
      (baseR rooted ups).length =
      (if (outR rooted ups stk).length > (baseR rooted ups).length then
        match outR rooted ups stk with
        | [] => cleanLoop rooted fuel p (outR rooted ups stk) (baseR rooted ups).length
        | c0 :: out1 =>
          cleanLoop rooted fuel p (backtrack (baseR rooted ups).length out1 c0)
            (baseR rooted ups).length
      else if !rooted then
        cleanLoop rooted fuel p
          ('.' :: '.' :: (if (outR rooted ups stk).length > 0 then '/' :: outR rooted ups stk
            else outR rooted ups stk))
          ('.' :: '.' :: (if (outR rooted ups stk).length > 0 then '/' :: outR rooted ups stk
            else outR rooted ups stk)).length
      else cleanLoop rooted fuel p (outR rooted ups stk) (baseR rooted ups).length) := by
    simp [cleanLoop, hsep, hend, hp]
  rw [hstep]
  cases stk with
  | nil =>
    have hlt : ¬ ((outR rooted ups []).length > (baseR rooted ups).length) := by simp [outR]
    rw [if_neg hlt]
    cases rooted with
    | true => simp [normStep]
    | false =>
      have h := dotsR_succ ups
      simp only [outR, baseR, normStep] at h ⊢
      simp [← h]
  | cons s0 stk1 =>
    have hs0 : NormalSeg s0 := hg.2 s0 (by simp)
    have hlen := outR_cons_length rooted ups s0 stk1
    have hs0len : 0 < s0.length := List.length_pos.mpr hs0.1
    rw [if_pos (by omega)]
    have hrev : s0.reverse ≠ [] := by simpa using hs0.1
    obtain ⟨c0, t0, hct⟩ := List.exists_cons_of_ne_nil hrev
    have hc0 : c0 ≠ '/' := by
      intro h
      apply hs0.2.2.2
      have : c0 ∈ s0.reverse := by rw [hct]; simp
      simpa [h] using this
    have ht0 : '/' ∉ t0 := by
      intro h
      apply hs0.2.2.2
      have : '/' ∈ s0.reverse := by rw [hct]; simp [h]
      simpa using this
    have hnorm : normStep rooted (ups, s0 :: stk1) ['.', '.'] = (ups, stk1) := by
      simp [normStep]
    rw [hnorm]
    by_cases hb : stk1 = [] ∧ ups = 0
    · have hout : outR rooted ups (s0 :: stk1) = c0 :: (t0 ++ baseR rooted ups) := by
        simp [outR, hb, hct]
      rw [hout]
      simp only
      rw [backtrack_base _ _ _ _ ht0 hc0 rfl]
      simp [hb.1, outR]
    · have hout : outR rooted ups (s0 :: stk1) = c0 :: (t0 ++ '/' :: outR rooted ups stk1) := by
        simp only [outR, if_neg hb, hct]
        simp
      rw [hout]
      simp only
      rw [backtrack_sep _ _ _ _ ht0 hc0 (baseR_length_le_outR rooted ups stk1)]

theorem sepCond_iff (rooted : Bool) (ups : Nat) (stk : List (List Char))
    (hg : Good rooted ups stk) :
    ((rooted && (outR rooted ups stk).length != 1) ||
      (!rooted && (outR rooted ups stk).length != 0)) = true ↔ ¬ (stk = [] ∧ ups = 0) := by
  cases stk with
  | nil =>
    cases rooted with
    | true =>
      have h0 : ups = 0 := hg.1 rfl
      simp [outR, baseR, h0]
    | false =>
      cases ups with
      | zero => simp [outR, baseR, dotsR]
      | succ n =>
        have h := dotsR_length_pos n
        have hne : (dotsR (n + 1)).length ≠ 0 := by omega
        simp [outR, baseR, hne]
  | cons s0 stk1 =>
    have hs0 : NormalSeg s0 := hg.2 s0 (by simp)
    have hlen := outR_cons_length rooted ups s0 stk1
    have hs0len : 0 < s0.length := List.length_pos.mpr hs0.1
    cases rooted with
    | true =>
      have hb : (baseR true ups).length = 1 := by simp [baseR]
      have hne : (outR true ups (s0 :: stk1)).length ≠ 1 := by omega
      simp [hne]
    | false =>
      have hne : (outR false ups (s0 :: stk1)).length ≠ 0 := by omega
      simp [hne]

theorem elem_step (rooted : Bool) (fuel : Nat) (s t : List Char) (ups : Nat)
    (stk : List (List Char)) (hg : Good rooted ups stk) (hs : NormalSeg s)
    (ht : atElemEnd t = true) :
    cleanLoop rooted (fuel + 1) (s ++ t) (outR rooted ups stk) (baseR rooted ups).length
      = cleanLoop rooted fuel t (outR rooted ups (s :: stk)) (baseR rooted ups).length := by
  obtain ⟨hne, hdot, hdd, hsl⟩ := hs
  cases s with
  | nil => exact absurd rfl hne
  | cons c s1 =>
    have hc : c ≠ '/' := by intro h; apply hsl; simp [h]
    have hs1 : '/' ∉ s1 := by intro h; apply hsl; simp [h]
    have hsepc : IsPathSeparator c = false := by simp [IsPathSeparator, hc]
    have hc2 : (c == '.' && atElemEnd (s1 ++ t)) = false := by
      rw [atElemEnd_append s1 t hs1 ht]
      by_cases h1 : c = '.'
      · by_cases h2 : s1 = []
        · exact absurd (by rw [h1, h2]) hdot
        · simp [h2]
      · simp [h1]
    have hc3 : (c == '.' && (s1 ++ t).head? == some '.' && atElemEnd ((s1 ++ t).drop 1))
        = false := by
      cases s1 with
      | nil =>
        have h1 : c ≠ '.' := by intro h; apply hdot; rw [h]
        simp [h1]
      | cons d s2 =>
        have hs2 : '/' ∉ s2 := by intro h; apply hs1; simp [h]
        have hdr : ((d :: s2) ++ t).drop 1 = s2 ++ t := by simp
        rw [hdr, atElemEnd_append s2 t hs2 ht]
        by_cases h1 : c = '.'
        · by_cases h2 : d = '.'
          · by_cases h3 : s2 = []
            · exact absurd (by rw [h1, h2, h3]) hdd
            · simp [h3]
          · simp [h2]
        · simp [h1]
    have hcopy := copyElem_append (c :: s1) t
    have hstep : ∀ out dd, cleanLoop rooted (fuel + 1) (c :: (s1 ++ t)) out dd =
        cleanLoop rooted fuel t ((c :: s1).reverse ++
          (if ((rooted && out.length != 1) || (!rooted && out.length != 0)) = true then '/' :: out
            else out)) dd := by
      intro out dd
      rw [cleanLoop.eq_def]
      simp only [hsepc, hc2, hc3, Bool.false_eq_true, ↓reduceIte]
      have h := hcopy (if ((rooted && out.length != 1) || (!rooted && out.length != 0)) = true
        then '/' :: out else out) hsl ht
      simp only [List.cons_append] at h
      rw [h]
    rw [List.cons_append, hstep]
    have hiff := sepCond_iff rooted ups stk hg
    by_cases hb : stk = [] ∧ ups = 0
    · have hcond : ¬ (((rooted && (outR rooted ups stk).length != 1) ||
          (!rooted && (outR rooted ups stk).length != 0)) = true) := by
        rw [hiff]; exact not_not.mpr hb
      rw [if_neg hcond]
      simp [outR, hb]
    · have hcond : ((rooted && (outR rooted ups stk).length != 1) ||
          (!rooted && (outR rooted ups stk).length != 0)) = true := hiff.mpr hb
      rw [if_pos hcond]
      simp [outR, hb]

theorem normStep_good (rooted : Bool) (ups : Nat) (stk : List (List Char)) (s : List Char)
    (hg : Good rooted ups stk) (hs : '/' ∉ s) :
    Good rooted (normStep rooted (ups, stk) s).1 (normStep rooted (ups, stk) s).2 := by
  unfold normStep
  by_cases h1 : s = [] ∨ s = ['.']
  · rw [if_pos h1]; exact hg
  · rw [if_neg h1]
    by_cases h2 : s = ['.', '.']
    · rw [if_pos h2]
      cases stk with
      | nil =>
        cases rooted with
        | true => exact hg
        | false => exact ⟨by simp, by simp⟩
      | cons s0 stk1 => exact ⟨hg.1, fun x hx => hg.2 x (by simp [hx])⟩
    · rw [if_neg h2]
      refine ⟨hg.1, ?_⟩
      intro x hx
      rcases List.mem_cons.mp hx with hx | hx
      · rw [hx]
        exact ⟨fun h => h1 (Or.inl h), fun h => h1 (Or.inr h), h2, hs⟩
      · exact hg.2 x hx

theorem norm_good (rooted : Bool) (segs : List (List Char)) (ups : Nat)
    (stk : List (List Char)) (hg : Good rooted ups stk) (hs : ∀ s ∈ segs, '/' ∉ s) :
    Good rooted (norm rooted segs (ups, stk)).1 (norm rooted segs (ups, stk)).2 := by
  induction segs generalizing ups stk with
  | nil => exact hg
  | cons s rest ih =>
    have h := normStep_good rooted ups stk s hg (hs s (by simp))
    exact ih _ _ h (fun x hx => hs x (by simp [hx]))

theorem norm_cons (rooted : Bool) (s : List Char) (rest : List (List Char))
    (st : Nat × List (List Char)) :
    norm rooted (s :: rest) st = norm rooted rest (normStep rooted st s) := rfl

theorem mem_tailSegs (rest : List (List Char)) (hs : ∀ s ∈ rest, '/' ∉ s) :
    ∀ s ∈ tailSegs rest, '/' ∉ s := by
  intro s hmem
  unfold tailSegs at hmem
  split at hmem
  · simp at hmem
  · rcases List.mem_cons.mp hmem with h | h
    · rw [h]; simp
    · exact hs s h

theorem cleanLoop_joinSep (rooted : Bool) :
    ∀ (fuel : Nat) (segs : List (List Char)) (ups : Nat) (stk : List (List Char)),
      (∀ s ∈ segs, '/' ∉ s) → (joinSep segs).length ≤ fuel → Good rooted ups stk →
      cleanLoop rooted fuel (joinSep segs) (outR rooted ups stk) (baseR rooted ups).length
        = outR rooted (norm rooted segs (ups, stk)).1 (norm rooted segs (ups, stk)).2 := by
  intro fuel
  induction fuel with
  | zero =>
    intro segs ups stk hs hlen hg
    have hnil : joinSep segs = [] := List.length_eq_zero.mp (Nat.le_zero.mp hlen)
    have hnorm : norm rooted segs (ups, stk) = (ups, stk) := by
      cases segs with
      | nil => rfl
      | cons s rest =>
        cases rest with
        | nil =>
          simp only [joinSep] at hnil
          simp [norm, normStep, hnil]
        | cons t r => simp [joinSep] at hnil
    rw [hnorm]
    simp [cleanLoop]
  | succ fuel ih =>
    intro segs ups stk hs hlen hg
    cases segs with
    | nil => simp [joinSep, cleanLoop, norm]
    | cons s rest =>
      have hrest : ∀ x ∈ rest, '/' ∉ x := fun x hx => hs x (by simp [hx])
      have hsl : '/' ∉ s := hs s (by simp)
      cases s with
      | nil =>
        cases rest with
        | nil => simp [joinSep, cleanLoop, norm, normStep]
        | cons t r =>
          have hj : joinSep ([] :: t :: r) = '/' :: joinSep (t :: r) := by simp [joinSep]
          have hn : norm rooted ([] :: t :: r) (ups, stk) = norm rooted (t :: r) (ups, stk) := by
            simp [norm, normStep]
          rw [hj, hn, cleanLoop_sep]
          rw [hj] at hlen
          exact ih (t :: r) ups stk hrest (by simpa using hlen) hg
      | cons c s1 =>
        rw [joinSep_cons_tailSegs] at hlen ⊢
        have hT := atElemEnd_joinSep_tailSegs rest
        have hTs := mem_tailSegs rest hrest
        have hTlen : (joinSep (tailSegs rest)).length ≤ fuel := by
          simp at hlen; omega
        rw [norm_cons, ← norm_tailSegs]
        by_cases h1 : c :: s1 = ['.']
        · have hn : normStep rooted (ups, stk) (c :: s1) = (ups, stk) := by
            simp [normStep, h1]
          rw [hn, h1]
          show cleanLoop rooted (fuel + 1) ('.' :: joinSep (tailSegs rest)) _ _ = _
          rw [cleanLoop_dot _ _ _ _ _ hT]
          exact ih (tailSegs rest) ups stk hTs hTlen hg
        · by_cases h2 : c :: s1 = ['.', '.']
          · have hgood := normStep_good rooted ups stk (c :: s1) hg hsl
            rw [h2] at hgood ⊢
            show cleanLoop rooted (fuel + 1) ('.' :: '.' :: joinSep (tailSegs rest)) _ _ = _
            rw [dotdot_step rooted fuel _ ups stk hg hT]
            exact ih (tailSegs rest) _ _ hTs hTlen hgood
          · have hns : NormalSeg (c :: s1) := ⟨by simp, h1, h2, hsl⟩
            have hn : normStep rooted (ups, stk) (c :: s1) = (ups, (c :: s1) :: stk) := by
              simp [normStep, h1, h2]
            have hgood := normStep_good rooted ups stk (c :: s1) hg hsl
            rw [hn] at hgood ⊢
            rw [elem_step rooted fuel _ _ ups stk hg hns hT]
            exact ih (tailSegs rest) ups ((c :: s1) :: stk) hTs hTlen hgood

/-! ### Elements of a path -/

theorem splitSep_ne_nil (p : List Char) : splitSep p ≠ [] := by
  cases p with
  | nil => simp [splitSep]
  | cons c p1 =>
    simp only [splitSep]
    split
    · simp
    · split <;> simp

theorem joinSep_splitSep (p : List Char) : joinSep (splitSep p) = p := by
  induction p with
  | nil => simp [splitSep, joinSep]
  | cons c p1 ih =>
    simp only [splitSep]
    by_cases hc : c = '/'
    · rw [if_pos hc]
      obtain ⟨t, r, htr⟩ := List.exists_cons_of_ne_nil (splitSep_ne_nil p1)
      rw [htr] at ih ⊢
      simp [joinSep, ih, hc]
    · rw [if_neg hc]
      obtain ⟨t, r, htr⟩ := List.exists_cons_of_ne_nil (splitSep_ne_nil p1)
      rw [htr] at ih ⊢
      cases r with
      | nil => simpa [joinSep] using ih
      | cons u r1 =>
        simp only [joinSep] at ih ⊢
        simp [← ih]

theorem splitSep_no_sep (p : List Char) : ∀ s ∈ splitSep p, '/' ∉ s := by
  induction p with
  | nil => simp [splitSep]
  | cons c p1 ih =>
    simp only [splitSep]
    by_cases hc : c = '/'
    · rw [if_pos hc]
      intro s hs
      rcases List.mem_cons.mp hs with h | h
      · rw [h]; simp
      · exact ih s h
    · rw [if_neg hc]
      obtain ⟨t, r, htr⟩ := List.exists_cons_of_ne_nil (splitSep_ne_nil p1)
      rw [htr] at ih ⊢
      intro s hs
      rcases List.mem_cons.mp hs with h | h
      · rw [h]
        have ht := ih t (by simp)
        intro hmem
        rcases List.mem_cons.mp hmem with h1 | h1
        · exact hc h1.symm
        · exact ht h1
      · exact ih s (by simp [h])

theorem joinSep_append (a b : List (List Char)) (ha : a ≠ []) (hb : b ≠ []) :
    joinSep (a ++ b) = joinSep a ++ '/' :: joinSep b := by
  induction a with
  | nil => exact absurd rfl ha
  | cons s a1 ih =>
    cases a1 with
    | nil =>
      obtain ⟨t, r, htr⟩ := List.exists_cons_of_ne_nil hb
      simp [htr, joinSep]
    | cons t r =>
      have h := ih (by simp)
      simp only [List.cons_append] at h ⊢
      simp [joinSep, h]

/-- The output of `filepath.Clean` for a final pair: the buffer, or `.` when it is empty. -/
theorem cleanChars_rel (segs : List (List Char)) (hs : ∀ s ∈ segs, '/' ∉ s)
    (hrel : atElemEnd (joinSep segs) = false ∨ joinSep segs = []) :
    cleanChars (joinSep segs) =
      (if (outR false (norm false segs (0, [])).1 (norm false segs (0, [])).2).length = 0
        then ['.']
        else (outR false (norm false segs (0, [])).1 (norm false segs (0, [])).2).reverse) := by
  have hg : Good false 0 [] := ⟨by simp, by simp⟩
  have hmain := cleanLoop_joinSep false (joinSep segs).length segs 0 [] hs (Nat.le_refl _) hg
  have hbase : outR false 0 [] = [] := by simp [outR, baseR, dotsR]
  have hbl : (baseR false 0).length = 0 := by simp [baseR, dotsR]
  rw [hbase, hbl] at hmain
  cases hp : joinSep segs with
  | nil =>
    rw [hp] at hmain
    have hrfl : cleanLoop false ([] : List Char).length [] [] 0 = [] := rfl
    have h0 : (outR false (norm false segs (0, [])).1 (norm false segs (0, [])).2) = [] := by
      rw [← hmain]; exact hrfl
    simp [cleanChars, h0]
  | cons c p1 =>
    rw [hp] at hmain hrel
    have hc : IsPathSeparator c = false := by
      rcases hrel with h | h
      · simpa [atElemEnd] using h
      · simp at h
    simp only [cleanChars, hc, Bool.false_eq_true, ↓reduceIte, hmain]

theorem cleanChars_abs (segs : List (List Char)) (hs : ∀ s ∈ segs, '/' ∉ s) :
    cleanChars ('/' :: joinSep segs) =
      (outR true (norm true segs (0, [])).1 (norm true segs (0, [])).2).reverse := by
  have hg : Good true 0 [] := ⟨by simp, by simp⟩
  have hmain := cleanLoop_joinSep true ((joinSep segs).length + 1) segs 0 [] hs
    (Nat.le_succ _) hg
  have hbase : outR true 0 [] = ['/'] := by simp [outR, baseR]
  have hbl : (baseR true 0).length = 1 := by simp [baseR]
  rw [hbase, hbl] at hmain
  have hsep : IsPathSeparator '/' = true := by decide
  have hlen := baseR_length_le_outR true (norm true segs (0, [])).1 (norm true segs (0, [])).2
  have hb1 : ∀ u, (baseR true u).length = 1 := by intro u; simp [baseR]
  rw [hb1] at hlen
  have hne : (outR true (norm true segs (0, [])).1 (norm true segs (0, [])).2).length ≠ 0 := by
    omega
  simp only [cleanChars, hsep, ↓reduceIte, List.length_cons, hmain, hne]

/-! ### `safeJoin` rejects what does not stay strictly inside the root -/

theorem norm_ups_pos (segs : List (List Char)) :
    ∀ (ups : Nat) (stk : List (List Char)), 0 < ups → 0 < (norm false segs (ups, stk)).1 := by
  induction segs with
  | nil => intro ups stk h; exact h
  | cons s rest ih =>
    intro ups stk h
    rw [norm_cons]
    have hstep : 0 < (normStep false (ups, stk) s).1 := by
      unfold normStep
      split
      · exact h
      · split
        · cases stk with
          | nil => simp
          | cons s0 stk1 => exact h
        · exact h
    exact ih (normStep false (ups, stk) s).1 (normStep false (ups, stk) s).2 hstep

theorem walk_norm (segs : List (List Char)) :
    ∀ (stk : List (List Char)),
      match lexWalk segs stk.length with
      | none => 0 < (norm false segs (0, stk)).1
      | some d => (norm false segs (0, stk)).1 = 0 ∧ (norm false segs (0, stk)).2.length = d := by
  induction segs with
  | nil => intro stk; simp [lexWalk, norm]
  | cons s rest ih =>
    intro stk
    rw [norm_cons]
    unfold lexWalk normStep
    by_cases h1 : s = [] ∨ s = ['.']
    · rw [if_pos h1, if_pos h1]
      exact ih stk
    · rw [if_neg h1, if_neg h1]
      by_cases h2 : s = ['.', '.']
      · rw [if_pos h2, if_pos h2]
        cases stk with
        | nil =>
          simp only [List.length_nil]
          exact norm_ups_pos rest 1 [] (by decide)
        | cons s0 stk1 =>
          simp only [List.length_cons]
          exact ih stk1
      · rw [if_neg h2, if_neg h2]
        have h := ih (s :: stk)
        simpa using h

theorem dotDotFirst_step (l x : List Char)
    (h : ∃ t, l.reverse = '.' :: '.' :: t ∧ atElemEnd t = true) :
    ∃ t, (x ++ '/' :: l).reverse = '.' :: '.' :: t ∧ atElemEnd t = true := by
  obtain ⟨t, ht, hend⟩ := h
  refine ⟨t ++ '/' :: x.reverse, by simp [ht], ?_⟩
  cases t with
  | nil => simp [atElemEnd, IsPathSeparator]
  | cons c t1 => simpa [atElemEnd] using hend

theorem dotsR_dotDotFirst (n : Nat) :
    ∃ t, (dotsR (n + 1)).reverse = '.' :: '.' :: t ∧ atElemEnd t = true := by
  induction n with
  | zero => exact ⟨[], by simp [dotsR], by simp [atElemEnd]⟩
  | succ m ih =>
    have h := dotDotFirst_step (dotsR (m + 1)) ['.', '.'] ih
    simpa [dotsR] using h

theorem outR_dotDotFirst (n : Nat) (stk : List (List Char)) :
    ∃ t, (outR false (n + 1) stk).reverse = '.' :: '.' :: t ∧ atElemEnd t = true := by
  induction stk with
  | nil => simpa [outR, baseR] using dotsR_dotDotFirst n
  | cons s stk1 ih =>
    have h := dotDotFirst_step (outR false (n + 1) stk1) s.reverse ih
    simpa [outR] using h

theorem rel_of_not_abs (rel : String) (h : IsAbs rel = false) :
    atElemEnd (joinSep (splitSep rel.data)) = false ∨ joinSep (splitSep rel.data) = [] := by
  rw [joinSep_splitSep]
  unfold IsAbs at h
  cases hd : rel.data with
  | nil => exact Or.inr rfl
  | cons c p1 =>
    rw [hd] at h
    exact Or.inl (by simpa [atElemEnd, IsPathSeparator] using h)

theorem clean_data_rel (rel : String) (h : IsAbs rel = false) :
    (Clean rel).data =
      (if (outR false (norm false (splitSep rel.data) (0, [])).1
            (norm false (splitSep rel.data) (0, [])).2).length = 0
        then ['.']
        else (outR false (norm false (splitSep rel.data) (0, [])).1
            (norm false (splitSep rel.data) (0, [])).2).reverse) := by
  have h1 := cleanChars_rel (splitSep rel.data) (splitSep_no_sep rel.data) (rel_of_not_abs rel h)
  rw [joinSep_splitSep] at h1
  exact h1

theorem leadingParent_resolvesAbove (rel : String) (h : LeadingParent rel) :
    ResolvesAbove rel := by
  unfold LeadingParent at h
  unfold ResolvesAbove
  cases hs : splitSep rel.data with
  | nil => rw [hs] at h; simp at h
  | cons s rest =>
    rw [hs] at h
    simp only [List.head?_cons, Option.some.injEq] at h
    rw [h]
    simp [lexWalk]

theorem safeJoin_error_of_clean_dot (root rel : String) (h : (Clean rel).data = ['.']) :
    ∃ e, safeJoin root rel = ("", some e) := by
  have hc : Clean rel = "." := String.ext h
  unfold safeJoin
  split
  · exact ⟨_, rfl⟩
  · simp [hc]

theorem safeJoin_error_of_clean_dotdot (root rel : String) (t : List Char)
    (h : (Clean rel).data = '.' :: '.' :: t) (ht : atElemEnd t = true) :
    ∃ e, safeJoin root rel = ("", some e) := by
  have hcond : (hasDotDotSepPrefix (Clean rel) || decide (Clean rel = "..")) = true := by
    cases t with
    | nil =>
      have hc : Clean rel = ".." := String.ext h
      simp [hc]
    | cons c t1 =>
      have hc : c = '/' := by simpa [atElemEnd, IsPathSeparator] using ht
      simp [hasDotDotSepPrefix, h, hc]
  simp only [safeJoin]
  split_ifs with h1 h2
  · exact ⟨_, rfl⟩
  · exact ⟨_, rfl⟩
  · exact ⟨_, rfl⟩

/-- C1: `safeJoin` returns an error and no path for every expression that is
absolute, lexically normalizes to the root itself, begins with a
parent-traversal segment, or lexically resolves above the root. -/
theorem safeJoin_rejects_outside (root rel : String)
    (h : IsAbs rel = true ∨ ResolvesToRoot rel ∨ LeadingParent rel ∨ ResolvesAbove rel) :
    ∃ e, safeJoin root rel = ("", some e) := by
  by_cases habs : IsAbs rel = true
  · refine ⟨.leaf "path must be relative", ?_⟩
    simp [safeJoin, habs]
  · have hrel : IsAbs rel = false := by simpa using habs
    have hdata := clean_data_rel rel hrel
    have hw := walk_norm (splitSep rel.data) []
    have habove : ResolvesAbove rel → ∃ e, safeJoin root rel = ("", some e) := by
      intro ha
      unfold ResolvesAbove at ha
      simp only [List.length_nil, ha] at hw
      obtain ⟨n, hn⟩ := Nat.exists_eq_succ_of_ne_zero (Nat.pos_iff_ne_zero.mp hw)
      rw [hn] at hdata
      obtain ⟨t, ht, hend⟩ := outR_dotDotFirst n (norm false (splitSep rel.data) (0, [])).2
      have hlen : (outR false (n + 1) (norm false (splitSep rel.data) (0, [])).2).length ≠ 0 := by
        intro h0
        have : (outR false (n + 1) (norm false (splitSep rel.data) (0, [])).2).reverse = [] := by
          rw [List.length_eq_zero.mp h0]; rfl
        rw [this] at ht
        simp at ht
      rw [if_neg hlen, ht] at hdata
      exact safeJoin_error_of_clean_dotdot root rel t hdata hend
    rcases h with h | h | h | h
    · exact absurd h habs
    · unfold ResolvesToRoot at h
      simp only [List.length_nil, h] at hw
      have hnil : (norm false (splitSep rel.data) (0, [])).2 = [] := List.length_eq_zero.mp hw.2
      rw [hw.1, hnil] at hdata
      have hout : outR false 0 [] = [] := by simp [outR, baseR, dotsR]
      rw [hout] at hdata
      exact safeJoin_error_of_clean_dot root rel (by simpa using hdata)
    · exact habove (leadingParent_resolvesAbove rel h)
    · exact habove h

/-- C1, at the expression `a/../../b` under the root `/repo`. -/
theorem safeJoin_rejects_outside_witness :
    ResolvesAbove "a/../../b" ∧ ∃ e, safeJoin "/repo" "a/../../b" = ("", some e) :=
  ⟨by decide, safeJoin_rejects_outside "/repo" "a/../../b" (Or.inr (Or.inr (Or.inr (by decide))))⟩

/-! ### `safeJoin` on expressions that stay within the root -/

theorem norm_normal (rooted : Bool) (segs : List (List Char)) (hs : ∀ s ∈ segs, NormalSeg s) :
    ∀ (ups : Nat) (stk : List (List Char)),
      norm rooted segs (ups, stk) = (ups, segs.reverse ++ stk) := by
  induction segs with
  | nil => intro ups stk; simp [norm]
  | cons s rest ih =>
    intro ups stk
    obtain ⟨h0, h1, h2, _⟩ := hs s (by simp)
    have hn : normStep rooted (ups, stk) s = (ups, s :: stk) := by
      simp [normStep, h0, h1, h2]
    rw [norm_cons, hn, ih (fun x hx => hs x (by simp [hx]))]
    simp

theorem norm_append (rooted : Bool) (a b : List (List Char)) (st : Nat × List (List Char)) :
    norm rooted (a ++ b) st = norm rooted b (norm rooted a st) := by
  simp [norm, List.foldl_append]

theorem outR_rev_append (rooted : Bool) (ups : Nat) (stk : List (List Char)) :
    ∀ (L : List (List Char)), L ≠ [] →
      (outR rooted ups (L ++ stk)).reverse =
        (outR rooted ups stk).reverse ++ (if stk = [] ∧ ups = 0 then [] else ['/'])
          ++ joinSep L.reverse := by
  intro L
  induction L with
  | nil => intro h; exact absurd rfl h
  | cons s L1 ih =>
    intro _
    cases L1 with
    | nil =>
      by_cases hb : stk = [] ∧ ups = 0
      · simp [outR, hb, joinSep]
      · simp [outR, hb, joinSep]
    | cons t r =>
      have h := ih (by simp)
      have hne : ¬ ((t :: r) ++ stk = [] ∧ ups = 0) := by simp
      have hj : joinSep ((s :: t :: r).reverse) = joinSep ((t :: r).reverse) ++ '/' :: s := by
        have := joinSep_append (t :: r).reverse [s] (by simp) (by simp)
        simpa [joinSep] using this
      have hcons : outR rooted ups (s :: ((t :: r) ++ stk)) =
          s.reverse ++ '/' :: outR rooted ups ((t :: r) ++ stk) := by
        rw [outR, if_neg hne]
      show (outR rooted ups (s :: ((t :: r) ++ stk))).reverse = _
      rw [hcons, List.reverse_append, List.reverse_cons, List.reverse_reverse, h, hj]
      simp

theorem seg_unique (s : List Char) :
    ∀ (s2 t t2 : List Char), '/' ∉ s → '/' ∉ s2 → atElemEnd t = true → atElemEnd t2 = true →
      s ++ t = s2 ++ t2 → s = s2 := by
  induction s with
  | nil =>
    intro s2 t t2 _ hs2 ht _ h
    cases s2 with
    | nil => rfl
    | cons c s3 =>
      simp only [List.nil_append, List.cons_append] at h
      rw [h] at ht
      have hc : c = '/' := by simpa [atElemEnd, IsPathSeparator] using ht
      exact absurd (by simp [hc]) hs2
  | cons c s1 ih =>
    intro s2 t t2 hs hs2 ht ht2 h
    cases s2 with
    | nil =>
      simp only [List.nil_append, List.cons_append] at h
      rw [← h] at ht2
      have hc : c = '/' := by simpa [atElemEnd, IsPathSeparator] using ht2
      exact absurd (by simp [hc]) hs
    | cons c2 s3 =>
      simp only [List.cons_append, List.cons.injEq] at h
      have h1 := ih s3 t t2 (fun hm => hs (by simp [hm])) (fun hm => hs2 (by simp [hm])) ht ht2 h.2
      rw [h.1, h1]

theorem joinSep_normal_first (segs : List (List Char)) (hne : segs ≠ [])
    (hs : ∀ s ∈ segs, NormalSeg s) :
    joinSep segs ≠ [] ∧ joinSep segs ≠ ['.'] ∧ joinSep segs ≠ ['.', '.'] ∧
      ∀ u, joinSep segs ≠ '.' :: '.' :: '/' :: u := by
  obtain ⟨s, rest, hsr⟩ := List.exists_cons_of_ne_nil hne
  rw [hsr] at hs ⊢
  obtain ⟨h0, h1, h2, h3⟩ := hs s (by simp)
  rw [joinSep_cons_tailSegs]
  have hT := atElemEnd_joinSep_tailSegs rest
  have key : ∀ (s2 t2 : List Char), '/' ∉ s2 → atElemEnd t2 = true →
      s ++ joinSep (tailSegs rest) = s2 ++ t2 → s = s2 :=
    fun s2 t2 hs2 ht2 h => seg_unique s s2 _ t2 h3 hs2 hT ht2 h
  refine ⟨?_, ?_, ?_, ?_⟩
  · intro h
    exact h0 (key [] [] (by simp) (by simp [atElemEnd]) (by simpa using h))
  · intro h
    exact h1 (key ['.'] [] (by simp) (by simp [atElemEnd]) (by simpa using h))
  · intro h
    exact h2 (key ['.', '.'] [] (by simp) (by simp [atElemEnd]) (by simpa using h))
  · intro u h
    exact h2 (key ['.', '.'] ('/' :: u) (by simp) (by simp [atElemEnd, IsPathSeparator])
      (by simpa using h))

theorem cleanChars_append_rel (R : List Char) (hrel : atElemEnd R = false)
    (hclean : cleanChars R = R) (hdot : R ≠ ['.']) (segsC : List (List Char))
    (hne : segsC ≠ []) (hs : ∀ s ∈ segsC, NormalSeg s) :
    cleanChars (R ++ '/' :: joinSep segsC) = R ++ '/' :: joinSep segsC := by
  have hJ := joinSep_splitSep R
  have h1 := cleanChars_rel (splitSep R) (splitSep_no_sep R) (by rw [hJ]; exact Or.inl hrel)
  rw [hJ, hclean] at h1
  have hlen : (outR false (norm false (splitSep R) (0, [])).1
      (norm false (splitSep R) (0, [])).2).length ≠ 0 := by
    intro h0
    rw [if_pos h0] at h1
    exact hdot h1
  rw [if_neg hlen] at h1
  have hnb : ¬ ((norm false (splitSep R) (0, [])).2 = [] ∧ (norm false (splitSep R) (0, [])).1 = 0) := by
    intro hb
    apply hlen
    rw [hb.1, hb.2]
    simp [outR, baseR, dotsR]
  have hpath : R ++ '/' :: joinSep segsC = joinSep (splitSep R ++ segsC) := by
    rw [joinSep_append _ _ (splitSep_ne_nil R) hne, hJ]
  have hnosep : ∀ s ∈ splitSep R ++ segsC, '/' ∉ s := by
    intro s hmem
    rcases List.mem_append.mp hmem with h | h
    · exact splitSep_no_sep R s h
    · exact (hs s h).2.2.2
  have hrel2 : atElemEnd (joinSep (splitSep R ++ segsC)) = false := by
    rw [← hpath]
    cases R with
    | nil => simp [atElemEnd] at hrel
    | cons c R1 => simpa [atElemEnd] using hrel
  have h2 := cleanChars_rel (splitSep R ++ segsC) hnosep (Or.inl hrel2)
  have hnorm : norm false (splitSep R ++ segsC) (0, []) =
      ((norm false (splitSep R) (0, [])).1,
        segsC.reverse ++ (norm false (splitSep R) (0, [])).2) := by
    rw [norm_append]
    exact norm_normal false segsC hs _ _
  have hrev := outR_rev_append false (norm false (splitSep R) (0, [])).1
    (norm false (splitSep R) (0, [])).2 segsC.reverse (by simpa using hne)
  rw [if_neg hnb, List.reverse_reverse, ← h1] at hrev
  rw [hnorm] at h2
  simp only at h2
  have hlen2 : (outR false (norm false (splitSep R) (0, [])).1
      (segsC.reverse ++ (norm false (splitSep R) (0, [])).2)).length ≠ 0 := by
    intro h0
    have hnil := List.length_eq_zero.mp h0
    rw [hnil] at hrev
    simp at hrev
  rw [if_neg hlen2, hrev, ← hpath] at h2
  rw [h2]
  simp

theorem cleanChars_append_abs (p1 : List Char) (hclean : cleanChars ('/' :: p1) = '/' :: p1)
    (segsC : List (List Char)) (hne : segsC ≠ []) (hs : ∀ s ∈ segsC, NormalSeg s) :
    cleanChars (('/' :: p1) ++ '/' :: joinSep segsC) =
      (if p1 = [] then ['/'] else ('/' :: p1) ++ ['/']) ++ joinSep segsC := by
  have hJ := joinSep_splitSep p1
  have h1 := cleanChars_abs (splitSep p1) (splitSep_no_sep p1)
  rw [hJ, hclean] at h1
  have hg := norm_good true (splitSep p1) 0 [] ⟨by simp, by simp⟩ (splitSep_no_sep p1)
  have hups : (norm true (splitSep p1) (0, [])).1 = 0 := hg.1 rfl
  have hpath : ('/' :: p1) ++ '/' :: joinSep segsC = '/' :: joinSep (splitSep p1 ++ segsC) := by
    rw [joinSep_append _ _ (splitSep_ne_nil p1) hne, hJ]
    simp
  have hnosep : ∀ s ∈ splitSep p1 ++ segsC, '/' ∉ s := by
    intro s hmem
    rcases List.mem_append.mp hmem with h | h
    · exact splitSep_no_sep p1 s h
    · exact (hs s h).2.2.2
  have h2 := cleanChars_abs (splitSep p1 ++ segsC) hnosep
  have hnorm : norm true (splitSep p1 ++ segsC) (0, []) =
      ((norm true (splitSep p1) (0, [])).1,
        segsC.reverse ++ (norm true (splitSep p1) (0, [])).2) := by
    rw [norm_append]
    exact norm_normal true segsC hs _ _
  have hrev := outR_rev_append true (norm true (splitSep p1) (0, [])).1
    (norm true (splitSep p1) (0, [])).2 segsC.reverse (by simpa using hne)
  rw [List.reverse_reverse, ← h1] at hrev
  rw [hnorm] at h2
  simp only at h2
  rw [hpath, h2, hrev]
  have hiff : ((norm true (splitSep p1) (0, [])).2 = [] ∧
      (norm true (splitSep p1) (0, [])).1 = 0) ↔ p1 = [] := by
    constructor
    · intro hb
      rw [hb.1, hb.2] at h1
      simpa [outR, baseR] using h1
    · intro hp
      refine ⟨?_, hups⟩
      cases hstk : (norm true (splitSep p1) (0, [])).2 with
      | nil => rfl
      | cons s0 stk1 =>
        exfalso
        have hs0 : NormalSeg s0 := hg.2 s0 (by rw [hstk]; simp)
        have hlen := outR_cons_length true (norm true (splitSep p1) (0, [])).1 s0 stk1
        have hs0len : 0 < s0.length := List.length_pos.mpr hs0.1
        have hb : (baseR true (norm true (splitSep p1) (0, [])).1).length = 1 := by simp [baseR]
        rw [hstk] at h1
        have hl : ('/' :: p1).length =
            (outR true (norm true (splitSep p1) (0, [])).1 (s0 :: stk1)).reverse.length := by
          rw [h1]
        rw [List.length_reverse] at hl
        have hp0 : p1.length = 0 := by rw [hp]; rfl
        simp only [List.length_cons] at hl
        omega
  by_cases hp : p1 = []
  · rw [if_pos (hiff.mpr hp), if_pos hp, hp]
    simp
  · rw [if_neg (fun h => hp (hiff.mp h)), if_neg hp]

theorem within_clean (rel : String) (h : StaysWithin rel) :
    ∃ segs, segs ≠ [] ∧ (∀ s ∈ segs, NormalSeg s) ∧ (Clean rel).data = joinSep segs := by
  obtain ⟨habs, d, hd⟩ := h
  have hdata := clean_data_rel rel habs
  have hw := walk_norm (splitSep rel.data) []
  simp only [List.length_nil, hd] at hw
  have hg := norm_good false (splitSep rel.data) 0 [] ⟨by simp, by simp⟩
    (splitSep_no_sep rel.data)
  have hne : (norm false (splitSep rel.data) (0, [])).2 ≠ [] := by
    intro h0
    rw [h0] at hw
    simp at hw
  have hrev := outR_rev_append false 0 [] (norm false (splitSep rel.data) (0, [])).2 hne
  have hbase : outR false 0 [] = [] := by simp [outR, baseR, dotsR]
  rw [hbase] at hrev
  simp only [List.append_nil, List.reverse_nil, and_self, ↓reduceIte, List.nil_append] at hrev
  have hsegs : ∀ s ∈ (norm false (splitSep rel.data) (0, [])).2.reverse, NormalSeg s :=
    fun s hs => hg.2 s (List.mem_reverse.mp hs)
  have hfirst := joinSep_normal_first _ (by simpa using hne) hsegs
  refine ⟨(norm false (splitSep rel.data) (0, [])).2.reverse, by simpa using hne, hsegs, ?_⟩
  rw [hdata, hw.1, hrev]
  rw [if_neg]
  intro h0
  rw [← hrev] at hfirst
  apply hfirst.1
  rw [List.length_eq_zero.mp h0]
  rfl

theorem hasDotDotSepPrefix_data (c : String) (h : hasDotDotSepPrefix c = true) :
    ∃ u, c.data = '.' :: '.' :: '/' :: u := by
  unfold hasDotDotSepPrefix at h
  split at h
  · exact ⟨_, by assumption⟩
  · simp at h

theorem safeJoin_ok_of_within (root rel : String) (h : StaysWithin rel) :
    safeJoin root rel = (Join [root, Clean rel], none) := by
  obtain ⟨segs, hne, hs, hdata⟩ := within_clean rel h
  obtain ⟨f0, f1, f2, f3⟩ := joinSep_normal_first segs hne hs
  rw [← hdata] at f0 f1 f2 f3
  have h1 : Clean rel ≠ "." := fun hc => f1 (by rw [hc])
  have h2 : Clean rel ≠ "" := fun hc => f0 (by rw [hc])
  have h3 : Clean rel ≠ ".." := fun hc => f2 (by rw [hc])
  have h4 : hasDotDotSepPrefix (Clean rel) = false := by
    cases hp : hasDotDotSepPrefix (Clean rel) with
    | false => rfl
    | true =>
      obtain ⟨u, hu⟩ := hasDotDotSepPrefix_data _ hp
      exact absurd hu (f3 u)
  simp [safeJoin, h.1, h1, h2, h3, h4]

theorem join_clean_root (root : String) (hroot : Clean root = root) (hdot : root ≠ ".")
    (c : String) (segs : List (List Char)) (hne : segs ≠ []) (hs : ∀ s ∈ segs, NormalSeg s)
    (hc : c.data = joinSep segs) :
    Join [root, c] = (if root = "/" then root else root ++ "/") ++ c := by
  have hcl : cleanChars root.data = root.data := congrArg String.data hroot
  have hnil : root.data ≠ [] := by
    intro h0
    rw [h0] at hcl
    simp [cleanChars] at hcl
  have hJ : Join [root, c] = ⟨cleanChars (root.data ++ '/' :: joinSep segs)⟩ := by
    simp [Join, hnil, joinSep, Clean, hc]
  rw [hJ]
  apply String.ext
  obtain ⟨c0, p1, hcp⟩ := List.exists_cons_of_ne_nil hnil
  by_cases hsep : c0 = '/'
  · rw [hsep] at hcp
    rw [hcp] at hcl ⊢
    rw [cleanChars_append_abs p1 hcl segs hne hs]
    by_cases hp : p1 = []
    · have hr : root = "/" := String.ext (by rw [hcp, hp])
      rw [if_pos hp, if_pos hr, String.data_append, hc, hcp, hp]
    · have hr : root ≠ "/" := by
        intro h0
        apply hp
        have : root.data = ['/'] := by rw [h0]
        rw [hcp] at this
        simpa using this
      rw [if_neg hp, if_neg hr, String.data_append, String.data_append, hc, hcp]
  · have hr : root ≠ "/" := by
      intro h0
      apply hsep
      have : root.data = ['/'] := by rw [h0]
      rw [hcp] at this
      exact (List.cons.inj this).1
    have hrel : atElemEnd root.data = false := by
      rw [hcp]; simp [atElemEnd, IsPathSeparator, hsep]
    have hd : root.data ≠ ['.'] := fun h0 => hdot (String.ext h0)
    rw [cleanChars_append_rel root.data hrel hcl hd segs hne hs]
    rw [if_neg hr, String.data_append, String.data_append, hc]
    simp

/-! ### The root is normalized along with the expression -/

theorem outR_false_length_zero (ups : Nat) (stk : List (List Char)) (hg : Good false ups stk) :
    (outR false ups stk).length = 0 ↔ stk = [] ∧ ups = 0 := by
  constructor
  · intro h
    cases stk with
    | nil =>
      refine ⟨rfl, ?_⟩
      cases ups with
      | zero => rfl
      | succ n =>
        have hp := dotsR_length_pos n
        simp only [outR, baseR, Bool.false_eq_true, if_false] at h
        omega
    | cons s0 stk1 =>
      have hl := outR_cons_length false ups s0 stk1
      have hs0 : 0 < s0.length := List.length_pos.mpr (hg.2 s0 (by simp)).1
      omega
  · intro h
    rw [h.1, h.2]
    simp [outR, baseR, dotsR]

theorem joinSep_normal_head (segs : List (List Char)) (hne : segs ≠ [])
    (hs : ∀ s ∈ segs, NormalSeg s) : atElemEnd (joinSep segs) = false := by
  obtain ⟨s, rest, hsr⟩ := List.exists_cons_of_ne_nil hne
  rw [hsr] at hs ⊢
  obtain ⟨h0, _, _, h3⟩ := hs s (by simp)
  obtain ⟨c, s1, hcs⟩ := List.exists_cons_of_ne_nil h0
  have hc : c ≠ '/' := by
    intro h
    apply h3
    rw [hcs, h]
    simp
  rw [hcs]
  cases rest with
  | nil => simp [joinSep, atElemEnd, IsPathSeparator, hc]
  | cons t r => simp [joinSep, atElemEnd, IsPathSeparator, hc]

theorem outR_zero_rev (rooted : Bool) (stk : List (List Char)) (hne : stk ≠ []) :
    (outR rooted 0 stk).reverse = (baseR rooted 0).reverse ++ joinSep stk.reverse := by
  have h := outR_rev_append rooted 0 [] stk hne
  simpa [outR] using h

theorem cleanChars_normal (segs : List (List Char)) (hne : segs ≠ [])
    (hs : ∀ s ∈ segs, NormalSeg s) : cleanChars (joinSep segs) = joinSep segs := by
  have hnosep : ∀ s ∈ segs, '/' ∉ s := fun s h => (hs s h).2.2.2
  have h1 := cleanChars_rel segs hnosep (Or.inl (joinSep_normal_head segs hne hs))
  rw [norm_normal false segs hs 0 []] at h1
  simp only [List.append_nil] at h1
  have hrev := outR_zero_rev false segs.reverse (by simpa using hne)
  have hb : baseR false 0 = [] := by simp [baseR, dotsR]
  rw [hb, List.reverse_reverse] at hrev
  simp only [List.reverse_nil, List.nil_append] at hrev
  have hlen : (outR false 0 segs.reverse).length ≠ 0 := by
    intro h0
    rw [List.length_eq_zero.mp h0] at hrev
    exact (joinSep_normal_first segs hne hs).1 (by simpa using hrev.symm)
  rw [if_neg hlen, hrev] at h1
  exact h1

theorem cleanChars_append_abs_any (p1 : List Char) (segsC : List (List Char))
    (hne : segsC ≠ []) (hs : ∀ s ∈ segsC, NormalSeg s) :
    cleanChars (('/' :: p1) ++ '/' :: joinSep segsC) =
      (if cleanChars ('/' :: p1) = ['.'] then []
        else if cleanChars ('/' :: p1) = ['/'] then ['/']
        else cleanChars ('/' :: p1) ++ ['/']) ++ joinSep segsC := by
  have hJ := joinSep_splitSep p1
  have h1 := cleanChars_abs (splitSep p1) (splitSep_no_sep p1)
  rw [hJ] at h1
  have hg := norm_good true (splitSep p1) 0 [] ⟨by simp, by simp⟩ (splitSep_no_sep p1)
  have hups : (norm true (splitSep p1) (0, [])).1 = 0 := hg.1 rfl
  have hpath : ('/' :: p1) ++ '/' :: joinSep segsC = '/' :: joinSep (splitSep p1 ++ segsC) := by
    rw [joinSep_append _ _ (splitSep_ne_nil p1) hne, hJ]
    simp
  have hnosep : ∀ s ∈ splitSep p1 ++ segsC, '/' ∉ s := by
    intro s hmem
    rcases List.mem_append.mp hmem with h | h
    · exact splitSep_no_sep p1 s h
    · exact (hs s h).2.2.2
  have h2 := cleanChars_abs (splitSep p1 ++ segsC) hnosep
  have hnorm : norm true (splitSep p1 ++ segsC) (0, []) =
      ((norm true (splitSep p1) (0, [])).1,
        segsC.reverse ++ (norm true (splitSep p1) (0, [])).2) := by
    rw [norm_append]
    exact norm_normal true segsC hs _ _
  have hrev := outR_rev_append true (norm true (splitSep p1) (0, [])).1
    (norm true (splitSep p1) (0, [])).2 segsC.reverse (by simpa using hne)
  rw [List.reverse_reverse, ← h1] at hrev
  rw [hnorm] at h2
  simp only at h2
  rw [hpath, h2, hrev]
  rw [hups] at h1
  have hb : baseR true 0 = ['/'] := by simp [baseR]
  cases hstk : (norm true (splitSep p1) (0, [])).2 with
  | nil =>
    rw [hstk] at h1
    have h3 : cleanChars ('/' :: p1) = ['/'] := by rw [h1]; simp [outR, baseR]
    rw [h3]
    simp [hups]
  | cons s0 stk1 =>
    rw [hstk] at h1
    have hn : ∀ s ∈ (s0 :: stk1).reverse, NormalSeg s := by
      intro s hm
      exact hg.2 s (by rw [hstk]; exact List.mem_reverse.mp hm)
    have hr := outR_zero_rev true (s0 :: stk1) (by simp)
    rw [hb] at hr
    have hj := (joinSep_normal_first (s0 :: stk1).reverse (by simp) hn).1
    have h3 : cleanChars ('/' :: p1) = '/' :: joinSep (s0 :: stk1).reverse := by
      rw [h1, hr]; rfl
    have hd : cleanChars ('/' :: p1) ≠ ['.'] := by rw [h3]; simp
    have hsl : cleanChars ('/' :: p1) ≠ ['/'] := by
      rw [h3]
      intro h
      exact hj (by simpa using h)
    rw [if_neg hd, if_neg hsl]
    simp

theorem cleanChars_append_rel_any (R : List Char) (hrel : atElemEnd R = false)
    (segsC : List (List Char)) (hne : segsC ≠ []) (hs : ∀ s ∈ segsC, NormalSeg s) :
    cleanChars (R ++ '/' :: joinSep segsC) =
      (if cleanChars R = ['.'] then []
        else if cleanChars R = ['/'] then ['/']
        else cleanChars R ++ ['/']) ++ joinSep segsC := by
  have hJ := joinSep_splitSep R
  have h1 := cleanChars_rel (splitSep R) (splitSep_no_sep R) (by rw [hJ]; exact Or.inl hrel)
  rw [hJ] at h1
  have hg := norm_good false (splitSep R) 0 [] ⟨by simp, by simp⟩ (splitSep_no_sep R)
  have hpath : R ++ '/' :: joinSep segsC = joinSep (splitSep R ++ segsC) := by
    rw [joinSep_append _ _ (splitSep_ne_nil R) hne, hJ]
  have hnosep : ∀ s ∈ splitSep R ++ segsC, '/' ∉ s := by
    intro s hmem
    rcases List.mem_append.mp hmem with h | h
    · exact splitSep_no_sep R s h
    · exact (hs s h).2.2.2
  have hrel2 : atElemEnd (joinSep (splitSep R ++ segsC)) = false := by
    rw [← hpath]
    cases R with
    | nil => simp [atElemEnd] at hrel
    | cons c R1 => simpa [atElemEnd] using hrel
  have h2 := cleanChars_rel (splitSep R ++ segsC) hnosep (Or.inl hrel2)
  have hnorm : norm false (splitSep R ++ segsC) (0, []) =
      ((norm false (splitSep R) (0, [])).1,
        segsC.reverse ++ (norm false (splitSep R) (0, [])).2) := by
    rw [norm_append]
    exact norm_normal false segsC hs _ _
  have hrev := outR_rev_append false (norm false (splitSep R) (0, [])).1
    (norm false (splitSep R) (0, [])).2 segsC.reverse (by simpa using hne)
  rw [List.reverse_reverse] at hrev
  rw [hnorm] at h2
  simp only at h2
  have hlen2 : (outR false (norm false (splitSep R) (0, [])).1
      (segsC.reverse ++ (norm false (splitSep R) (0, [])).2)).length ≠ 0 := by
    intro h0
    have hnil := List.length_eq_zero.mp h0
    rw [hnil] at hrev
    have hj := (joinSep_normal_first segsC hne hs).1
    have : joinSep segsC = [] := by
      have h5 := congrArg List.length hrev
      simp only [List.reverse_nil, List.length_nil, List.length_append] at h5
      exact List.length_eq_zero.mp (by omega)
    exact hj this
  rw [if_neg hlen2, hrev, ← hpath] at h2
  rw [h2]
  have hz := outR_false_length_zero _ _ hg
  by_cases hb : (norm false (splitSep R) (0, [])).2 = [] ∧ (norm false (splitSep R) (0, [])).1 = 0
  · rw [if_pos (hz.mpr hb)] at h1
    rw [h1, if_pos hb, hb.1, hb.2]
    simp [outR, baseR, dotsR]
  · have hl : (outR false (norm false (splitSep R) (0, [])).1
        (norm false (splitSep R) (0, [])).2).length ≠ 0 := fun h0 => hb (hz.mp h0)
    rw [if_neg hl] at h1
    rw [if_neg hb, ← h1]
    have hnd : cleanChars R ≠ ['.'] ∧ cleanChars R ≠ ['/'] := by
      rw [h1]
      cases hu : (norm false (splitSep R) (0, [])).1 with
      | succ n =>
        obtain ⟨t, ht, _⟩ := outR_dotDotFirst n (norm false (splitSep R) (0, [])).2
        rw [ht]
        simp
      | zero =>
        have hstk : (norm false (splitSep R) (0, [])).2 ≠ [] := fun h0 => hb ⟨h0, hu⟩
        have hn : ∀ s ∈ (norm false (splitSep R) (0, [])).2.reverse, NormalSeg s :=
          fun s hm => hg.2 s (List.mem_reverse.mp hm)
        have hr := outR_zero_rev false _ hstk
        have hb0 : baseR false 0 = [] := by simp [baseR, dotsR]
        rw [hb0] at hr
        simp only [List.reverse_nil, List.nil_append] at hr
        rw [hr]
        have hf := joinSep_normal_first _ (by simpa using hstk) hn
        have hh := joinSep_normal_head _ (by simpa using hstk) hn
        refine ⟨hf.2.1, ?_⟩
        intro h0
        rw [h0] at hh
        simp [atElemEnd, IsPathSeparator] at hh
    rw [if_neg hnd.1, if_neg hnd.2]

theorem join_lex (root c : String) (segs : List (List Char)) (hne : segs ≠ [])
    (hs : ∀ s ∈ segs, NormalSeg s) (hc : c.data = joinSep segs) :
    Join [root, c] =
      (if Clean root = "." then "" else if Clean root = "/" then "/" else Clean root ++ "/")
        ++ c := by
  have hcne : c.data ≠ [] := by rw [hc]; exact (joinSep_normal_first segs hne hs).1
  have e1 : (Clean root = ".") ↔ cleanChars root.data = ['.'] := by
    constructor
    · intro h; exact congrArg String.data h
    · intro h; exact String.ext h
  have e2 : (Clean root = "/") ↔ cleanChars root.data = ['/'] := by
    constructor
    · intro h; exact congrArg String.data h
    · intro h; exact String.ext h
  apply String.ext
  by_cases hnil : root.data = []
  · have hJ : Join [root, c] = ⟨cleanChars c.data⟩ := by
      simp [Join, hnil, hcne, joinSep, Clean]
    have hcl : Clean root = "." := by
      apply String.ext
      simp [Clean, hnil, cleanChars]
    rw [hJ, if_pos hcl, hc, cleanChars_normal segs hne hs, String.data_append, hc]
    rfl
  · have hJ : Join [root, c] = ⟨cleanChars (root.data ++ '/' :: joinSep segs)⟩ := by
      simp [Join, hnil, joinSep, Clean, hc]
    rw [hJ]
    have hgen : cleanChars (root.data ++ '/' :: joinSep segs) =
        (if cleanChars root.data = ['.'] then []
          else if cleanChars root.data = ['/'] then ['/']
          else cleanChars root.data ++ ['/']) ++ joinSep segs := by
      obtain ⟨c0, p1, hcp⟩ := List.exists_cons_of_ne_nil hnil
      by_cases hsep : c0 = '/'
      · rw [hcp, hsep]
        exact cleanChars_append_abs_any p1 segs hne hs
      · have hrel : atElemEnd root.data = false := by
          rw [hcp]; simp [atElemEnd, IsPathSeparator, hsep]
        exact cleanChars_append_rel_any root.data hrel segs hne hs
    show cleanChars (root.data ++ '/' :: joinSep segs) = _
    rw [hgen, String.data_append, hc]
    by_cases h1 : cleanChars root.data = ['.']
    · rw [if_pos h1, if_pos (e1.mpr h1)]
    · rw [if_neg h1, if_neg (fun h => h1 (e1.mp h))]
      by_cases h2 : cleanChars root.data = ['/']
      · rw [if_pos h2, if_pos (e2.mpr h2)]
      · rw [if_neg h2, if_neg (fun h => h2 (e2.mp h)), String.data_append]
        rfl

theorem splitSep_append (a b : List Char) :
    splitSep (a ++ '/' :: b) = splitSep a ++ splitSep b := by
  induction a with
  | nil => simp [splitSep]
  | cons c a1 ih =>
    by_cases hc : c = '/'
    · simp [splitSep, hc, ih]
    · obtain ⟨t, r, htr⟩ := List.exists_cons_of_ne_nil (splitSep_ne_nil a1)
      rw [List.cons_append]
      simp only [splitSep, if_neg hc]
      rw [ih, htr]
      rfl

theorem lexElems_join (R c : String) :
    lexElems ((if R = "." then "" else if R = "/" then "/" else R ++ "/") ++ c)
      = lexElems R ++ lexElems c := by
  unfold lexElems
  by_cases h1 : R = "."
  · rw [if_pos h1, h1]
    simp [splitSep]
  · rw [if_neg h1]
    by_cases h2 : R = "/"
    · rw [if_pos h2, h2]
      simp [splitSep]
    · rw [if_neg h2]
      have hd : (R ++ "/" ++ c).data = R.data ++ '/' :: c.data := by
        simp [String.data_append]
      rw [hd, splitSep_append, List.filter_append]

/-- C2: for every root and every expression that stays within the root,
`safeJoin` succeeds and the path it returns is the normalized root joined with
the normalized expression: `Clean(root)`, a separator, `Clean(rel)` (no
separator after the root `/`, and `Clean(rel)` alone when the root normalizes
to `.`, the directory the path is relative to).  So the normalized root is a
prefix of the result, and the elements of the result are the elements of the
root followed by those of the expression.  For a root that is already
normalized (as the roots the program passes are) the root string itself is the
prefix. -/
theorem safeJoin_within_root (root rel : String) (hrel : StaysWithin rel) :
    safeJoin root rel = (Join [root, Clean rel], none) ∧
      Join [root, Clean rel] =
        (if Clean root = "." then "" else if Clean root = "/" then "/" else Clean root ++ "/")
          ++ Clean rel ∧
      (Clean root ≠ "." → (Clean root).data <+: (Join [root, Clean rel]).data) ∧
      lexElems (Join [root, Clean rel]) = lexElems (Clean root) ++ lexElems (Clean rel) ∧
      (Clean root = root → root ≠ "." →
        Join [root, Clean rel] = (if root = "/" then root else root ++ "/") ++ Clean rel ∧
          root.data <+: (Join [root, Clean rel]).data) := by
  obtain ⟨segs, hne, hs, hdata⟩ := within_clean rel hrel
  have hlex := join_lex root (Clean rel) segs hne hs hdata
  refine ⟨safeJoin_ok_of_within root rel hrel, hlex, ?_, ?_, ?_⟩
  · intro hdot
    rw [hlex, if_neg hdot]
    by_cases hr : Clean root = "/"
    · rw [if_pos hr, hr, String.data_append]
      exact List.prefix_append _ _
    · rw [if_neg hr, String.data_append, String.data_append, List.append_assoc]
      exact List.prefix_append _ _
  · rw [hlex]
    exact lexElems_join (Clean root) (Clean rel)
  · intro hroot hdot
    have hj := join_clean_root root hroot hdot (Clean rel) segs hne hs hdata
    refine ⟨hj, ?_⟩
    rw [hj]
    by_cases hr : root = "/"
    · rw [if_pos hr, String.data_append]
      exact List.prefix_append _ _
    · rw [if_neg hr, String.data_append, String.data_append, List.append_assoc]
      exact List.prefix_append _ _

/-- C2, at the expression `configs/./x/../app.env` under the root
`/srv/../repo`, which normalizes to `/repo`. -/
theorem safeJoin_within_root_witness :
    StaysWithin "configs/./x/../app.env" ∧
      safeJoin "/srv/../repo" "configs/./x/../app.env" = ("/repo/configs/app.env", none) ∧
      Clean "/srv/../repo" = "/repo" ∧
      "/repo".data <+: "/repo/configs/app.env".data ∧
      lexElems "/repo/configs/app.env"
        = lexElems "/repo" ++ lexElems "configs/app.env" := by
  have hw : StaysWithin "configs/./x/../app.env" := ⟨by decide, 1, by decide⟩
  have h := safeJoin_within_root "/srv/../repo" "configs/./x/../app.env" hw
  have hj : Join ["/srv/../repo", Clean "configs/./x/../app.env"] = "/repo/configs/app.env" := by
    decide
  have hc : Clean "/srv/../repo" = "/repo" := by decide
  have hr : Clean "configs/./x/../app.env" = "configs/app.env" := by decide
  rw [hj, hc, hr] at h
  exact ⟨hw, h.1, hc, h.2.2.1 (by decide), h.2.2.2.1⟩

/-! ### Nothing to do -/

/-- C8: when `.whq.json` does not exist, or has no `post_add` key, or both its
lists are empty, `runPostAddActions` returns success, leaves the world as it
was, and causes no event: no copy, no command, no announcement. -/
theorem runPostAddActions_nothing_to_do {σ : Type} (w : World σ)
    (repoRoot worktreeRoot : String) (s : σ)
    (h : (∃ err, w.readFile s (Join [repoRoot, ".whq.json"]) = .error err ∧
            w.isNotExist err = true) ∨
         (∃ data cfg, w.readFile s (Join [repoRoot, ".whq.json"]) = .ok data ∧
            w.unmarshal data = .ok cfg ∧ cfg.PostAdd = none) ∨
         (∃ data cfg pa, w.readFile s (Join [repoRoot, ".whq.json"]) = .ok data ∧
            w.unmarshal data = .ok cfg ∧ cfg.PostAdd = some pa ∧
            pa.Copy = [] ∧ pa.Commands = [])) :
    runPostAddActions w repoRoot worktreeRoot s = ⟨s, [], none⟩ := by
  rcases h with ⟨err, hr, hn⟩ | ⟨data, cfg, hr, hu, hp⟩ | ⟨data, cfg, pa, hr, hu, hp, hc, hm⟩
  · simp [runPostAddActions, loadWHQConfig, hr, hn]
  · simp [runPostAddActions, loadWHQConfig, hr, hu, hp]
  · simp [runPostAddActions, loadWHQConfig, hr, hu, hp, hc, hm]

/-- C8, in a world without `.whq.json`. -/
theorem runPostAddActions_nothing_to_do_witness :
    runPostAddActions (demoWorld none []) "/repo" "/wt" ["/repo/a.txt"]
      = ⟨["/repo/a.txt"], [], none⟩ :=
  runPostAddActions_nothing_to_do (demoWorld none []) "/repo" "/wt" ["/repo/a.txt"]
    (Or.inl ⟨.leaf "open .whq.json: no such file or directory", rfl, by decide⟩)

/-! ### Rollback -/

/-- C5: with `removeBranch = false`, whatever the worktree removal and the
directory cleanup do, `cleanupFailedAdd` runs exactly one external command,
`git worktree remove <worktreeRoot>`, and none of its events is a
`git branch -d` or a `git branch -D`. -/
theorem cleanupFailedAdd_keeps_branch {σ : Type} (w : World σ)
    (repoRoot worktreeRoot branch : String) (s : σ) :
    (cleanupFailedAdd w repoRoot worktreeRoot branch false s).events.filter Event.isExec
        = [.exec repoRoot "git" ["worktree", "remove", worktreeRoot]] ∧
      ∀ e ∈ (cleanupFailedAdd w repoRoot worktreeRoot branch false s).events,
        e.isBranchDelete = false := by
  cases hr : (w.run s repoRoot "git" ["worktree", "remove", worktreeRoot]).2 with
  | none =>
    simp [cleanupFailedAdd, removeWorktree, hr, Event.isExec, Event.isBranchDelete]
  | some err =>
    simp [cleanupFailedAdd, removeWorktree, hr, Event.isExec, Event.isBranchDelete]

/-- C10: when the worktree removal returns an error, `cleanupFailedAdd`
returns that error wrapped as the worktree-removal failure, whether or not
the branch is newly created; its only events are the notice on standard error
and the run of `git worktree remove <worktreeRoot>` without `--force`: no
`os.RemoveAll`, no branch deletion. -/
theorem cleanupFailedAdd_stops_at_worktree_removal {σ : Type} (w : World σ)
    (repoRoot worktreeRoot branch : String) (removeBranch : Bool) (s : σ) (err : GoError)
    (h : (removeWorktree w repoRoot worktreeRoot false s).ret = some err) :
    (cleanupFailedAdd w repoRoot worktreeRoot branch removeBranch s).ret
        = some (.wrap ("whq: cleanup failed while removing worktree: " ++ err.Error) err) ∧
      (cleanupFailedAdd w repoRoot worktreeRoot branch removeBranch s).events
        = [.stderr ("Post-add failed: removing worktree " ++ worktreeRoot ++ "\n"),
           .exec repoRoot "git" ["worktree", "remove", worktreeRoot]] ∧
      (cleanupFailedAdd w repoRoot worktreeRoot branch removeBranch s).state
        = (removeWorktree w repoRoot worktreeRoot false s).state := by
  unfold cleanupFailedAdd
  simp only [h]
  simp [removeWorktree]

/-- C10, in a world where `git worktree remove /wt` fails. -/
theorem cleanupFailedAdd_stops_at_worktree_removal_witness :
    (removeWorktree (demoWorld none [["git", "worktree", "remove", "/wt"]])
        "/repo" "/wt" false ["/wt"]).ret = some (.exitError 1) ∧
      (cleanupFailedAdd (demoWorld none [["git", "worktree", "remove", "/wt"]])
        "/repo" "/wt" "feature" true ["/wt"]).events
        = [.stderr "Post-add failed: removing worktree /wt\n",
           .exec "/repo" "git" ["worktree", "remove", "/wt"]] :=
  ⟨by decide,
    (cleanupFailedAdd_stops_at_worktree_removal
      (demoWorld none [["git", "worktree", "remove", "/wt"]])
      "/repo" "/wt" "feature" true ["/wt"] (.exitError 1) (by decide)).2.1⟩

/-- C6: for a newly created branch whose worktree removal succeeded, the safe
delete `git branch -d` runs first, in the state left by the directory cleanup;
the forced delete `git branch -D` runs exactly when the safe delete failed,
right after it; and `cleanupFailedAdd` returns the branch-deletion failure
exactly when both failed, success otherwise. -/
theorem cleanupFailedAdd_branch_chain {σ : Type} (w : World σ)
    (repoRoot worktreeRoot branch : String) (s : σ)
    (h : (removeWorktree w repoRoot worktreeRoot false s).ret = none) :
    (cleanupFailedAdd w repoRoot worktreeRoot branch true s).events.filter Event.isBranchDelete
        = (if (w.run (w.removeAll (removeWorktree w repoRoot worktreeRoot false s).state
              worktreeRoot).1 repoRoot "git" ["branch", "-d", branch]).2 = none
           then [.exec repoRoot "git" ["branch", "-d", branch]]
           else [.exec repoRoot "git" ["branch", "-d", branch],
                 .exec repoRoot "git" ["branch", "-D", branch]]) ∧
      (cleanupFailedAdd w repoRoot worktreeRoot branch true s).ret
        = (match (w.run (w.removeAll (removeWorktree w repoRoot worktreeRoot false s).state
              worktreeRoot).1 repoRoot "git" ["branch", "-d", branch]).2 with
           | none => none
           | some _ =>
             match (w.run (w.run (w.removeAll
                (removeWorktree w repoRoot worktreeRoot false s).state worktreeRoot).1
                repoRoot "git" ["branch", "-d", branch]).1
                repoRoot "git" ["branch", "-D", branch]).2 with
             | none => none
             | some err2 =>
               some (.wrap ("whq: cleanup failed while deleting branch: " ++ err2.Error) err2)) := by
  have hd : Event.isBranchDelete (.exec repoRoot "git" ["branch", "-d", branch]) = true := rfl
  have hD : Event.isBranchDelete (.exec repoRoot "git" ["branch", "-D", branch]) = true := rfl
  have hw : Event.isBranchDelete (.exec repoRoot "git" ["worktree", "remove", worktreeRoot])
      = false := rfl
  unfold cleanupFailedAdd
  simp only [h]
  have hev : (removeWorktree w repoRoot worktreeRoot false s).events
      = [.exec repoRoot "git" ["worktree", "remove", worktreeRoot]] := by
    simp [removeWorktree]
  cases h1 : (w.run (w.removeAll (removeWorktree w repoRoot worktreeRoot false s).state
      worktreeRoot).1 repoRoot "git" ["branch", "-d", branch]).2 with
  | none =>
    simp [deleteBranch, h1, hev, List.filter, hd, hw, Event.isBranchDelete]
  | some e1 =>
    cases h2 : (w.run (w.run (w.removeAll
        (removeWorktree w repoRoot worktreeRoot false s).state worktreeRoot).1
        repoRoot "git" ["branch", "-d", branch]).1
        repoRoot "git" ["branch", "-D", branch]).2 with
    | none =>
      simp [deleteBranch, h1, h2, hev, List.filter, hd, hD, hw, Event.isBranchDelete]
    | some e2 =>
      simp [deleteBranch, h1, h2, hev, List.filter, hd, hD, hw, Event.isBranchDelete]

/-- C6, in a world where the safe delete fails and the forced delete succeeds. -/
theorem cleanupFailedAdd_branch_chain_witness :
    (removeWorktree (demoWorld none [["git", "branch", "-d", "feature"]])
        "/repo" "/wt" false ["/wt"]).ret = none ∧
      (cleanupFailedAdd (demoWorld none [["git", "branch", "-d", "feature"]])
        "/repo" "/wt" "feature" true ["/wt"]).ret = none := by
  have h := cleanupFailedAdd_branch_chain (demoWorld none [["git", "branch", "-d", "feature"]])
    "/repo" "/wt" "feature" ["/wt"] (by decide)
  exact ⟨by decide, h.2.trans (by decide)⟩

/-! ### The pipeline, entry by entry -/

theorem copyEntries_append {σ : Type} (w : World σ) (repoRoot worktreeRoot : String)
    (pre rest : List String) :
    ∀ (s : σ), CopiesSucceed w repoRoot worktreeRoot pre s →
      copyEntries w repoRoot worktreeRoot (pre ++ rest) s =
        ⟨(copyEntries w repoRoot worktreeRoot rest
            (afterCopies w repoRoot worktreeRoot pre s)).state,
          copyRunEvents repoRoot worktreeRoot pre ++
            (copyEntries w repoRoot worktreeRoot rest
              (afterCopies w repoRoot worktreeRoot pre s)).events,
          (copyEntries w repoRoot worktreeRoot rest
            (afterCopies w repoRoot worktreeRoot pre s)).ret⟩ := by
  induction pre with
  | nil => intro s _; simp [afterCopies, copyRunEvents]
  | cons raw pre1 ih =>
    intro s h
    obtain ⟨h0, h1, h2, h3, h4, h5⟩ := h
    have ih1 := ih _ h5
    rcases hsrc : safeJoin repoRoot (TrimSpace raw) with ⟨src, e1⟩
    rcases hdst : safeJoin worktreeRoot (TrimSpace raw) with ⟨dest, e2⟩
    rw [hsrc] at h1 h2 h4 ih1
    rw [hdst] at h3 h4 ih1
    simp only at h1 h2 h3 h4 ih1
    subst h1
    subst h3
    rw [List.cons_append]
    simp only [copyEntries, if_neg h0, hsrc, hdst, h2, h4, afterCopies,
      copyRunEvents, copyEventOf]
    rw [ih1]
    simp

theorem commandEntries_append {σ : Type} (w : World σ) (worktreeRoot : String) (total : Nat)
    (pre rest : List String) :
    ∀ (i : Nat) (s : σ), CommandsSucceed w worktreeRoot pre s →
      commandEntries w worktreeRoot total i (pre ++ rest) s =
        ⟨(commandEntries w worktreeRoot total (i + pre.length) rest
            (afterCommands w worktreeRoot pre s)).state,
          commandRunEvents worktreeRoot total i pre ++
            (commandEntries w worktreeRoot total (i + pre.length) rest
              (afterCommands w worktreeRoot pre s)).events,
          (commandEntries w worktreeRoot total (i + pre.length) rest
            (afterCommands w worktreeRoot pre s)).ret⟩ := by
  induction pre with
  | nil => intro i s _; simp [afterCommands, commandRunEvents]
  | cons raw pre1 ih =>
    intro i s h
    obtain ⟨h0, h1, h2⟩ := h
    have ih1 := ih (i + 1) _ h2
    have hidx : i + 1 + pre1.length = i + (pre1.length + 1) := by omega
    rw [hidx] at ih1
    rw [List.cons_append]
    simp only [commandEntries, if_neg h0, h1, afterCommands,
      commandRunEvents, commandEventOf, List.length_cons]
    rw [ih1]
    simp

theorem actions_stdout (t : String) (l : List Event) :
    actions (.stdout t :: l) = actions l := rfl

theorem actions_copy (a b : String) (l : List Event) :
    actions (.copy a b :: l) = .copy a b :: actions l := rfl

theorem actions_exec (d n : String) (a : List String) (l : List Event) :
    actions (.exec d n a :: l) = .exec d n a :: actions l := rfl

theorem actions_copyRunEvents (repoRoot worktreeRoot : String) (entries : List String) :
    actions (copyRunEvents repoRoot worktreeRoot entries)
      = entries.map (copyEventOf repoRoot worktreeRoot) := by
  induction entries with
  | nil => rfl
  | cons raw rest ih =>
    simp only [copyRunEvents, copyEventOf, actions_stdout, actions_copy, ih, List.map_cons]

theorem actions_commandRunEvents (worktreeRoot : String) (total : Nat)
    (entries : List String) :
    ∀ (i : Nat), actions (commandRunEvents worktreeRoot total i entries)
      = entries.map (commandEventOf worktreeRoot) := by
  induction entries with
  | nil => intro i; rfl
  | cons raw rest ih =>
    intro i
    simp only [commandRunEvents, commandEventOf, actions_stdout, actions_exec, ih (i + 1),
      List.map_cons]

theorem actions_append (a b : List Event) : actions (a ++ b) = actions a ++ actions b := by
  simp [actions]

theorem executePostAddCopies_eq {σ : Type} (w : World σ) (entries : List String)
    (repoRoot worktreeRoot : String) (s : σ) :
    executePostAddCopies w entries repoRoot worktreeRoot s
      = copyEntries w repoRoot worktreeRoot entries s := by
  cases entries with
  | nil => simp [executePostAddCopies, copyEntries]
  | cons raw rest => simp [executePostAddCopies]

theorem executePostAddCommands_eq {σ : Type} (w : World σ) (commands : List String)
    (worktreeRoot : String) (s : σ) :
    executePostAddCommands w commands worktreeRoot s
      = commandEntries w worktreeRoot commands.length 0 commands s := by
  cases commands with
  | nil => simp [executePostAddCommands, commandEntries]
  | cons raw rest => simp [executePostAddCommands]

theorem runPostAddActions_eq {σ : Type} (w : World σ) (repoRoot worktreeRoot : String) (s : σ)
    (cfg : whqConfig) (pa : postAddConfig)
    (hload : loadWHQConfig w s repoRoot = (some cfg, none)) (hpa : cfg.PostAdd = some pa)
    (hne : ¬ (pa.Copy.length = 0 ∧ pa.Commands.length = 0)) :
    runPostAddActions w repoRoot worktreeRoot s =
      (match (copyEntries w repoRoot worktreeRoot pa.Copy s).ret with
        | some err =>
          ⟨(copyEntries w repoRoot worktreeRoot pa.Copy s).state,
            .stdout ("Post-add (.whq.json): starting (copy=" ++ toString pa.Copy.length
              ++ ", commands=" ++ toString pa.Commands.length ++ ")\n") ::
              (copyEntries w repoRoot worktreeRoot pa.Copy s).events, some err⟩
        | none =>
          match (commandEntries w worktreeRoot pa.Commands.length 0 pa.Commands
              (copyEntries w repoRoot worktreeRoot pa.Copy s).state).ret with
          | some err =>
            ⟨(commandEntries w worktreeRoot pa.Commands.length 0 pa.Commands
                (copyEntries w repoRoot worktreeRoot pa.Copy s).state).state,
              .stdout ("Post-add (.whq.json): starting (copy=" ++ toString pa.Copy.length
                ++ ", commands=" ++ toString pa.Commands.length ++ ")\n") ::
                (copyEntries w repoRoot worktreeRoot pa.Copy s).events ++
                (commandEntries w worktreeRoot pa.Commands.length 0 pa.Commands
                  (copyEntries w repoRoot worktreeRoot pa.Copy s).state).events, some err⟩
          | none =>
            ⟨(commandEntries w worktreeRoot pa.Commands.length 0 pa.Commands
                (copyEntries w repoRoot worktreeRoot pa.Copy s).state).state,
              .stdout ("Post-add (.whq.json): starting (copy=" ++ toString pa.Copy.length
                ++ ", commands=" ++ toString pa.Commands.length ++ ")\n") ::
                (copyEntries w repoRoot worktreeRoot pa.Copy s).events ++
                (commandEntries w worktreeRoot pa.Commands.length 0 pa.Commands
                  (copyEntries w repoRoot worktreeRoot pa.Copy s).state).events ++
                [.stdout "Post-add (.whq.json): completed\n"], none⟩) := by
  unfold runPostAddActions
  simp only [hload, Option.bind, hpa, if_neg hne, executePostAddCopies_eq,
    executePostAddCommands_eq]

/-- C3: when the copy entry at index `i = pre.length` is the first whose source
is missing (its `Lstat` fails), all earlier entries succeeding,
`runPostAddActions` returns the copy-source-not-found error carrying that
entry's text, stops in the state left by the earlier copies, and the only
actions of the run are the copies of the earlier entries: no copy for entry
`i` or a later one, and no command at all. -/
theorem runPostAddActions_copy_source_missing {σ : Type} (w : World σ)
    (repoRoot worktreeRoot : String) (s : σ) (cfg : whqConfig) (pa : postAddConfig)
    (pre post : List String) (raw : String) (err : GoError)
    (hload : loadWHQConfig w s repoRoot = (some cfg, none)) (hpa : cfg.PostAdd = some pa)
    (hcopy : pa.Copy = pre ++ raw :: post)
    (hpre : CopiesSucceed w repoRoot worktreeRoot pre s)
    (hitem : TrimSpace raw ≠ "")
    (hguard : (safeJoin repoRoot (TrimSpace raw)).2 = none)
    (hlstat : w.lstat (afterCopies w repoRoot worktreeRoot pre s)
      (safeJoin repoRoot (TrimSpace raw)).1 = some err) :
    (runPostAddActions w repoRoot worktreeRoot s).ret
        = some (.wrap ("whq: post-add copy source " ++ w.quote (TrimSpace raw) ++ " not found: "
            ++ err.Error) err) ∧
      (runPostAddActions w repoRoot worktreeRoot s).state
        = afterCopies w repoRoot worktreeRoot pre s ∧
      actions (runPostAddActions w repoRoot worktreeRoot s).events
        = pre.map (copyEventOf repoRoot worktreeRoot) := by
  have hne : ¬ (pa.Copy.length = 0 ∧ pa.Commands.length = 0) := by
    rw [hcopy]; simp
  have hhead : copyEntries w repoRoot worktreeRoot (raw :: post)
      (afterCopies w repoRoot worktreeRoot pre s) =
      ⟨afterCopies w repoRoot worktreeRoot pre s, [],
        some (.wrap ("whq: post-add copy source " ++ w.quote (TrimSpace raw) ++ " not found: "
          ++ err.Error) err)⟩ := by
    rcases hsrc : safeJoin repoRoot (TrimSpace raw) with ⟨src, e1⟩
    rw [hsrc] at hguard hlstat
    simp only at hguard hlstat
    subst hguard
    simp only [copyEntries, if_neg hitem, hsrc, hlstat]
  have hrun := copyEntries_append w repoRoot worktreeRoot pre (raw :: post) s hpre
  rw [hhead] at hrun
  rw [runPostAddActions_eq w repoRoot worktreeRoot s cfg pa hload hpa hne, hcopy, hrun]
  refine ⟨rfl, rfl, ?_⟩
  simp only [List.append_nil, actions_stdout, actions_copyRunEvents]

/-- C3, with the copy list `present.txt`, ` missing.txt `, `later.txt`. -/
theorem runPostAddActions_copy_source_missing_witness :
    (runPostAddActions (demoWorld (some demoCopyConfig) []) "/repo" "/wt"
        ["/repo/present.txt", "/repo/later.txt"]).ret
        = some (.wrap ("whq: post-add copy source \"missing.txt\" not found: "
            ++ "lstat /repo/missing.txt: no such file or directory")
            (.leaf "lstat /repo/missing.txt: no such file or directory")) ∧
      actions (runPostAddActions (demoWorld (some demoCopyConfig) []) "/repo" "/wt"
        ["/repo/present.txt", "/repo/later.txt"]).events
        = [.copy "/repo/present.txt" "/wt/present.txt"] := by
  have h := runPostAddActions_copy_source_missing (demoWorld (some demoCopyConfig) [])
    "/repo" "/wt" ["/repo/present.txt", "/repo/later.txt"] demoCopyConfig
    ⟨["present.txt", " missing.txt ", "later.txt"], ["echo hi"]⟩
    ["present.txt"] ["later.txt"] " missing.txt "
    (.leaf "lstat /repo/missing.txt: no such file or directory")
    (by decide) rfl rfl
    ⟨by decide, by decide, by decide, by decide, by decide, trivial⟩
    (by decide) (by decide) (by decide)
  exact ⟨h.1.trans (by decide), h.2.2.trans (by decide)⟩

/-- C4: when every copy succeeds and the command at index `j = pre.length` is
the first to end with an error, all earlier commands succeeding,
`runPostAddActions` returns the command-failed error, whose message carries
the text of that command (the entry as it is run, trimmed), and the commands
run are exactly those of the entries `0..j`, in order, each in the worktree
root: none after `j`. -/
theorem runPostAddActions_command_fails {σ : Type} (w : World σ)
    (repoRoot worktreeRoot : String) (s : σ) (cfg : whqConfig) (pa : postAddConfig)
    (pre post : List String) (raw : String) (err : GoError)
    (hload : loadWHQConfig w s repoRoot = (some cfg, none)) (hpa : cfg.PostAdd = some pa)
    (hcopies : CopiesSucceed w repoRoot worktreeRoot pa.Copy s)
    (hcmd : pa.Commands = pre ++ raw :: post)
    (hpre : CommandsSucceed w worktreeRoot pre (afterCopies w repoRoot worktreeRoot pa.Copy s))
    (hitem : TrimSpace raw ≠ "")
    (hfail : (w.run (afterCommands w worktreeRoot pre
        (afterCopies w repoRoot worktreeRoot pa.Copy s))
        worktreeRoot "bash" ["-lc", TrimSpace raw]).2 = some err) :
    (runPostAddActions w repoRoot worktreeRoot s).ret
        = some (.wrap ("whq: post-add command failed (" ++ TrimSpace raw ++ "): " ++ err.Error)
            err) ∧
      (∃ e before after, (runPostAddActions w repoRoot worktreeRoot s).ret = some e ∧
        e.Error = before ++ TrimSpace raw ++ after) ∧
      (runPostAddActions w repoRoot worktreeRoot s).events.filter Event.isExec
        = (pre ++ [raw]).map (commandEventOf worktreeRoot) := by
  have hne : ¬ (pa.Copy.length = 0 ∧ pa.Commands.length = 0) := by
    rw [hcmd]; simp
  have hc := copyEntries_append w repoRoot worktreeRoot pa.Copy [] s hcopies
  simp only [List.append_nil, copyEntries] at hc
  have hhead : commandEntries w worktreeRoot pa.Commands.length (0 + pre.length) (raw :: post)
      (afterCommands w worktreeRoot pre (afterCopies w repoRoot worktreeRoot pa.Copy s)) =
      ⟨(w.run (afterCommands w worktreeRoot pre
          (afterCopies w repoRoot worktreeRoot pa.Copy s))
          worktreeRoot "bash" ["-lc", TrimSpace raw]).1,
        [.stdout ("Post-add cmd " ++ toString (0 + pre.length + 1) ++ "/"
            ++ toString pa.Commands.length ++ ": " ++ TrimSpace raw ++ "\n"),
          .exec worktreeRoot "bash" ["-lc", TrimSpace raw]],
        some (.wrap ("whq: post-add command failed (" ++ TrimSpace raw ++ "): " ++ err.Error)
          err)⟩ := by
    simp only [commandEntries, if_neg hitem, hfail]
  have hrun := commandEntries_append w worktreeRoot pa.Commands.length pre (raw :: post) 0
    (afterCopies w repoRoot worktreeRoot pa.Copy s) hpre
  rw [hhead] at hrun
  rw [← hcmd] at hrun
  have hret : (runPostAddActions w repoRoot worktreeRoot s).ret
      = some (.wrap ("whq: post-add command failed (" ++ TrimSpace raw ++ "): " ++ err.Error)
          err) := by
    rw [runPostAddActions_eq w repoRoot worktreeRoot s cfg pa hload hpa hne, hc]
    simp only [hrun]
  refine ⟨hret, ⟨_, "whq: post-add command failed (", "): " ++ err.Error, hret, ?_⟩, ?_⟩
  · simp only [GoError.Error, String.append_assoc]
  rw [runPostAddActions_eq w repoRoot worktreeRoot s cfg pa hload hpa hne, hc]
  simp only [hrun]
  have hx : ∀ l, List.filter Event.isExec l = List.filter Event.isExec (actions l) := by
    intro l
    simp only [actions, List.filter_filter]
    congr 1
    funext e
    cases e <;> rfl
  rw [hx]
  simp only [actions_stdout, actions_append, actions_copyRunEvents, actions_commandRunEvents,
    actions_exec]
  have hcp : ∀ l : List String,
      List.filter Event.isExec (l.map (copyEventOf repoRoot worktreeRoot)) = [] := by
    intro l
    induction l with
    | nil => rfl
    | cons a l ih => simp [copyEventOf, Event.isExec]
  have hcm : ∀ l : List String,
      List.filter Event.isExec (l.map (commandEventOf worktreeRoot))
        = l.map (commandEventOf worktreeRoot) := by
    intro l
    induction l with
    | nil => rfl
    | cons a l ih => simp [commandEventOf, Event.isExec]
  have hlast : actions ([] : List Event) = [] := rfl
  rw [List.filter_append, List.filter_append, hcp, hcm, hlast, List.map_append]
  simp [commandEventOf, Event.isExec]

/-- C4, with the commands `true`, ` exit 9 `, `echo hi`, the second failing. -/
theorem runPostAddActions_command_fails_witness :
    (runPostAddActions (demoWorld (some demoConfig) [["bash", "-lc", "exit 9"]]) "/repo" "/wt"
        ["/repo/configs/app.env", "/repo/scripts"]).ret
        = some (.wrap "whq: post-add command failed (exit 9): exit status 1" (.exitError 1)) ∧
      (runPostAddActions (demoWorld (some demoConfig) [["bash", "-lc", "exit 9"]]) "/repo" "/wt"
        ["/repo/configs/app.env", "/repo/scripts"]).events.filter Event.isExec
        = [.exec "/wt" "bash" ["-lc", "true"], .exec "/wt" "bash" ["-lc", "exit 9"]] := by
  have h := runPostAddActions_command_fails
    (demoWorld (some demoConfig) [["bash", "-lc", "exit 9"]])
    "/repo" "/wt" ["/repo/configs/app.env", "/repo/scripts"] demoConfig
    ⟨["configs/app.env", "scripts"], ["true", " exit 9 ", "echo hi"]⟩
    ["true"] ["echo hi"] " exit 9 " (.exitError 1)
    (by decide) rfl
    ⟨by decide, by decide, by decide, by decide, by decide,
      by decide, by decide, by decide, by decide, by decide, trivial⟩
    rfl ⟨by decide, by decide, trivial⟩ (by decide) (by decide)
  exact ⟨h.1.trans (by decide), h.2.2.trans (by decide)⟩

/-- C9: when every copy and every command succeeds, `runPostAddActions` returns
success and its actions are exactly the copy of each copy entry in list order,
from the repository root into the worktree root, followed by the run of each
command entry in list order, in the worktree root: each entry once, no command
before the last copy. -/
theorem runPostAddActions_order {σ : Type} (w : World σ)
    (repoRoot worktreeRoot : String) (s : σ) (cfg : whqConfig) (pa : postAddConfig)
    (hload : loadWHQConfig w s repoRoot = (some cfg, none)) (hpa : cfg.PostAdd = some pa)
    (hcopies : CopiesSucceed w repoRoot worktreeRoot pa.Copy s)
    (hcmds : CommandsSucceed w worktreeRoot pa.Commands
      (afterCopies w repoRoot worktreeRoot pa.Copy s)) :
    (runPostAddActions w repoRoot worktreeRoot s).ret = none ∧
      actions (runPostAddActions w repoRoot worktreeRoot s).events
        = pa.Copy.map (copyEventOf repoRoot worktreeRoot)
            ++ pa.Commands.map (commandEventOf worktreeRoot) ∧
      (runPostAddActions w repoRoot worktreeRoot s).state
        = afterCommands w worktreeRoot pa.Commands
            (afterCopies w repoRoot worktreeRoot pa.Copy s) := by
  by_cases hne : pa.Copy.length = 0 ∧ pa.Commands.length = 0
  · have h1 : pa.Copy = [] := List.length_eq_zero.mp hne.1
    have h2 : pa.Commands = [] := List.length_eq_zero.mp hne.2
    have hrun : runPostAddActions w repoRoot worktreeRoot s = ⟨s, [], none⟩ := by
      unfold runPostAddActions
      simp only [hload, Option.bind, hpa, if_pos hne]
    rw [hrun, h1, h2]
    exact ⟨rfl, rfl, rfl⟩
  · have hc := copyEntries_append w repoRoot worktreeRoot pa.Copy [] s hcopies
    simp only [List.append_nil, copyEntries] at hc
    have hm := commandEntries_append w worktreeRoot pa.Commands.length pa.Commands [] 0
      (afterCopies w repoRoot worktreeRoot pa.Copy s) hcmds
    simp only [List.append_nil, commandEntries] at hm
    rw [runPostAddActions_eq w repoRoot worktreeRoot s cfg pa hload hpa hne, hc]
    simp only [hm]
    refine ⟨trivial, ?_, trivial⟩
    have hlast : actions [Event.stdout "Post-add (.whq.json): completed\n"] = [] := rfl
    simp only [actions_stdout, actions_append, actions_copyRunEvents,
      actions_commandRunEvents, hlast, List.append_nil]

/-- C9, with two copy entries and three commands that all succeed. -/
theorem runPostAddActions_order_witness :
    (runPostAddActions (demoWorld (some demoConfig) []) "/repo" "/wt"
        ["/repo/configs/app.env", "/repo/scripts"]).ret = none ∧
      actions (runPostAddActions (demoWorld (some demoConfig) []) "/repo" "/wt"
        ["/repo/configs/app.env", "/repo/scripts"]).events
        = [.copy "/repo/configs/app.env" "/wt/configs/app.env",
           .copy "/repo/scripts" "/wt/scripts",
           .exec "/wt" "bash" ["-lc", "true"],
           .exec "/wt" "bash" ["-lc", "exit 9"],
           .exec "/wt" "bash" ["-lc", "echo hi"]] := by
  have h := runPostAddActions_order (demoWorld (some demoConfig) [])
    "/repo" "/wt" ["/repo/configs/app.env", "/repo/scripts"] demoConfig
    ⟨["configs/app.env", "scripts"], ["true", " exit 9 ", "echo hi"]⟩
    (by decide) rfl
    ⟨by decide, by decide, by decide, by decide, by decide,
      by decide, by decide, by decide, by decide, by decide, trivial⟩
    ⟨by decide, by decide, by decide, by decide, by decide, by decide, trivial⟩
  exact ⟨h.1, h.2.1.trans (by decide)⟩

/-! ### The `add` command keeps the provisioning error -/

/-- C7: when `runPostAddActions` returns the error `e` in the `add` command,
the command returns `e` itself if `cleanupFailedAdd` succeeds; if
`cleanupFailedAdd` returns an error, the command returns an error that wraps
`e` and whose message is the message of `e`, then `; cleanup failed: `, then
the message of the rollback error.  In both cases it returns an error. -/
theorem addCmd_keeps_original_error {σ : Type} (w : World σ) (env : whqEnv) (branch : String)
    (s : σ) (found : Bool) (e : GoError)
    (hb : (branchExists w env.RepoRoot branch s).ret = (found, none))
    (hadd : (w.run (branchExists w env.RepoRoot branch s).state env.RepoRoot "git"
      (worktreeAddArgs found (Join [env.RepoWHQRoot, branch]) branch)).2 = none)
    (hpost : (runPostAddActions w env.RepoRoot (Join [env.RepoWHQRoot, branch])
      (w.run (branchExists w env.RepoRoot branch s).state env.RepoRoot "git"
        (worktreeAddArgs found (Join [env.RepoWHQRoot, branch]) branch)).1).ret = some e) :
    ((cleanupFailedAdd w env.RepoRoot (Join [env.RepoWHQRoot, branch]) branch (!found)
        (runPostAddActions w env.RepoRoot (Join [env.RepoWHQRoot, branch])
          (w.run (branchExists w env.RepoRoot branch s).state env.RepoRoot "git"
            (worktreeAddArgs found (Join [env.RepoWHQRoot, branch]) branch)).1).state).ret = none →
        (addCmd w env [branch] s).ret = some e) ∧
      (∀ ce, (cleanupFailedAdd w env.RepoRoot (Join [env.RepoWHQRoot, branch]) branch (!found)
        (runPostAddActions w env.RepoRoot (Join [env.RepoWHQRoot, branch])
          (w.run (branchExists w env.RepoRoot branch s).state env.RepoRoot "git"
            (worktreeAddArgs found (Join [env.RepoWHQRoot, branch]) branch)).1).state).ret
          = some ce →
        ∃ r, (addCmd w env [branch] s).ret = some r ∧ r.Unwrap = some e ∧
          r.Error = e.Error ++ "; cleanup failed: " ++ ce.Error) ∧
      (addCmd w env [branch] s).ret ≠ none := by
  have key : (addCmd w env [branch] s).ret =
      (match (cleanupFailedAdd w env.RepoRoot (Join [env.RepoWHQRoot, branch]) branch (!found)
        (runPostAddActions w env.RepoRoot (Join [env.RepoWHQRoot, branch])
          (w.run (branchExists w env.RepoRoot branch s).state env.RepoRoot "git"
            (worktreeAddArgs found (Join [env.RepoWHQRoot, branch]) branch)).1).state).ret with
        | none => some e
        | some ce => some (.wrap (e.Error ++ "; cleanup failed: " ++ ce.Error) e)) := by
    unfold addCmd
    simp only [hb, hadd, hpost]
    split <;> rename_i hc <;> simp only [hc]
  refine ⟨?_, ?_, ?_⟩
  · intro hc
    rw [key, hc]
  · intro ce hc
    rw [key, hc]
    exact ⟨_, rfl, rfl, rfl⟩
  · rw [key]
    split <;> simp

/-- C7, in a world where the command `exit 9` fails and the rollback fails too. -/
theorem addCmd_keeps_original_error_witness :
    ∃ r, (addCmd demoAddWorld demoEnv ["feature"]
        ["/repo/configs/app.env", "/repo/scripts"]).ret = some r ∧
      r.Unwrap
        = some (.wrap "whq: post-add command failed (exit 9): exit status 1" (.exitError 1)) ∧
      r.Error = "whq: post-add command failed (exit 9): exit status 1" ++ "; cleanup failed: "
        ++ "whq: cleanup failed while removing worktree: exit status 1" :=
  (addCmd_keeps_original_error demoAddWorld demoEnv "feature"
    ["/repo/configs/app.env", "/repo/scripts"] false
    (.wrap "whq: post-add command failed (exit 9): exit status 1" (.exitError 1))
    (by decide) (by decide) (by decide)).2.1
    (.wrap "whq: cleanup failed while removing worktree: exit status 1" (.exitError 1))
    (by decide)

/-! ### Empty entries -/

theorem TrimSpace_of_all_space (raw : String) (h : ∀ c ∈ raw.data, isSpace c = true) :
    TrimSpace raw = "" := by
  have h1 : raw.data.dropWhile isSpace = [] := List.dropWhile_eq_nil_iff.mpr h
  apply String.ext
  simp [TrimSpace, h1]

/-- C11: an entry that is empty or all white space aborts the run at that
entry.  For the copy entry at index `i = pre.length`, all earlier copy entries
succeeding: the run returns the copy-entry-empty error and its only actions
are the copies of the earlier entries (no copy at an index from `i` on, no
command).  For the command entry at index `j = pre.length`, all copies and all
earlier commands succeeding: the run returns the command-entry-empty error
naming position `j + 1`, and the commands run are those of the earlier
entries only. -/
theorem runPostAddActions_empty_entry {σ : Type} (w : World σ)
    (repoRoot worktreeRoot : String) (s : σ) (cfg : whqConfig) (pa : postAddConfig)
    (hload : loadWHQConfig w s repoRoot = (some cfg, none)) (hpa : cfg.PostAdd = some pa) :
    (∀ pre raw post, pa.Copy = pre ++ raw :: post →
      CopiesSucceed w repoRoot worktreeRoot pre s →
      (∀ c ∈ raw.data, isSpace c = true) →
      (runPostAddActions w repoRoot worktreeRoot s).ret
          = some (.leaf "whq: post-add copy entry cannot be empty") ∧
        (runPostAddActions w repoRoot worktreeRoot s).state
          = afterCopies w repoRoot worktreeRoot pre s ∧
        actions (runPostAddActions w repoRoot worktreeRoot s).events
          = pre.map (copyEventOf repoRoot worktreeRoot)) ∧
    (∀ pre raw post, CopiesSucceed w repoRoot worktreeRoot pa.Copy s →
      pa.Commands = pre ++ raw :: post →
      CommandsSucceed w worktreeRoot pre (afterCopies w repoRoot worktreeRoot pa.Copy s) →
      (∀ c ∈ raw.data, isSpace c = true) →
      (runPostAddActions w repoRoot worktreeRoot s).ret
          = some (.leaf ("whq: post-add command " ++ toString (pre.length + 1) ++ " is empty")) ∧
        (runPostAddActions w repoRoot worktreeRoot s).state
          = afterCommands w worktreeRoot pre (afterCopies w repoRoot worktreeRoot pa.Copy s) ∧
        actions (runPostAddActions w repoRoot worktreeRoot s).events
          = pa.Copy.map (copyEventOf repoRoot worktreeRoot)
              ++ pre.map (commandEventOf worktreeRoot)) := by
  constructor
  · intro pre raw post hcopy hpre hsp
    have hitem := TrimSpace_of_all_space raw hsp
    have hne : ¬ (pa.Copy.length = 0 ∧ pa.Commands.length = 0) := by
      rw [hcopy]; simp
    have hhead : copyEntries w repoRoot worktreeRoot (raw :: post)
        (afterCopies w repoRoot worktreeRoot pre s) =
        ⟨afterCopies w repoRoot worktreeRoot pre s, [],
          some (.leaf "whq: post-add copy entry cannot be empty")⟩ := by
      simp only [copyEntries, hitem, if_true]
    have hrun := copyEntries_append w repoRoot worktreeRoot pre (raw :: post) s hpre
    rw [hhead] at hrun
    rw [runPostAddActions_eq w repoRoot worktreeRoot s cfg pa hload hpa hne, hcopy, hrun]
    refine ⟨rfl, rfl, ?_⟩
    simp only [List.append_nil, actions_stdout, actions_copyRunEvents]
  · intro pre raw post hcopies hcmd hpre hsp
    have hitem := TrimSpace_of_all_space raw hsp
    have hne : ¬ (pa.Copy.length = 0 ∧ pa.Commands.length = 0) := by
      rw [hcmd]; simp
    have hc := copyEntries_append w repoRoot worktreeRoot pa.Copy [] s hcopies
    simp only [List.append_nil, copyEntries] at hc
    have hhead : commandEntries w worktreeRoot pa.Commands.length (0 + pre.length) (raw :: post)
        (afterCommands w worktreeRoot pre (afterCopies w repoRoot worktreeRoot pa.Copy s)) =
        ⟨afterCommands w worktreeRoot pre (afterCopies w repoRoot worktreeRoot pa.Copy s), [],
          some (.leaf ("whq: post-add command " ++ toString (0 + pre.length + 1)
            ++ " is empty"))⟩ := by
      simp only [commandEntries, hitem, if_true]
    have hrun := commandEntries_append w worktreeRoot pa.Commands.length pre (raw :: post) 0
      (afterCopies w repoRoot worktreeRoot pa.Copy s) hpre
    rw [hhead] at hrun
    rw [← hcmd] at hrun
    rw [runPostAddActions_eq w repoRoot worktreeRoot s cfg pa hload hpa hne, hc]
    simp only [hrun, Nat.zero_add]
    refine ⟨trivial, trivial, ?_⟩
    simp only [List.append_nil, actions_stdout, actions_append, actions_copyRunEvents,
      actions_commandRunEvents]

/-- C11, with a blank second copy entry and with a blank second command entry. -/
theorem runPostAddActions_empty_entry_witness :
    ((runPostAddActions (demoWorld (some demoBlankCopyConfig) []) "/repo" "/wt"
          ["/repo/present.txt", "/repo/later.txt"]).ret
        = some (.leaf "whq: post-add copy entry cannot be empty") ∧
      actions (runPostAddActions (demoWorld (some demoBlankCopyConfig) []) "/repo" "/wt"
          ["/repo/present.txt", "/repo/later.txt"]).events
        = [.copy "/repo/present.txt" "/wt/present.txt"]) ∧
    ((runPostAddActions (demoWorld (some demoBlankCommandConfig) []) "/repo" "/wt"
          ["/repo/present.txt"]).ret
        = some (.leaf "whq: post-add command 2 is empty") ∧
      actions (runPostAddActions (demoWorld (some demoBlankCommandConfig) []) "/repo" "/wt"
          ["/repo/present.txt"]).events
        = [.copy "/repo/present.txt" "/wt/present.txt", .exec "/wt" "bash" ["-lc", "true"]]) := by
  have h1 := (runPostAddActions_empty_entry (demoWorld (some demoBlankCopyConfig) [])
    "/repo" "/wt" ["/repo/present.txt", "/repo/later.txt"] demoBlankCopyConfig
    ⟨["present.txt", "  ", "later.txt"], ["echo hi"]⟩ (by decide) rfl).1
    ["present.txt"] "  " ["later.txt"] rfl
    ⟨by decide, by decide, by decide, by decide, by decide, trivial⟩ (by decide)
  have h2 := (runPostAddActions_empty_entry (demoWorld (some demoBlankCommandConfig) [])
    "/repo" "/wt" ["/repo/present.txt"] demoBlankCommandConfig
    ⟨["present.txt"], ["true", " \t", "echo hi"]⟩ (by decide) rfl).2
    ["true"] " \t" ["echo hi"]
    ⟨by decide, by decide, by decide, by decide, by decide, trivial⟩ rfl
    ⟨by decide, by decide, trivial⟩ (by decide)
  exact ⟨⟨h1.1, h1.2.2.trans (by decide)⟩, ⟨h2.1.trans (by decide), h2.2.2.trans (by decide)⟩⟩

/-! ### Progress lines -/

theorem copyRunEvents_filter_isCopy (repoRoot worktreeRoot : String) (entries : List String) :
    ((copyRunEvents repoRoot worktreeRoot entries).filter Event.isCopy).length
      = entries.length := by
  induction entries with
  | nil => rfl
  | cons raw rest ih =>
    simp [copyRunEvents, copyEventOf, Event.isCopy, ih]

theorem copyRunEvents_filter_isExec (repoRoot worktreeRoot : String) (entries : List String) :
    (copyRunEvents repoRoot worktreeRoot entries).filter Event.isExec = [] := by
  induction entries with
  | nil => rfl
  | cons raw rest ih =>
    simp [copyRunEvents, copyEventOf, Event.isExec, ih]

theorem commandRunEvents_filter_isExec (worktreeRoot : String) (total : Nat)
    (entries : List String) :
    ∀ i, ((commandRunEvents worktreeRoot total i entries).filter Event.isExec).length
      = entries.length := by
  induction entries with
  | nil => intro i; rfl
  | cons raw rest ih =>
    intro i
    simp [commandRunEvents, commandEventOf, Event.isExec, ih (i + 1)]

theorem commandRunEvents_filter_isCopy (worktreeRoot : String) (total : Nat)
    (entries : List String) :
    ∀ i, (commandRunEvents worktreeRoot total i entries).filter Event.isCopy = [] := by
  induction entries with
  | nil => intro i; rfl
  | cons raw rest ih =>
    intro i
    simp [commandRunEvents, commandEventOf, Event.isCopy, ih (i + 1)]

/-- The events of the copy loop, however it ends: for the entries whose copy
was reached, the progress line and then the copy. -/
theorem copyEntries_events {σ : Type} (w : World σ) (repoRoot worktreeRoot : String)
    (entries : List String) :
    ∀ (s : σ), ∃ k, k ≤ entries.length ∧
      (copyEntries w repoRoot worktreeRoot entries s).events
        = copyRunEvents repoRoot worktreeRoot (entries.take k) ∧
      ((copyEntries w repoRoot worktreeRoot entries s).ret = none → k = entries.length) := by
  induction entries with
  | nil => intro s; exact ⟨0, by simp, by simp [copyEntries, copyRunEvents], by simp⟩
  | cons raw rest ih =>
    intro s
    by_cases h0 : TrimSpace raw = ""
    · exact ⟨0, by simp, by simp [copyEntries, h0, copyRunEvents], by simp [copyEntries, h0]⟩
    · rcases hsrc : safeJoin repoRoot (TrimSpace raw) with ⟨src, e1⟩
      cases e1 with
      | some err =>
        exact ⟨0, by simp, by simp [copyEntries, h0, hsrc, copyRunEvents],
          by simp [copyEntries, h0, hsrc]⟩
      | none =>
        cases hl : w.lstat s src with
        | some err =>
          exact ⟨0, by simp, by simp [copyEntries, h0, hsrc, hl, copyRunEvents],
            by simp [copyEntries, h0, hsrc, hl]⟩
        | none =>
          rcases hdst : safeJoin worktreeRoot (TrimSpace raw) with ⟨dest, e2⟩
          cases e2 with
          | some err =>
            exact ⟨0, by simp, by simp [copyEntries, h0, hsrc, hl, hdst, copyRunEvents],
              by simp [copyEntries, h0, hsrc, hl, hdst]⟩
          | none =>
            cases hc : (w.copyPath s src dest).2 with
            | some err =>
              exact ⟨1, by simp,
                by simp [copyEntries, h0, hsrc, hl, hdst, hc, copyRunEvents, copyEventOf],
                by simp [copyEntries, h0, hsrc, hl, hdst, hc]⟩
            | none =>
              obtain ⟨k, hk, hev, hret⟩ := ih (w.copyPath s src dest).1
              refine ⟨k + 1, by simp; omega, ?_, ?_⟩
              · simp [copyEntries, h0, hsrc, hl, hdst, hc, copyRunEvents, copyEventOf, hev]
              · intro hr
                have : (copyEntries w repoRoot worktreeRoot rest (w.copyPath s src dest).1).ret
                    = none := by
                  simpa [copyEntries, h0, hsrc, hl, hdst, hc] using hr
                simp [hret this]

/-- The events of the command loop, however it ends: for the entries whose run
was reached, the progress line with index and total and then the run. -/
theorem commandEntries_events {σ : Type} (w : World σ) (worktreeRoot : String) (total : Nat)
    (entries : List String) :
    ∀ (i : Nat) (s : σ), ∃ m, m ≤ entries.length ∧
      (commandEntries w worktreeRoot total i entries s).events
        = commandRunEvents worktreeRoot total i (entries.take m) ∧
      ((commandEntries w worktreeRoot total i entries s).ret = none → m = entries.length) := by
  induction entries with
  | nil => intro i s; exact ⟨0, by simp, by simp [commandEntries, commandRunEvents], by simp⟩
  | cons raw rest ih =>
    intro i s
    by_cases h0 : TrimSpace raw = ""
    · exact ⟨0, by simp, by simp [commandEntries, h0, commandRunEvents],
        by simp [commandEntries, h0]⟩
    · cases hc : (w.run s worktreeRoot "bash" ["-lc", TrimSpace raw]).2 with
      | some err =>
        exact ⟨1, by simp,
          by simp [commandEntries, h0, hc, commandRunEvents, commandEventOf],
          by simp [commandEntries, h0, hc]⟩
      | none =>
        obtain ⟨m, hm, hev, hret⟩ :=
          ih (i + 1) (w.run s worktreeRoot "bash" ["-lc", TrimSpace raw]).1
        refine ⟨m + 1, by simp; omega, ?_, ?_⟩
        · simp [commandEntries, h0, hc, commandRunEvents, commandEventOf, hev]
        · intro hr
          have : (commandEntries w worktreeRoot total (i + 1) rest
              (w.run s worktreeRoot "bash" ["-lc", TrimSpace raw]).1).ret = none := by
            simpa [commandEntries, h0, hc] using hr
          simp [hret this]

/-- C12 (as amended): in every run with something to do, the events are the
starting line, then for each of the first `k` copy entries the line
`Post-add copy: <entry>` directly followed by its copy, then for each of the
first `m` command entries the line `Post-add cmd <index>/<total>: <entry>`
directly followed by its run, then the completion line when the run succeeds.
A command is reached only after all copies (`0 < m` gives `k = len(copy)`).
So every copy made and every command run has its progress line written just
before it; the copy line names the entry without a position, the command line
names the entry with its index and the total; an entry stopped by its checks
(empty, containment guard, missing source) is in neither list and has no line. -/
theorem runPostAddActions_progress {σ : Type} (w : World σ)
    (repoRoot worktreeRoot : String) (s : σ) (cfg : whqConfig) (pa : postAddConfig)
    (hload : loadWHQConfig w s repoRoot = (some cfg, none)) (hpa : cfg.PostAdd = some pa)
    (hne : ¬ (pa.Copy.length = 0 ∧ pa.Commands.length = 0)) :
    ∃ k m, k ≤ pa.Copy.length ∧ m ≤ pa.Commands.length ∧
      (0 < m → k = pa.Copy.length) ∧
      ((runPostAddActions w repoRoot worktreeRoot s).ret = none →
        k = pa.Copy.length ∧ m = pa.Commands.length) ∧
      (runPostAddActions w repoRoot worktreeRoot s).events
        = .stdout ("Post-add (.whq.json): starting (copy=" ++ toString pa.Copy.length
            ++ ", commands=" ++ toString pa.Commands.length ++ ")\n") ::
          (copyRunEvents repoRoot worktreeRoot (pa.Copy.take k)
            ++ commandRunEvents worktreeRoot pa.Commands.length 0 (pa.Commands.take m)
            ++ (if (runPostAddActions w repoRoot worktreeRoot s).ret = none
                then [.stdout "Post-add (.whq.json): completed\n"] else [])) := by
  obtain ⟨k, hk, hkev, hkret⟩ := copyEntries_events w repoRoot worktreeRoot pa.Copy s
  rw [runPostAddActions_eq w repoRoot worktreeRoot s cfg pa hload hpa hne]
  cases hc : (copyEntries w repoRoot worktreeRoot pa.Copy s).ret with
  | some err =>
    refine ⟨k, 0, hk, Nat.zero_le _, fun h => absurd h (Nat.lt_irrefl 0), ?_, ?_⟩
    · intro h; simp at h
    · simp [hkev, commandRunEvents]
  | none =>
    have hkl := hkret hc
    obtain ⟨m, hm, hmev, hmret⟩ := commandEntries_events w worktreeRoot pa.Commands.length
      pa.Commands 0 (copyEntries w repoRoot worktreeRoot pa.Copy s).state
    cases hr : (commandEntries w worktreeRoot pa.Commands.length 0 pa.Commands
        (copyEntries w repoRoot worktreeRoot pa.Copy s).state).ret with
    | some err =>
      refine ⟨k, m, hk, hm, fun _ => hkl, ?_, ?_⟩
      · intro h; simp at h
      · simp [hkev, hmev]
    | none =>
      refine ⟨k, m, hk, hm, fun _ => hkl, fun _ => ⟨hkl, hmret hr⟩, ?_⟩
      simp [hkev, hmev]

/-- C12, in a run that stops at its second copy entry, whose source is missing. -/
theorem runPostAddActions_progress_witness :
    ∃ k m, k ≤ 3 ∧ m ≤ 1 ∧
      (runPostAddActions (demoWorld (some demoCopyConfig) []) "/repo" "/wt"
        ["/repo/present.txt", "/repo/later.txt"]).events
        = .stdout "Post-add (.whq.json): starting (copy=3, commands=1)\n" ::
          (copyRunEvents "/repo" "/wt" (["present.txt", " missing.txt ", "later.txt"].take k)
            ++ commandRunEvents "/wt" 1 0 (["echo hi"].take m) ++ []) := by
  obtain ⟨k, m, hk, hm, _, _, hev⟩ := runPostAddActions_progress
    (demoWorld (some demoCopyConfig) []) "/repo" "/wt" ["/repo/present.txt", "/repo/later.txt"]
    demoCopyConfig ⟨["present.txt", " missing.txt ", "later.txt"], ["echo hi"]⟩
    (by decide) rfl (by decide)
  exact ⟨k, m, hk, hm, hev⟩

/-- C12 as stated fails: the run stops at the copy entry ` missing.txt `, whose
source is missing, and the whole output is the starting line and the line of
the first copy; there is no line for the entry the run stopped at, and the
line of the first copy carries no index and no total. -/
theorem runPostAddActions_no_line_for_aborted_entry :
    (runPostAddActions (demoWorld (some demoCopyConfig) []) "/repo" "/wt"
        ["/repo/present.txt", "/repo/later.txt"]).ret ≠ none ∧
      (runPostAddActions (demoWorld (some demoCopyConfig) []) "/repo" "/wt"
        ["/repo/present.txt", "/repo/later.txt"]).events.filter Event.isStdout
        = [.stdout "Post-add (.whq.json): starting (copy=3, commands=1)\n",
           .stdout "Post-add copy: present.txt\n"] :=
  ⟨by decide, by decide⟩

/-! ### Entries of the file system -/

theorem lookupNode_append (fs fs2 : FileSys) (p : FPath) :
    lookupNode (fs ++ fs2) p = (lookupNode fs p).orElse (fun _ => lookupNode fs2 p) := by
  induction fs with
  | nil => simp [lookupNode]
  | cons e rest ih =>
    obtain ⟨q, n⟩ := e
    by_cases h : q = p
    · simp [lookupNode, h]
    · simp [lookupNode, h, ih]

theorem lookupNode_cons (a : FPath) (b : FNode) (rest : FileSys) (p : FPath) :
    lookupNode ((a, b) :: rest) p = if a = p then some b else lookupNode rest p := rfl

theorem lookupNode_map_put (fs : FileSys) (q : FPath) (n : FNode) (p : FPath) :
    lookupNode (fs.map (fun e => if e.1 = q then (q, n) else e)) p
      = if p = q then (lookupNode fs q).map (fun _ => n) else lookupNode fs p := by
  induction fs with
  | nil => simp [lookupNode]
  | cons e rest ih =>
    obtain ⟨r, m⟩ := e
    show lookupNode ((if r = q then (q, n) else (r, m)) ::
      rest.map (fun e => if e.1 = q then (q, n) else e)) p = _
    by_cases h1 : r = q
    · rw [if_pos h1, lookupNode_cons, lookupNode_cons, lookupNode_cons, ih, if_pos h1]
      by_cases h2 : p = q
      · rw [if_pos h2.symm, if_pos h2]
        rfl
      · have h3 : ¬ q = p := fun h => h2 h.symm
        have h4 : ¬ r = p := fun h => h3 (h1.symm.trans h)
        rw [if_neg h3, if_neg h2, if_neg h2, if_neg h4]
    · rw [if_neg h1, lookupNode_cons, lookupNode_cons, lookupNode_cons, ih, if_neg h1]
      by_cases h2 : r = p
      · have h3 : ¬ p = q := fun h => h1 (h2.trans h)
        rw [if_pos h2, if_neg h3, if_pos h2]
      · rw [if_neg h2, if_neg h2]

theorem lookupNode_putNode (fs : FileSys) (q : FPath) (n : FNode) (p : FPath) :
    lookupNode (putNode fs q n) p = if p = q then some n else lookupNode fs p := by
  unfold putNode
  by_cases h : lookupNode fs q = none
  · rw [if_pos h, lookupNode_append]
    by_cases h2 : p = q
    · simp [h2, h, lookupNode]
    · have h3 : ¬ q = p := fun h => h2 h.symm
      cases hl : lookupNode fs p <;> simp [h2, h3, lookupNode, hl]
  · rw [if_neg h, lookupNode_map_put]
    by_cases h2 : p = q
    · obtain ⟨m, hm⟩ := Option.ne_none_iff_exists'.mp h
      simp [h2, hm]
    · simp [h2]

theorem follow_of_not_symlink (fs : FileSys) (n : Nat) (p : FPath)
    (h : ∀ t, node fs p ≠ some (.symlink t)) : follow fs (n + 1) p = some p := by
  unfold follow
  split
  · rename_i t ht
    exact absurd ht (h t)
  · rfl

/-! ### The `init` command -/

/-- C15: with a repository root set.  Without `--force`, when `.whq.json`
exists (`os.Stat` answers), `runInit` returns an error, leaves the file system
as it was (so the content of `.whq.json` too), writes nothing to `stdout` and
writes the notice `.whq.json already exists; ...` to `stderr`.  When there is
no entry `.whq.json` in the root directory, `runInit` succeeds, reports the
creation on `stdout`, and the content of the file is `defaultWHQTemplate`. -/
theorem runInit_keeps_or_creates (env : whqEnv) (fs : FileSys)
    (hroot : TrimSpace env.RepoRoot ≠ "") :
    (∀ info, Stat fs (toFPath (Join [env.RepoRoot, ".whq.json"])) = .ok info →
      runInit env false fs
        = ⟨fs, [.stderr ".whq.json already exists; use --force to overwrite\n"],
            some (.leaf "whq: .whq.json already exists (use --force to overwrite)")⟩) ∧
    (∀ force perm, node fs (toFPath (Join [env.RepoRoot, ".whq.json"])) = none →
      node fs (toFPath (Join [env.RepoRoot, ".whq.json"])).dropLast = some (.dir perm) →
      (runInit env force fs).ret = none ∧
        (runInit env force fs).events = [.stdout "Created .whq.json\n"] ∧
        ReadFile (runInit env force fs).state (toFPath (Join [env.RepoRoot, ".whq.json"]))
          = .ok defaultWHQTemplate) := by
  constructor
  · intro info h
    simp [runInit, hroot, h]
  · intro force perm hnone hdir
    have hne : toFPath (Join [env.RepoRoot, ".whq.json"]) ≠ [] := by
      intro h0
      rw [h0] at hnone
      simp [node] at hnone
    have hlook : lookupNode fs (toFPath (Join [env.RepoRoot, ".whq.json"])) = none := by
      simpa [node, hne] using hnone
    have hfollow : follow fs 40 (toFPath (Join [env.RepoRoot, ".whq.json"]))
        = some (toFPath (Join [env.RepoRoot, ".whq.json"])) :=
      follow_of_not_symlink fs 39 _ (by rw [hnone]; simp)
    have hstat : Stat fs (toFPath (Join [env.RepoRoot, ".whq.json"]))
        = .error (pathError "stat" (toFPath (Join [env.RepoRoot, ".whq.json"])) ENOENT) := by
      simp [Stat, hfollow, hnone]
    have hopen : OpenFile fs (toFPath (Join [env.RepoRoot, ".whq.json"])) 0o644
        = .ok (fs ++ [(toFPath (Join [env.RepoRoot, ".whq.json"]), .file 0o644 "")],
            toFPath (Join [env.RepoRoot, ".whq.json"])) := by
      simp [OpenFile, hfollow, hnone, hdir]
    have hl1 : lookupNode (fs ++ [(toFPath (Join [env.RepoRoot, ".whq.json"]), .file 0o644 "")])
        (toFPath (Join [env.RepoRoot, ".whq.json"])) = some (.file 0o644 "") := by
      simp [lookupNode_append, hlook, lookupNode]
    have hwrite : WriteFile fs (toFPath (Join [env.RepoRoot, ".whq.json"]))
        defaultWHQTemplate 0o644
        = (putNode (fs ++ [(toFPath (Join [env.RepoRoot, ".whq.json"]), .file 0o644 "")])
            (toFPath (Join [env.RepoRoot, ".whq.json"])) (.file 0o644 defaultWHQTemplate),
            none) := by
      simp [WriteFile, hopen, writeContent, hl1]
    have hrun : runInit env force fs
        = ⟨putNode (fs ++ [(toFPath (Join [env.RepoRoot, ".whq.json"]), .file 0o644 "")])
            (toFPath (Join [env.RepoRoot, ".whq.json"])) (.file 0o644 defaultWHQTemplate),
          [.stdout "Created .whq.json\n"], none⟩ := by
      have hnx : IsNotExist (pathError "stat" (toFPath (Join [env.RepoRoot, ".whq.json"]))
          ENOENT) = true := by
        simp [pathError, IsNotExist, ENOENT]
      simp [runInit, hroot, hstat, hnx, runInitWrite, hwrite]
    rw [hrun]
    refine ⟨rfl, rfl, ?_⟩
    have hnode : node (putNode (fs ++ [(toFPath (Join [env.RepoRoot, ".whq.json"]),
        .file 0o644 "")]) (toFPath (Join [env.RepoRoot, ".whq.json"]))
        (.file 0o644 defaultWHQTemplate)) (toFPath (Join [env.RepoRoot, ".whq.json"]))
        = some (.file 0o644 defaultWHQTemplate) := by
      simp [node, hne, lookupNode_putNode]
    have hf2 := follow_of_not_symlink _ 39 _ (by rw [hnode]; simp)
    simp [ReadFile, Open, hf2, hnode]

/-- C15, in a repository that has a `.whq.json` and in a directory that has none. -/
theorem runInit_keeps_or_creates_witness :
    runInit demoEnv false demoFs
        = ⟨demoFs, [.stderr ".whq.json already exists; use --force to overwrite\n"],
            some (.leaf "whq: .whq.json already exists (use --force to overwrite)")⟩ ∧
      ((runInit ⟨"/fresh", "", "", "", "", ""⟩ false demoFs).ret = none ∧
        ReadFile (runInit ⟨"/fresh", "", "", "", "", ""⟩ false demoFs).state
          ["fresh", ".whq.json"] = .ok defaultWHQTemplate) := by
  have h1 := (runInit_keeps_or_creates demoEnv demoFs (by decide)).1
    (.file 0o644 "custom") (by decide)
  have h2 := (runInit_keeps_or_creates ⟨"/fresh", "", "", "", "", ""⟩ demoFs (by decide)).2
    false 0o755 (by decide) (by decide)
  exact ⟨h1, h2.1, h2.2.2⟩

/-! ### Copying a symbolic link -/

theorem lookupNode_filter_under (fs : FileSys) (d q : FPath) :
    lookupNode (fs.filter (fun e => !isUnder d e.1)) q
      = if isUnder d q = true then none else lookupNode fs q := by
  induction fs with
  | nil => simp [lookupNode]
  | cons e rest ih =>
    obtain ⟨r, m⟩ := e
    by_cases hr : isUnder d r = true
    · have hf : List.filter (fun e => !isUnder d e.1) ((r, m) :: rest)
          = List.filter (fun e => !isUnder d e.1) rest := by
        simp [List.filter, hr]
      rw [hf, ih, lookupNode_cons]
      by_cases hq : isUnder d q = true
      · simp only [if_pos hq]
      · have hne : ¬ r = q := by
          intro h
          rw [h] at hr
          exact hq hr
        simp only [if_neg hq, if_neg hne]
    · have hf : List.filter (fun e => !isUnder d e.1) ((r, m) :: rest)
          = (r, m) :: List.filter (fun e => !isUnder d e.1) rest := by
        simp [List.filter, hr]
      rw [hf, lookupNode_cons, lookupNode_cons, ih]
      by_cases hrq : r = q
      · rw [hrq] at hr
        simp only [if_pos hrq, if_neg hr]
      · by_cases hq : isUnder d q = true
        · simp only [if_neg hrq, if_pos hq]
        · simp only [if_neg hrq, if_neg hq]

theorem node_ne_nil_lookup (fs : FileSys) (p : FPath) (hp : p ≠ []) :
    node fs p = lookupNode fs p := by
  simp [node, hp]

theorem copySymlink_target (fs : FileSys) (src dest : FPath) (t : String)
    (h : Lstat fs src = .ok (.symlink t)) (fs2 : FileSys)
    (hs : copySymlink fs src dest = (fs2, none)) : Lstat fs2 dest = .ok (.symlink t) := by
  have hsrc : node fs src = some (.symlink t) := by
    unfold Lstat at h
    cases hn : node fs src with
    | none => simp [hn] at h
    | some n => simpa [hn] using h
  have hsne : src ≠ [] := by
    intro h0
    rw [h0] at hsrc
    simp [node] at hsrc
  unfold copySymlink at hs
  by_cases hd : dest = []
  · simp [RemoveAll, hd, pathError, IsNotExist, EBUSY] at hs
  · have hrm : (RemoveAll fs dest).2 = none := by simp [RemoveAll, hd]
    simp only [hrm, Option.isSome_none, Bool.false_eq_true, false_and, if_false] at hs
    cases hrl : Readlink (RemoveAll fs dest).1 src with
    | error err => simp [hrl] at hs
    | ok target =>
      simp only [hrl] at hs
      have htar : target = t := by
        unfold Readlink at hrl
        have hn : node (RemoveAll fs dest).1 src
            = if isUnder dest src = true then none else lookupNode fs src := by
          rw [node_ne_nil_lookup _ _ hsne]
          exact lookupNode_filter_under fs dest src
        rw [node_ne_nil_lookup _ _ hsne] at hsrc
        rw [hn, hsrc] at hrl
        by_cases hu : isUnder dest src = true
        · simp [hu] at hrl
        · simpa [hu] using hrl.symm
      rw [htar] at hs
      cases hm : (MkdirAll (RemoveAll fs dest).1 dest.dropLast 0o755).2 with
      | some err => simp [hm] at hs
      | none =>
        simp only [hm] at hs
        unfold Symlink at hs
        by_cases ht : t = ""
        · simp [ht] at hs
        · rw [if_neg ht] at hs
          cases hnd : node (MkdirAll (RemoveAll fs dest).1 dest.dropLast 0o755).1 dest with
          | some n => simp [hnd] at hs
          | none =>
            simp only [hnd] at hs
            cases hpar : node (MkdirAll (RemoveAll fs dest).1 dest.dropLast 0o755).1
                dest.dropLast with
            | none => simp [hpar] at hs
            | some n =>
              cases n with
              | file pm c => simp [hpar] at hs
              | symlink t2 => simp [hpar] at hs
              | dir pm =>
                simp only [hpar, Prod.mk.injEq, and_true] at hs
                rw [← hs]
                rw [node_ne_nil_lookup _ _ hd] at hnd
                simp [Lstat, node, hd, lookupNode_append, hnd, lookupNode]

/-- C13: when the source is a symbolic link with target string `t`, whatever
`t` points to or not, `copyPath` copies it with `copySymlink` (at any bound on
the depth of a walk), and when that succeeds the destination is a symbolic
link with the target string `t`, whatever was at the destination before.  In
the copy loop over the file system, an entry whose source is such a link
passes the source check: the loop ends with success and the link at the
destination, or with the failed-to-copy error, not with the
source-not-found error. -/
theorem copyPath_symlink_not_followed (fs : FileSys) (src dest : FPath) (t : String)
    (h : Lstat fs src = .ok (.symlink t)) :
    (∀ fuel, copyPath fuel fs src dest = some (copySymlink fs src dest)) ∧
    (∀ fuel fs2, copyPath fuel fs src dest = some (fs2, none) →
      Lstat fs2 dest = .ok (.symlink t)) ∧
    (∀ fuel unmarshal run quote (repoRoot worktreeRoot raw : String),
      TrimSpace raw ≠ "" →
      (safeJoin repoRoot (TrimSpace raw)).2 = none →
      toFPath (safeJoin repoRoot (TrimSpace raw)).1 = src →
      (safeJoin worktreeRoot (TrimSpace raw)).2 = none →
      toFPath (safeJoin worktreeRoot (TrimSpace raw)).1 = dest →
      ((copyEntries (fsWorld fuel unmarshal run quote) repoRoot worktreeRoot [raw] fs).ret = none ∧
        Lstat (copyEntries (fsWorld fuel unmarshal run quote) repoRoot worktreeRoot
          [raw] fs).state dest = .ok (.symlink t)) ∨
      (∃ err, (copyEntries (fsWorld fuel unmarshal run quote) repoRoot worktreeRoot
          [raw] fs).ret
        = some (.wrap ("whq: failed to copy " ++ quote (TrimSpace raw) ++ ": " ++ err.Error)
            err))) := by
  have hcp : ∀ fuel, copyPath fuel fs src dest = some (copySymlink fs src dest) := by
    intro fuel
    simp [copyPath, h, FNode.isSymlink]
  refine ⟨hcp, ?_, ?_⟩
  · intro fuel fs2 hs
    rw [hcp] at hs
    exact copySymlink_target fs src dest t h fs2 (Option.some.inj hs)
  · intro fuel unmarshal run quote repoRoot worktreeRoot raw h0 h1 h2 h3 h4
    rcases hsrc : safeJoin repoRoot (TrimSpace raw) with ⟨srcS, e1⟩
    rcases hdst : safeJoin worktreeRoot (TrimSpace raw) with ⟨destS, e2⟩
    rw [hsrc] at h1 h2
    rw [hdst] at h3 h4
    simp only at h1 h2 h3 h4
    subst h1
    subst h3
    have hl : (fsWorld fuel unmarshal run quote).lstat fs srcS = none := by
      simp [fsWorld, h2, h]
    have hc : (fsWorld fuel unmarshal run quote).copyPath fs srcS destS
        = copySymlink fs src dest := by
      simp [fsWorld, h2, h4, hcp]
    cases hr : (copySymlink fs src dest).2 with
    | some err =>
      right
      refine ⟨err, ?_⟩
      simp [copyEntries, h0, hsrc, hdst, hl, hc, hr]
      rfl
    | none =>
      left
      have hpair : copySymlink fs src dest = ((copySymlink fs src dest).1, none) :=
        Prod.ext rfl hr
      have hlink := copySymlink_target fs src dest t h _ hpair
      simp [copyEntries, h0, hsrc, hdst, hl, hc, hr, hlink]

/-- C13, with the link `/repo/link`, whose target `missing/target` does not
exist, copied over the directory `/wt/link`. -/
theorem copyPath_symlink_not_followed_witness :
    Lstat demoFs ["repo", "link"] = .ok (.symlink "missing/target") ∧
      Stat demoFs ["repo", "link"] = .error (pathError "stat" ["repo", "link"] ENOENT) ∧
      (copyPath 0 demoFs ["repo", "link"] ["wt", "link"]).map Prod.snd = some none ∧
      Lstat (copySymlink demoFs ["repo", "link"] ["wt", "link"]).1 ["wt", "link"]
        = .ok (.symlink "missing/target") := by
  have h := copyPath_symlink_not_followed demoFs ["repo", "link"] ["wt", "link"]
    "missing/target" (by decide)
  exact ⟨by decide, by decide, by decide,
    h.2.1 0 (copySymlink demoFs ["repo", "link"] ["wt", "link"]).1
      ((h.1 0).trans (by decide))⟩

/-! ### Paths below a path -/

theorem isUnder_refl (d : FPath) : isUnder d d = true := by
  induction d with
  | nil => rfl
  | cons a d ih => simp [isUnder, ih]

theorem isUnder_append (d r : FPath) : isUnder d (d ++ r) = true := by
  induction d with
  | nil => rfl
  | cons a d ih => simp [isUnder, ih]

theorem isUnder_iff (d q : FPath) : isUnder d q = true ↔ ∃ r, q = d ++ r := by
  constructor
  · intro h
    induction d generalizing q with
    | nil => exact ⟨q, rfl⟩
    | cons a d ih =>
      cases q with
      | nil => simp [isUnder] at h
      | cons b q =>
        simp only [isUnder, Bool.and_eq_true, beq_iff_eq] at h
        obtain ⟨r, hr⟩ := ih q h.2
        exact ⟨r, by rw [h.1, hr]; rfl⟩
  · rintro ⟨r, rfl⟩
    exact isUnder_append d r

theorem isUnder_trans (a b c : FPath) (h1 : isUnder a b = true) (h2 : isUnder b c = true) :
    isUnder a c = true := by
  obtain ⟨r1, rfl⟩ := (isUnder_iff a b).mp h1
  obtain ⟨r2, rfl⟩ := (isUnder_iff (a ++ r1) c).mp h2
  rw [List.append_assoc]
  exact isUnder_append a _

theorem isUnder_length (d q : FPath) (h : isUnder d q = true) : d.length ≤ q.length := by
  obtain ⟨r, rfl⟩ := (isUnder_iff d q).mp h
  simp

theorem isUnder_antisymm (d q : FPath) (h1 : isUnder d q = true) (h2 : isUnder q d = true) :
    q = d := by
  obtain ⟨r, rfl⟩ := (isUnder_iff d q).mp h1
  have hl := isUnder_length _ _ h2
  have hr : r = [] := by
    simp at hl
    exact hl
  simp [hr]

theorem isInside_iff (d q : FPath) : isInside d q = true ↔ ∃ r, r ≠ [] ∧ q = d ++ r := by
  unfold isInside
  constructor
  · intro h
    simp only [Bool.and_eq_true, bne_iff_ne, ne_eq] at h
    obtain ⟨r, hr⟩ := (isUnder_iff d q).mp h.1
    refine ⟨r, ?_, hr⟩
    intro h0
    apply h.2
    rw [hr, h0, List.append_nil]
  · rintro ⟨r, hr, rfl⟩
    simp only [Bool.and_eq_true, bne_iff_ne, ne_eq, isUnder_append, true_and]
    intro h0
    apply hr
    have := congrArg List.length h0
    simp at this
    exact this

theorem isInside_of_under (d t q : FPath) (h1 : isInside d t = true) (h2 : isUnder t q = true) :
    isInside d q = true := by
  obtain ⟨r1, hr1, rfl⟩ := (isInside_iff d t).mp h1
  obtain ⟨r2, rfl⟩ := (isUnder_iff _ q).mp h2
  rw [isInside_iff]
  exact ⟨r1 ++ r2, by simp [hr1], by simp⟩

theorem isInside_isUnder (d q : FPath) (h : isInside d q = true) : isUnder d q = true := by
  unfold isInside at h
  simp only [Bool.and_eq_true] at h
  exact h.1

theorem not_isInside_self (d : FPath) : isInside d d = false := by
  simp [isInside]

/-! ### What an operation leaves alone -/

theorem lookupNode_filter_key (P : FPath → Bool) (fs : FileSys) (q : FPath) :
    lookupNode (fs.filter (fun e => !P e.1)) q
      = if P q = true then none else lookupNode fs q := by
  induction fs with
  | nil => simp [lookupNode]
  | cons e rest ih =>
    obtain ⟨r, m⟩ := e
    by_cases hr : P r = true
    · have hf : List.filter (fun e => !P e.1) ((r, m) :: rest)
          = List.filter (fun e => !P e.1) rest := by
        simp [List.filter, hr]
      rw [hf, ih, lookupNode_cons]
      by_cases hq : P q = true
      · simp only [if_pos hq]
      · have hne : ¬ r = q := by
          intro h
          rw [h] at hr
          exact hq hr
        simp only [if_neg hq, if_neg hne]
    · have hf : List.filter (fun e => !P e.1) ((r, m) :: rest)
          = (r, m) :: List.filter (fun e => !P e.1) rest := by
        simp [List.filter, hr]
      rw [hf, lookupNode_cons, lookupNode_cons, ih]
      by_cases hrq : r = q
      · rw [hrq] at hr
        simp only [if_pos hrq, if_neg hr]
      · by_cases hq : P q = true
        · simp only [if_neg hrq, if_pos hq]
        · simp only [if_neg hrq, if_neg hq]

theorem lookupNode_outside (d : FPath) (fs : FileSys) (q : FPath) (h : isInside d q = false) :
    lookupNode (outside d fs) q = lookupNode fs q := by
  unfold outside
  rw [lookupNode_filter_key (isInside d)]
  simp [h]

theorem node_outside (d : FPath) (fs : FileSys) (q : FPath) (h : isInside d q = false) :
    node (outside d fs) q = node fs q := by
  unfold node
  rw [lookupNode_outside d fs q h]

theorem node_of_outside_eq (d : FPath) (fs fs2 : FileSys) (q : FPath)
    (h : isInside d q = false) (he : outside d fs2 = outside d fs) : node fs2 q = node fs q := by
  rw [← node_outside d fs2 q h, he, node_outside d fs q h]

theorem filter_filter_of_imp {α : Type} (p q : α → Bool) (l : List α)
    (h : ∀ a, p a = true → q a = true) : (l.filter q).filter p = l.filter p := by
  induction l with
  | nil => rfl
  | cons a l ih =>
    by_cases hq : q a = true
    · by_cases hp : p a = true
      · simp [List.filter, hq, hp, ih]
      · simp [List.filter, hq, hp, ih]
    · have hp : ¬ p a = true := fun hp => hq (h a hp)
      simp [List.filter, hq, hp, ih]

theorem outside_append (d : FPath) (fs fs2 : FileSys) :
    outside d (fs ++ fs2) = outside d fs ++ outside d fs2 := by
  simp [outside]

theorem outside_single_inside (d q : FPath) (n : FNode) (h : isInside d q = true) :
    outside d [(q, n)] = [] := by
  simp [outside, h]

theorem outside_add_inside (d : FPath) (fs : FileSys) (q : FPath) (n : FNode)
    (h : isInside d q = true) : outside d (fs ++ [(q, n)]) = outside d fs := by
  rw [outside_append, outside_single_inside d q n h, List.append_nil]

theorem outside_map_put (d : FPath) (fs : FileSys) (q : FPath) (n : FNode)
    (h : isInside d q = true) :
    outside d (fs.map (fun e => if e.1 = q then (q, n) else e)) = outside d fs := by
  induction fs with
  | nil => rfl
  | cons e rest ih =>
    obtain ⟨r, m⟩ := e
    unfold outside at ih ⊢
    by_cases hr : r = q
    · subst hr
      simp only [List.map_cons, if_true]
      rw [List.filter_cons_of_neg (by simp [h]), List.filter_cons_of_neg (by simp [h])]
      exact ih
    · simp only [List.map_cons, if_neg hr]
      by_cases hi : isInside d r = true
      · rw [List.filter_cons_of_neg (by simp [hi]), List.filter_cons_of_neg (by simp [hi])]
        exact ih
      · rw [List.filter_cons_of_pos (by simp [hi]), List.filter_cons_of_pos (by simp [hi]), ih]

theorem outside_putNode (d : FPath) (fs : FileSys) (q : FPath) (n : FNode)
    (h : isInside d q = true) : outside d (putNode fs q n) = outside d fs := by
  unfold putNode
  split
  · exact outside_add_inside d fs q n h
  · exact outside_map_put d fs q n h

theorem outside_RemoveAll (d t : FPath) (fs : FileSys) (h : isInside d t = true) :
    outside d (RemoveAll fs t).1 = outside d fs := by
  unfold outside RemoveAll
  apply filter_filter_of_imp
  intro a ha
  cases hu : isUnder t a.1 with
  | false => rfl
  | true =>
    have := isInside_of_under d t a.1 h hu
    simp [this] at ha

theorem Stat_of_dir (fs : FileSys) (d : FPath) (pm : Nat) (h : node fs d = some (.dir pm)) :
    Stat fs d = .ok (.dir pm) := by
  have hf := follow_of_not_symlink fs 39 d (by rw [h]; simp)
  simp [Stat, hf, h]

theorem Mkdir_fst_of_error (fs : FileSys) (p : FPath) (perm : Nat) (err : GoError)
    (h : (Mkdir fs p perm).2 = some err) : (Mkdir fs p perm).1 = fs := by
  unfold Mkdir at h ⊢
  cases hn : node fs p with
  | some n => rfl
  | none =>
    simp only [hn] at h ⊢
    cases hp : node fs p.dropLast with
    | none => rfl
    | some m =>
      cases m with
      | file a b => rfl
      | symlink t => rfl
      | dir pm => simp [hp] at h

theorem Mkdir_of_ok (fs : FileSys) (p : FPath) (perm : Nat)
    (h : (Mkdir fs p perm).2 = none) :
    (Mkdir fs p perm).1 = fs ++ [(p, .dir perm)] ∧ node fs p = none := by
  unfold Mkdir at h ⊢
  cases hn : node fs p with
  | some n => simp [hn] at h
  | none =>
    simp only [hn] at h ⊢
    cases hp : node fs p.dropLast with
    | none => simp [hp] at h
    | some m =>
      cases m with
      | file a b => simp [hp] at h
      | symlink t => simp [hp] at h
      | dir pm => simp

theorem Mkdir_outside (d p : FPath) (fs : FileSys) (perm : Nat) (h : isInside d p = true) :
    outside d (Mkdir fs p perm).1 = outside d fs := by
  cases hm : (Mkdir fs p perm).2 with
  | some err => rw [Mkdir_fst_of_error fs p perm err hm]
  | none =>
    rw [(Mkdir_of_ok fs p perm hm).1]
    exact outside_add_inside d fs p _ h

theorem mkdirAllRev_outside (d : FPath) (fs : FileSys) (perm pm : Nat)
    (hdir : node fs d = some (.dir pm)) :
    ∀ rr : List String, outside d (mkdirAllRev perm (rr ++ d.reverse) fs).1 = outside d fs := by
  intro rr
  induction rr with
  | nil =>
    rw [List.nil_append]
    cases hd : d.reverse with
    | nil => simp [mkdirAllRev]
    | cons c rp =>
      have hrev : (c :: rp).reverse = d := by rw [← hd, List.reverse_reverse]
      simp [mkdirAllRev, hrev, Stat_of_dir fs d pm hdir, FNode.IsDir]
  | cons c rr1 ih =>
    have hin : isInside d (c :: (rr1 ++ d.reverse)).reverse = true := by
      rw [isInside_iff]
      exact ⟨rr1.reverse ++ [c], by simp, by simp⟩
    rw [List.cons_append]
    unfold mkdirAllRev
    cases hs : Stat fs (c :: (rr1 ++ d.reverse)).reverse with
    | ok dir =>
      simp only
      split <;> rfl
    | error e =>
      simp only
      cases hr : (mkdirAllRev perm (rr1 ++ d.reverse) fs).2 with
      | some err => simpa using ih
      | none =>
        simp only
        have hmk := Mkdir_outside d (c :: (rr1 ++ d.reverse)).reverse
          (mkdirAllRev perm (rr1 ++ d.reverse) fs).1 perm hin
        cases hm : (Mkdir (mkdirAllRev perm (rr1 ++ d.reverse) fs).1
            (c :: (rr1 ++ d.reverse)).reverse perm).2 with
        | none => simp only; rw [hmk, ih]
        | some err =>
          simp only
          split
          · split <;> (simp only; rw [hmk, ih])
          · simp only; rw [hmk, ih]

theorem MkdirAll_outside (d rel : FPath) (fs : FileSys) (perm pm : Nat)
    (hdir : node fs d = some (.dir pm)) :
    outside d (MkdirAll fs (d ++ rel) perm).1 = outside d fs := by
  unfold MkdirAll
  rw [List.reverse_append]
  exact mkdirAllRev_outside d fs perm pm hdir rel.reverse

theorem Symlink_outside (d p : FPath) (fs : FileSys) (t : String) (h : isInside d p = true) :
    outside d (Symlink fs t p).1 = outside d fs := by
  unfold Symlink
  split
  · rfl
  · split
    · rfl
    · split
      · exact outside_add_inside d fs p _ h
      · rfl
      · rfl

theorem writeContent_outside (d q : FPath) (fs : FileSys) (c : String)
    (h : isInside d q = true) : outside d (writeContent fs q c) = outside d fs := by
  unfold writeContent
  split
  · exact outside_putNode d fs q _ h
  · rfl

theorem node_RemoveAll_self (fs : FileSys) (t : FPath) (ht : t ≠ []) :
    node (RemoveAll fs t).1 t = none := by
  rw [node_ne_nil_lookup _ _ ht]
  unfold RemoveAll
  rw [lookupNode_filter_key (isUnder t)]
  simp [isUnder_refl]

theorem OpenFile_outside (d t : FPath) (fs fs1 : FileSys) (perm : Nat) (q : FPath)
    (h : isInside d t = true) (hn : node fs t = none)
    (ho : OpenFile fs t perm = .ok (fs1, q)) : q = t ∧ outside d fs1 = outside d fs := by
  have hf := follow_of_not_symlink fs 39 t (by rw [hn]; simp)
  unfold OpenFile at ho
  simp only [hf, hn] at ho
  cases hp : node fs t.dropLast with
  | none => simp [hp] at ho
  | some m =>
    cases m with
    | file a b => simp [hp] at ho
    | symlink x => simp [hp] at ho
    | dir pm =>
      simp only [hp, Except.ok.injEq, Prod.mk.injEq] at ho
      refine ⟨ho.2.symm, ?_⟩
      rw [← ho.1]
      exact outside_add_inside d fs t _ h

theorem dropLast_inside (d t : FPath) (h : isInside d t = true) :
    ∃ rel, t.dropLast = d ++ rel ∧ t ≠ [] := by
  obtain ⟨r, hr, rfl⟩ := (isInside_iff d t).mp h
  refine ⟨r.dropLast, List.dropLast_append_of_ne_nil _ hr, ?_⟩
  intro h0
  apply hr
  cases r with
  | nil => rfl
  | cons a r1 => simp at h0

theorem dir_of_outside_eq (d : FPath) (fs fs2 : FileSys) (pm : Nat)
    (hdir : node fs d = some (.dir pm)) (he : outside d fs2 = outside d fs) :
    node fs2 d = some (.dir pm) := by
  rw [node_of_outside_eq d fs fs2 d (not_isInside_self d) he]
  exact hdir

theorem copySymlink_outside (d path target : FPath) (fs : FileSys) (pm : Nat)
    (hin : isInside d target = true) (hdir : node fs d = some (.dir pm)) :
    outside d (copySymlink fs path target).1 = outside d fs := by
  obtain ⟨rel, hrel, _⟩ := dropLast_inside d target hin
  have h1 := outside_RemoveAll d target fs hin
  have hdir1 := dir_of_outside_eq d fs _ pm hdir h1
  have h2 := MkdirAll_outside d rel (RemoveAll fs target).1 0o755 pm hdir1
  rw [← hrel] at h2
  have h3 := fun t => Symlink_outside d target
    (MkdirAll (RemoveAll fs target).1 target.dropLast 0o755).1 t hin
  unfold copySymlink
  simp only
  split
  · exact h1
  · split
    · exact h1
    · split
      · simp only; rw [h2, h1]
      · rw [h3, h2, h1]

theorem copyFile_outside (d path target : FPath) (fs : FileSys) (perm pm : Nat)
    (hin : isInside d target = true) (hdir : node fs d = some (.dir pm)) :
    outside d (copyFile fs path target perm).1 = outside d fs := by
  obtain ⟨rel, hrel, hne⟩ := dropLast_inside d target hin
  have h1 := MkdirAll_outside d rel fs 0o755 pm hdir
  rw [← hrel] at h1
  have h2 := outside_RemoveAll d target (MkdirAll fs target.dropLast 0o755).1 hin
  have hnone := node_RemoveAll_self (MkdirAll fs target.dropLast 0o755).1 target hne
  unfold copyFile
  simp only
  split
  · simp only; exact h1
  · split
    · simp only; rw [h2, h1]
    · split
      · simp only; rw [h2, h1]
      · split
        · simp only; rw [h2, h1]
        · rename_i fs1 q ho
          obtain ⟨hq, h3⟩ := OpenFile_outside d target _ fs1 perm q hin hnone ho
          split
          · simp only
            rw [hq, writeContent_outside d target fs1 _ hin, h3, h2, h1]
          · simp only; rw [h3, h2, h1]

theorem Rel_ne_nil (src path rel : FPath) (h : Rel src path = .ok rel) (hne : path ≠ src) :
    rel ≠ [] ∧ path = src ++ rel := by
  unfold Rel at h
  by_cases hu : isUnder src path = true
  · rw [if_pos hu] at h
    obtain ⟨r, hr⟩ := (isUnder_iff src path).mp hu
    have hrel : rel = r := by
      have := Except.ok.inj h
      rw [← this, hr]
      simp
    rw [hrel]
    refine ⟨?_, hr⟩
    intro h0
    apply hne
    rw [hr, h0, List.append_nil]
  · rw [if_neg hu] at h
    simp at h

theorem copyDirectoryFn_outside (src d path : FPath) (fs : FileSys) (isDir : Bool)
    (walkErr : Option GoError) (pm : Nat) (hdir : node fs d = some (.dir pm)) :
    outside d (copyDirectoryFn src d fs path isDir walkErr).1 = outside d fs := by
  unfold copyDirectoryFn
  split
  · rfl
  · split
    · rfl
    · rename_i hne
      split
      · rfl
      · rename_i rel hrel
        obtain ⟨hr, _⟩ := Rel_ne_nil src path rel hrel hne
        have hin : isInside d (d ++ rel) = true := (isInside_iff d _).mpr ⟨rel, hr, rfl⟩
        simp only
        split
        · split
          · rfl
          · exact MkdirAll_outside d rel fs _ pm hdir
        · split
          · rfl
          · split
            · exact copySymlink_outside d path (d ++ rel) fs pm hin hdir
            · exact copyFile_outside d path (d ++ rel) fs _ pm hin hdir

theorem walkList_outside (d : FPath)
    (step : FileSys → FPath → Bool → Option (FileSys × Option GoError))
    (hstep : ∀ fs p b r pm, node fs d = some (.dir pm) → step fs p b = some r →
      outside d r.1 = outside d fs)
    (path : FPath) (dirs : List (String × Bool)) :
    ∀ (fs : FileSys) (r : FileSys × Option GoError) (pm : Nat),
      node fs d = some (.dir pm) → walkList step path dirs fs = some r →
      outside d r.1 = outside d fs := by
  induction dirs with
  | nil =>
    intro fs r pm _ h
    simp only [walkList, Option.some.injEq] at h
    rw [← h]
  | cons d1 rest ih =>
    intro fs r pm hdir h
    unfold walkList at h
    cases hs : step fs (path ++ [d1.1]) d1.2 with
    | none => simp [hs] at h
    | some r1 =>
      obtain ⟨fs1, e1⟩ := r1
      have h1 := hstep fs _ _ _ pm hdir hs
      cases e1 with
      | some err =>
        simp only [hs, Option.some.injEq] at h
        rw [← h]
        exact h1
      | none =>
        simp only [hs] at h
        have hdir1 := dir_of_outside_eq d fs fs1 pm hdir h1
        rw [ih fs1 r pm hdir1 h]
        exact h1

theorem walkDir_outside (src d : FPath) :
    ∀ (fuel : Nat) (fs : FileSys) (path : FPath) (isDir : Bool)
      (r : FileSys × Option GoError) (pm : Nat),
      node fs d = some (.dir pm) →
      walkDir (copyDirectoryFn src d) fuel fs path isDir = some r →
      outside d r.1 = outside d fs := by
  intro fuel
  induction fuel with
  | zero => intro fs path isDir r pm _ h; simp [walkDir] at h
  | succ fuel ih =>
    intro fs path isDir r pm hdir h
    unfold walkDir at h
    have h0 := copyDirectoryFn_outside src d path fs isDir none pm hdir
    have hdir0 := dir_of_outside_eq d fs _ pm hdir h0
    simp only at h
    split at h
    · have := Option.some.inj h
      rw [← this]
      exact h0
    · split at h
      · have := Option.some.inj h
        rw [← this, copyDirectoryFn_outside src d path _ isDir _ pm hdir0]
        exact h0
      · rw [walkList_outside d (walkDir (copyDirectoryFn src d) fuel) ih path _ _ r pm hdir0 h]
        exact h0

/-! ### Making the destination directory -/

theorem lookupNode_none_of_keys (fs : FileSys) (q : FPath) (h : ∀ e ∈ fs, e.1 ≠ q) :
    lookupNode fs q = none := by
  induction fs with
  | nil => rfl
  | cons e rest ih =>
    obtain ⟨r, m⟩ := e
    have hr : ¬ r = q := h (r, m) (by simp)
    rw [lookupNode_cons, if_neg hr]
    exact ih (fun e he => h e (by simp [he]))

theorem Stat_of_none (fs : FileSys) (p : FPath) (h : node fs p = none) :
    Stat fs p = .error (pathError "stat" p ENOENT) := by
  have hf := follow_of_not_symlink fs 39 p (by rw [h]; simp)
  simp [Stat, hf, h]

theorem mkdirAllRev_adds (perm : Nat) (rp : List String) :
    ∀ fs : FileSys, ∃ new, (mkdirAllRev perm rp fs).1 = fs ++ new ∧
      ∀ e ∈ new, isUnder e.1 rp.reverse = true := by
  induction rp with
  | nil => intro fs; exact ⟨[], by simp [mkdirAllRev], by simp⟩
  | cons c rp1 ih =>
    intro fs
    obtain ⟨new, hnew, hkeys⟩ := ih fs
    have hup : ∀ e ∈ new, isUnder e.1 (c :: rp1).reverse = true := by
      intro e he
      have h1 := hkeys e he
      rw [List.reverse_cons]
      exact isUnder_trans _ _ _ h1 (isUnder_append _ _)
    unfold mkdirAllRev
    cases hs : Stat fs (c :: rp1).reverse with
    | ok dir =>
      simp only
      split <;> exact ⟨[], by simp, by simp⟩
    | error e =>
      simp only
      cases hr : (mkdirAllRev perm rp1 fs).2 with
      | some err => exact ⟨new, hnew, hup⟩
      | none =>
        simp only
        cases hm : (Mkdir (mkdirAllRev perm rp1 fs).1 (c :: rp1).reverse perm).2 with
        | none =>
          simp only
          rw [(Mkdir_of_ok _ _ _ hm).1, hnew]
          refine ⟨new ++ [((c :: rp1).reverse, .dir perm)], by simp, ?_⟩
          intro e he
          rcases List.mem_append.mp he with h | h
          · exact hup e h
          · simp only [List.mem_singleton] at h
            rw [h]
            exact isUnder_refl _
        | some err =>
          have hfst := Mkdir_fst_of_error _ _ _ err hm
          simp only
          split
          · split <;> exact ⟨new, by rw [hfst, hnew], hup⟩
          · exact ⟨new, by rw [hfst, hnew], hup⟩

theorem Lstat_ok_iff (fs : FileSys) (p : FPath) (n : FNode) :
    Lstat fs p = .ok n ↔ node fs p = some n := by
  unfold Lstat
  cases hn : node fs p with
  | none => simp
  | some m => simp

theorem mkdirAllRev_idem (perm : Nat) (rp : List String) :
    ∀ (fs fs1 : FileSys), mkdirAllRev perm rp fs = (fs1, none) →
      mkdirAllRev perm rp fs1 = (fs1, none) := by
  induction rp with
  | nil => intro fs fs1 _; simp [mkdirAllRev]
  | cons c rp1 ih =>
    intro fs fs1 h
    unfold mkdirAllRev at h ⊢
    have hpne0 : (c :: rp1).reverse ≠ [] := by simp
    generalize (c :: rp1).reverse = p at h hpne0 ⊢
    have fast : ∀ pm, node fs1 p = some (.dir pm) →
        (match Stat fs1 p with
          | .ok dir =>
            if dir.IsDir then (fs1, none)
            else (fs1, some (pathError "mkdir" p ENOTDIR))
          | .error _ =>
            let r := mkdirAllRev perm rp1 fs1
            match r.2 with
            | some err => (r.1, some err)
            | none =>
              let m := Mkdir r.1 p perm
              match m.2 with
              | some err =>
                match Lstat m.1 p with
                | .ok dir => if dir.IsDir then (m.1, none) else (m.1, some err)
                | .error _ => (m.1, some err)
              | none => (m.1, (none : Option GoError))) = (fs1, none) := by
      intro pm hn
      simp only [Stat_of_dir fs1 p pm hn, FNode.IsDir, if_true]
    cases hs : Stat fs p with
    | ok dir =>
      simp only [hs] at h
      cases dir with
      | file a b => simp [FNode.IsDir] at h
      | symlink t => simp [FNode.IsDir] at h
      | dir pm =>
        simp only [FNode.IsDir, if_true, Prod.mk.injEq, and_true] at h
        rw [← h]
        simp only [hs, FNode.IsDir, if_true]
    | error e =>
      simp only [hs] at h
      cases hr : (mkdirAllRev perm rp1 fs).2 with
      | some err => simp [hr] at h
      | none =>
        simp only [hr] at h
        cases hm : (Mkdir (mkdirAllRev perm rp1 fs).1 p perm).2 with
        | none =>
          simp only [hm, Prod.mk.injEq, and_true] at h
          obtain ⟨hadd, hnone⟩ := Mkdir_of_ok _ _ _ hm
          apply fast perm
          rw [← h, hadd, node_ne_nil_lookup _ _ hpne0, lookupNode_append]
          rw [node_ne_nil_lookup _ _ hpne0] at hnone
          rw [hnone]
          simp [lookupNode]
        | some err =>
          simp only [hm] at h
          cases hl : Lstat (Mkdir (mkdirAllRev perm rp1 fs).1 p perm).1 p with
          | error e2 => simp [hl] at h
          | ok dir =>
            simp only [hl] at h
            cases dir with
            | file a b => simp [FNode.IsDir] at h
            | symlink t => simp [FNode.IsDir] at h
            | dir pm =>
              simp only [FNode.IsDir, if_true, Prod.mk.injEq, and_true] at h
              apply fast pm
              rw [← h]
              exact (Lstat_ok_iff _ _ _).mp hl

theorem node_none_of_not_under (S : FileSys) (p : FPath) (hp : p ≠ [])
    (hS : ∀ e ∈ S, isUnder p e.1 = false) : node S p = none := by
  rw [node_ne_nil_lookup _ _ hp]
  apply lookupNode_none_of_keys
  intro e he heq
  have h := hS e he
  rw [heq, isUnder_refl] at h
  exact absurd h (by simp)

theorem Lstat_of_none (fs : FileSys) (p : FPath) (h : node fs p = none) :
    Lstat fs p = .error (pathError "lstat" p ENOENT) := by
  simp [Lstat, h]

theorem mkdirAllRev_fresh (A B : FileSys) (c : String) (rp : List String) (perm : Nat)
    (hA : ∀ e ∈ A, isUnder (c :: rp).reverse e.1 = false)
    (h : mkdirAllRev perm (c :: rp) A = (B, none)) :
    ∃ new, (∀ e ∈ A ++ new, isUnder (c :: rp).reverse e.1 = false) ∧
      (∀ e ∈ new, isUnder e.1 (c :: rp).reverse = true) ∧
      B = (A ++ new) ++ [((c :: rp).reverse, .dir perm)] ∧
      mkdirAllRev perm (c :: rp) (A ++ new) = (B, none) := by
  obtain ⟨new, hnew, hkeys⟩ := mkdirAllRev_adds perm rp A
  have hpne : (c :: rp).reverse ≠ [] := by simp
  have hup : ∀ e ∈ new, isUnder e.1 (c :: rp).reverse = true := by
    intro e he
    rw [List.reverse_cons]
    exact isUnder_trans _ _ _ (hkeys e he) (isUnder_append _ _)
  have hA1 : ∀ e ∈ A ++ new, isUnder (c :: rp).reverse e.1 = false := by
    intro e he
    rcases List.mem_append.mp he with h1 | h1
    · exact hA e h1
    · cases hu : isUnder (c :: rp).reverse e.1 with
      | false => rfl
      | true =>
        have l1 := isUnder_length _ _ hu
        have l2 := isUnder_length _ _ (hkeys e h1)
        simp only [List.length_reverse, List.length_cons] at l1 l2
        omega
  have hidem := mkdirAllRev_idem perm rp A
  refine ⟨new, hA1, hup, ?_⟩
  rw [← hnew] at hA1 ⊢
  generalize hR : mkdirAllRev perm rp A = R at hA1 hidem h ⊢
  have h2 := h
  rw [mkdirAllRev.eq_2] at h2 ⊢
  rw [hR] at h2
  generalize (c :: rp).reverse = p at h2 hA hA1 hpne ⊢
  rw [Stat_of_none _ _ (node_none_of_not_under A p hpne hA)] at h2
  rw [Stat_of_none _ _ (node_none_of_not_under _ p hpne hA1)]
  simp only at h2 ⊢
  cases hr : R.2 with
  | some err => simp [hr] at h2
  | none =>
    have hi := hidem R.1 (by rw [← hr])
    simp only [hr] at h2
    rw [hi]
    simp only
    cases hm : (Mkdir R.1 p perm).2 with
    | none =>
      simp only [hm] at h2 ⊢
      obtain ⟨hadd, _⟩ := Mkdir_of_ok _ _ _ hm
      have hB : (Mkdir R.1 p perm).1 = B := (Prod.mk.inj h2).1
      rw [hB] at hadd ⊢
      exact ⟨hadd, rfl⟩
    | some err =>
      have hfst := Mkdir_fst_of_error _ _ _ err hm
      simp only [hm, hfst, Lstat_of_none _ _ (node_none_of_not_under _ p hpne hA1)] at h2
      simp at h2

theorem MkdirAll_fresh (A B : FileSys) (dest : FPath) (perm : Nat) (hd : dest ≠ [])
    (hA : ∀ e ∈ A, isUnder dest e.1 = false)
    (h : MkdirAll A dest perm = (B, none)) :
    ∃ new, (∀ e ∈ A ++ new, isUnder dest e.1 = false) ∧
      (∀ e ∈ new, isUnder e.1 dest = true) ∧
      B = (A ++ new) ++ [(dest, .dir perm)] ∧
      MkdirAll (A ++ new) dest perm = (B, none) := by
  obtain ⟨c, rp, hrev⟩ : ∃ c rp, dest.reverse = c :: rp := by
    cases hr : dest.reverse with
    | nil => exact absurd (List.reverse_eq_nil_iff.mp hr) hd
    | cons c rp => exact ⟨c, rp, rfl⟩
  have hdest : (c :: rp).reverse = dest := by rw [← hrev, List.reverse_reverse]
  unfold MkdirAll at h ⊢
  rw [hrev] at h ⊢
  rw [← hdest] at hA ⊢
  exact mkdirAllRev_fresh A B c rp perm hA h

theorem copyDirectory_eq (fuel : Nat) (fs : FileSys) (src dest : FPath) (perm : Nat)
    (hsrc : node fs src = some (.dir perm)) (hd : dest ≠ []) :
    copyDirectory fuel fs src dest =
      match (MkdirAll (fs.filter (fun e => !isUnder dest e.1)) dest perm).2 with
      | some err => some ((MkdirAll (fs.filter (fun e => !isUnder dest e.1)) dest perm).1, some err)
      | none => WalkDir (copyDirectoryFn src dest) fuel
          (MkdirAll (fs.filter (fun e => !isUnder dest e.1)) dest perm).1 src := by
  unfold copyDirectory
  rw [Stat_of_dir fs src perm hsrc]
  simp [FNode.IsDir, RemoveAll, hd, FNode.Perm]

theorem copyDirectory_dest_ne_nil (fuel : Nat) (fs fs1 : FileSys) (src dest : FPath) (perm : Nat)
    (hsrc : node fs src = some (.dir perm))
    (h : copyDirectory fuel fs src dest = some (fs1, none)) : dest ≠ [] := by
  intro hd
  subst hd
  unfold copyDirectory at h
  rw [Stat_of_dir fs src perm hsrc] at h
  simp [FNode.IsDir, RemoveAll, pathError, EBUSY, IsNotExist] at h

/-! ### The stages of a successful `copyDirectory` -/

theorem copyDirectory_stages (fuel : Nat) (fs fs1 : FileSys) (src dest : FPath) (perm : Nat)
    (hsrc : node fs src = some (.dir perm))
    (h : copyDirectory fuel fs src dest = some (fs1, none)) :
    dest ≠ [] ∧ ∃ new info,
      (∀ e ∈ fs.filter (fun e => !isUnder dest e.1) ++ new, isUnder dest e.1 = false) ∧
      (∀ e ∈ new, isUnder e.1 dest = true) ∧
      MkdirAll (fs.filter (fun e => !isUnder dest e.1)) dest perm
        = ((fs.filter (fun e => !isUnder dest e.1) ++ new) ++ [(dest, .dir perm)], none) ∧
      MkdirAll (fs.filter (fun e => !isUnder dest e.1) ++ new) dest perm
        = ((fs.filter (fun e => !isUnder dest e.1) ++ new) ++ [(dest, .dir perm)], none) ∧
      Lstat ((fs.filter (fun e => !isUnder dest e.1) ++ new) ++ [(dest, .dir perm)]) src
        = .ok info ∧
      walkDir (copyDirectoryFn src dest) fuel
        ((fs.filter (fun e => !isUnder dest e.1) ++ new) ++ [(dest, .dir perm)]) src info.IsDir
        = some (fs1, none) := by
  have hd := copyDirectory_dest_ne_nil fuel fs fs1 src dest perm hsrc h
  refine ⟨hd, ?_⟩
  rw [copyDirectory_eq fuel fs src dest perm hsrc hd] at h
  generalize hA : fs.filter (fun e => !isUnder dest e.1) = A at h ⊢
  have hAk : ∀ e ∈ A, isUnder dest e.1 = false := by
    intro e he
    rw [← hA] at he
    have := (List.mem_filter.mp he).2
    simpa using this
  cases hm2 : (MkdirAll A dest perm).2 with
  | some err => simp [hm2] at h
  | none =>
    simp only [hm2] at h
    have hpair : MkdirAll A dest perm = ((MkdirAll A dest perm).1, none) := by rw [← hm2]
    obtain ⟨new, hA1, hup, hB, hagain⟩ := MkdirAll_fresh A _ dest perm hd hAk hpair
    rw [hB] at hpair hagain h
    unfold WalkDir at h
    cases hl : Lstat ((A ++ new) ++ [(dest, .dir perm)]) src with
    | error err =>
      rw [hl] at h
      simp [copyDirectoryFn] at h
    | ok info =>
      rw [hl] at h
      exact ⟨new, info, hA1, hup, hpair, hagain, hl, h⟩

theorem lookupNode_none_of_not_under (S : FileSys) (d q : FPath) (hq : isUnder d q = true)
    (hS : ∀ e ∈ S, isUnder d e.1 = false) : lookupNode S q = none := by
  apply lookupNode_none_of_keys
  intro e he heq
  have h := hS e he
  rw [heq, hq] at h
  exact absurd h (by simp)

theorem copyDirectory_again (fuel : Nat) (fs fs1 : FileSys) (src dest : FPath) (perm : Nat)
    (hsrc : node fs src = some (.dir perm))
    (h : copyDirectory fuel fs src dest = some (fs1, none)) :
    copyDirectory fuel fs1 src dest = some (fs1, none) := by
  obtain ⟨hd, new, info, hA1, hup, hmk, hagain, hl, hw⟩ :=
    copyDirectory_stages fuel fs fs1 src dest perm hsrc h
  generalize hA : fs.filter (fun e => !isUnder dest e.1) = A at hA1 hmk hagain hl hw
  have hBdest : node ((A ++ new) ++ [(dest, .dir perm)]) dest = some (.dir perm) := by
    rw [node_ne_nil_lookup _ _ hd, lookupNode_append,
      lookupNode_none_of_not_under _ dest dest (isUnder_refl dest) hA1]
    simp [lookupNode]
  have hout := walkDir_outside src dest fuel _ src info.IsDir (fs1, none) perm hBdest hw
  simp only at hout
  -- the source is not strictly below the destination
  have hni : isInside dest src = false := by
    cases hi : isInside dest src with
    | false => rfl
    | true =>
      obtain ⟨r, hr, hsr⟩ := (isInside_iff dest src).mp hi
      have hsne : src ≠ [] := by rw [hsr]; simp [hr]
      have hsd : src ≠ dest := by
        intro e
        rw [e, not_isInside_self] at hi
        exact absurd hi (by simp)
      have hn : node ((A ++ new) ++ [(dest, .dir perm)]) src = none := by
        rw [node_ne_nil_lookup _ _ hsne, lookupNode_append,
          lookupNode_none_of_not_under _ dest src (isInside_isUnder _ _ hi) hA1]
        simp [lookupNode, Ne.symm hsd]
      rw [Lstat_of_none _ _ hn] at hl
      exact absurd hl (by simp)
  -- the source is still the same directory
  have hsrcB : node ((A ++ new) ++ [(dest, .dir perm)]) src = some (.dir perm) := by
    by_cases hsd : src = dest
    · rw [hsd]; exact hBdest
    · by_cases hs0 : src = []
      · subst hs0
        simp only [node, if_true] at hsrc ⊢
        exact hsrc
      · have hnu : isUnder dest src = false := by
          cases hu : isUnder dest src with
          | false => rfl
          | true =>
            have : isInside dest src = true := by simp [isInside, hu, hsd]
            rw [this] at hni
            exact absurd hni (by simp)
        have hfs : lookupNode A src = some (.dir perm) := by
          rw [← hA, lookupNode_filter_under, hnu, ← node_ne_nil_lookup _ _ hs0]
          simpa using hsrc
        rw [node_ne_nil_lookup _ _ hs0, lookupNode_append, lookupNode_append, hfs]
        rfl
  have hsrc1 : node fs1 src = some (.dir perm) := by
    rw [node_of_outside_eq dest _ fs1 src hni hout]
    exact hsrcB
  have hfilter : fs1.filter (fun e => !isUnder dest e.1) = A ++ new := by
    have himp : ∀ a : FPath × FNode, (!isUnder dest a.1) = true → (!isInside dest a.1) = true := by
      intro a ha
      cases hi : isInside dest a.1 with
      | false => rfl
      | true =>
        rw [isInside_isUnder _ _ hi] at ha
        exact absurd ha (by simp)
    have e1 := filter_filter_of_imp (fun e : FPath × FNode => !isUnder dest e.1)
      (fun e => !isInside dest e.1) fs1 himp
    have e2 := filter_filter_of_imp (fun e : FPath × FNode => !isUnder dest e.1)
      (fun e => !isInside dest e.1) ((A ++ new) ++ [(dest, .dir perm)]) himp
    unfold outside at hout
    rw [← e1, hout, e2, List.filter_append]
    have hk : (A ++ new).filter (fun e => !isUnder dest e.1) = A ++ new := by
      apply List.filter_eq_self.mpr
      intro e he
      simp [hA1 e he]
    rw [hk]
    simp [isUnder_refl]
  rw [copyDirectory_eq fuel fs1 src dest perm hsrc1 hd, hfilter, hagain]
  simp only
  unfold WalkDir
  rw [hl]
  exact hw

/-! ### Where a copy puts entries -/

theorem KeysFrom_refl (K : FPath → Prop) (S : FileSys) : KeysFrom K S S :=
  fun _ h => Or.inl h

theorem KeysFrom_trans (K : FPath → Prop) (S S1 S2 : FileSys)
    (h1 : KeysFrom K S S1) (h2 : KeysFrom K S1 S2) : KeysFrom K S S2 := by
  intro q hq
  rcases h2 q hq with h | h
  · exact h1 q h
  · exact Or.inr h

theorem KeysFrom_mono (K K2 : FPath → Prop) (S S1 : FileSys) (hK : ∀ q, K q → K2 q)
    (h : KeysFrom K S S1) : KeysFrom K2 S S1 := by
  intro q hq
  rcases h q hq with h | h
  · exact Or.inl h
  · exact Or.inr (hK q h)

theorem lookupNode_some_key (fs : FileSys) (q : FPath) (h : lookupNode fs q ≠ none) :
    ∃ e ∈ fs, e.1 = q := by
  by_contra hc
  push_neg at hc
  exact h (lookupNode_none_of_keys fs q hc)

theorem KeysFrom_append (K : FPath → Prop) (S new : FileSys) (h : ∀ e ∈ new, K e.1) :
    KeysFrom K S (S ++ new) := by
  intro q hq
  rw [lookupNode_append] at hq
  cases hl : lookupNode S q with
  | some n => exact Or.inl (by simp)
  | none =>
    rw [hl] at hq
    simp only [Option.orElse] at hq
    obtain ⟨e, he, heq⟩ := lookupNode_some_key new q hq
    rw [← heq]
    exact Or.inr (h e he)

theorem KeysFrom_RemoveAll (K : FPath → Prop) (S : FileSys) (t : FPath) :
    KeysFrom K S (RemoveAll S t).1 := by
  intro q hq
  simp only [RemoveAll] at hq
  rw [lookupNode_filter_under] at hq
  split at hq
  · exact absurd rfl hq
  · exact Or.inl hq

theorem KeysFrom_MkdirAll (S : FileSys) (p : FPath) (perm : Nat) :
    KeysFrom (fun q => isUnder q p = true) S (MkdirAll S p perm).1 := by
  obtain ⟨new, hnew, hkeys⟩ := mkdirAllRev_adds perm p.reverse S
  unfold MkdirAll
  rw [hnew]
  apply KeysFrom_append
  intro e he
  have := hkeys e he
  rw [List.reverse_reverse] at this
  exact this

theorem KeysFrom_Symlink (S : FileSys) (t : String) (p : FPath) :
    KeysFrom (fun q => q = p) S (Symlink S t p).1 := by
  unfold Symlink
  split
  · exact KeysFrom_refl _ _
  · split
    · exact KeysFrom_refl _ _
    · split
      · apply KeysFrom_append
        intro e he
        simp only [List.mem_singleton] at he
        rw [he]
      · exact KeysFrom_refl _ _
      · exact KeysFrom_refl _ _

theorem KeysFrom_putNode (K : FPath → Prop) (S : FileSys) (q : FPath) (n : FNode)
    (h : lookupNode S q ≠ none) : KeysFrom K S (putNode S q n) := by
  intro x hx
  rw [lookupNode_putNode] at hx
  by_cases hxq : x = q
  · rw [hxq]; exact Or.inl h
  · rw [if_neg hxq] at hx
    exact Or.inl hx

theorem KeysFrom_writeContent (K : FPath → Prop) (S : FileSys) (q : FPath) (c : String) :
    KeysFrom K S (writeContent S q c) := by
  unfold writeContent
  split
  · rename_i pm old hl
    exact KeysFrom_putNode K S q _ (by rw [hl]; simp)
  · exact KeysFrom_refl _ _

theorem KeysFrom_OpenFile (S S1 : FileSys) (p q : FPath) (perm : Nat)
    (hnone : node S p = none) (h : OpenFile S p perm = .ok (S1, q)) :
    KeysFrom (fun x => x = p) S S1 ∧ q = p := by
  have hf := follow_of_not_symlink S 39 p (by rw [hnone]; simp)
  unfold OpenFile at h
  rw [hf] at h
  simp only [hnone] at h
  split at h
  · have h1 := Except.ok.inj h
    have h2 := Prod.mk.inj h1
    rw [← h2.1, ← h2.2]
    refine ⟨?_, rfl⟩
    apply KeysFrom_append
    intro e he
    simp only [List.mem_singleton] at he
    rw [he]
  · exact absurd h (by simp)
  · exact absurd h (by simp)

theorem isUnder_dropLast (d : FPath) : isUnder d.dropLast d = true := by
  apply (isUnder_iff _ _).mpr
  by_cases h : d = []
  · exact ⟨[], by simp [h]⟩
  · exact ⟨[d.getLast h], (List.dropLast_append_getLast h).symm⟩

theorem isUnder_append_left (d a b : FPath) : isUnder (d ++ a) (d ++ b) = isUnder a b := by
  induction d with
  | nil => rfl
  | cons c d ih => simp [isUnder, ih]

theorem isUnder_comparable (dest src rel : FPath) (h : isUnder dest (src ++ rel) = true) :
    isUnder dest src = true ∨ isUnder src dest = true := by
  induction dest generalizing src with
  | nil => exact Or.inl rfl
  | cons a d ih =>
    cases src with
    | nil => exact Or.inr rfl
    | cons b s =>
      simp only [List.cons_append, isUnder, Bool.and_eq_true, beq_iff_eq] at h ⊢
      rcases ih s h.2 with h1 | h1
      · exact Or.inl ⟨h.1, h1⟩
      · exact Or.inr ⟨h.1.symm, h1⟩

theorem isInside_snoc (a p : FPath) (n : String) (h : isInside a (p ++ [n]) = true) :
    isUnder a p = true := by
  obtain ⟨r, hr, heq⟩ := (isInside_iff _ _).mp h
  apply (isUnder_iff _ _).mpr
  refine ⟨r.dropLast, ?_⟩
  have hr2 : r = r.dropLast ++ [r.getLast hr] := (List.dropLast_append_getLast hr).symm
  rw [hr2, ← List.append_assoc] at heq
  exact (List.append_inj' heq rfl).1

theorem KeysFrom_copySymlink (S : FileSys) (src dest : FPath) :
    KeysFrom (fun q => isUnder q dest = true) S (copySymlink S src dest).1 := by
  have h1 : KeysFrom (fun q => isUnder q dest = true) S (RemoveAll S dest).1 :=
    KeysFrom_RemoveAll _ S dest
  have h2 : KeysFrom (fun q => isUnder q dest = true) S
      (MkdirAll (RemoveAll S dest).1 dest.dropLast 0o755).1 := by
    apply KeysFrom_trans _ _ _ _ h1
    apply KeysFrom_mono _ _ _ _ _ (KeysFrom_MkdirAll _ _ _)
    intro q hq
    exact isUnder_trans _ _ _ hq (isUnder_dropLast dest)
  unfold copySymlink
  simp only
  split
  · exact h1
  · split
    · exact h1
    · split
      · exact h2
      · apply KeysFrom_trans _ _ _ _ h2
        apply KeysFrom_mono _ _ _ _ _ (KeysFrom_Symlink _ _ _)
        intro q hq
        rw [hq]
        exact isUnder_refl _

theorem KeysFrom_copyFile (S : FileSys) (src dest : FPath) (perm : Nat) (hd : dest ≠ []) :
    KeysFrom (fun q => isUnder q dest = true) S (copyFile S src dest perm).1 := by
  have h1 : KeysFrom (fun q => isUnder q dest = true) S (MkdirAll S dest.dropLast 0o755).1 := by
    apply KeysFrom_mono _ _ _ _ _ (KeysFrom_MkdirAll _ _ _)
    intro q hq
    exact isUnder_trans _ _ _ hq (isUnder_dropLast dest)
  have h2 : KeysFrom (fun q => isUnder q dest = true) S
      (RemoveAll (MkdirAll S dest.dropLast 0o755).1 dest).1 :=
    KeysFrom_trans _ _ _ _ h1 (KeysFrom_RemoveAll _ _ dest)
  unfold copyFile
  simp only
  split
  · exact h1
  · split
    · exact h2
    · split
      · exact h2
      · split
        · exact h2
        · rename_i fs1 q ho
          obtain ⟨h3, hq⟩ := KeysFrom_OpenFile _ fs1 dest q perm (node_RemoveAll_self _ dest hd) ho
          have h4 : KeysFrom (fun q => isUnder q dest = true) S fs1 := by
            apply KeysFrom_trans _ _ _ _ h2
            apply KeysFrom_mono _ _ _ _ _ h3
            intro x hx
            rw [hx]
            exact isUnder_refl _
          split
          · exact KeysFrom_trans _ _ _ _ h4 (KeysFrom_writeContent _ _ _ _)
          · exact h4

theorem copyDirectoryFn_keys (src dest : FPath) (S : FileSys) (path : FPath) (isDir : Bool) :
    (path = src ∧ copyDirectoryFn src dest S path isDir none = (S, none)) ∨
    ((copyDirectoryFn src dest S path isDir none).1 = S ∧
      (copyDirectoryFn src dest S path isDir none).2 ≠ none) ∨
    (∃ rel, rel ≠ [] ∧ path = src ++ rel ∧ node S path ≠ none ∧
      KeysFrom (fun q => isUnder q (dest ++ rel) = true) S
        (copyDirectoryFn src dest S path isDir none).1) := by
  unfold copyDirectoryFn
  simp only
  by_cases hp : path = src
  · left
    rw [if_pos hp]
    exact ⟨hp, rfl⟩
  · rw [if_neg hp]
    right
    cases hrel : Rel src path with
    | error err => left; simp
    | ok rel =>
      obtain ⟨hrne, hpath⟩ := Rel_ne_nil src path rel hrel hp
      cases hl : Lstat S path with
      | error err => left; cases isDir <;> simp
      | ok info =>
        right
        have hn : node S path ≠ none := by
          rw [(Lstat_ok_iff _ _ _).mp hl]; simp
        refine ⟨rel, hrne, hpath, hn, ?_⟩
        have htne : dest ++ rel ≠ [] := by simp [hrne]
        cases isDir with
        | true =>
          simp only [if_true]
          exact KeysFrom_MkdirAll _ _ _
        | false =>
          simp only [Bool.false_eq_true, if_false]
          split
          · exact KeysFrom_copySymlink _ _ _
          · exact KeysFrom_copyFile _ _ _ _ htne

/-! ### Nothing below the destination without a counterpart in the source -/

theorem copyDirectoryFn_noStray (src dest : FPath) (S0 S : FileSys) (path : FPath)
    (isDir : Bool) (n : String)
    (hinc1 : isUnder dest src = false) (hinc2 : isUnder src dest = false)
    (hout : outside dest S = outside dest S0)
    (hinv : NoStray src dest S0 S) (hanc : AncestorsIn src S0 path)
    (hok : (copyDirectoryFn src dest S path isDir none).2 = none) :
    NoStray src dest S0 (copyDirectoryFn src dest S path isDir none).1 ∧
      AncestorsIn src S0 (path ++ [n]) := by
  rcases copyDirectoryFn_keys src dest S path isDir with h | h | h
  · rw [h.2]
    refine ⟨hinv, ?_⟩
    intro x hx hin
    have hu := isInside_snoc _ _ _ hin
    by_cases he : src ++ x = path
    · rw [h.1] at he
      have : x = [] := by simpa using he
      exact absurd this hx
    · exact hanc x hx (by simp [isInside, hu, Ne.symm he])
  · exact absurd hok h.2
  · obtain ⟨rel, hrne, hpath, hn, hkeys⟩ := h
    have hgood : lookupNode S0 path ≠ none := by
      have hni : isInside dest path = false := by
        cases hi : isInside dest path with
        | false => rfl
        | true =>
          have hu := isInside_isUnder _ _ hi
          rw [hpath] at hu
          rcases isUnder_comparable dest src rel hu with h1 | h1
          · rw [h1] at hinc1; exact absurd hinc1 (by simp)
          · rw [h1] at hinc2; exact absurd hinc2 (by simp)
      have hpne : path ≠ [] := by rw [hpath]; simp [hrne]
      rw [← node_ne_nil_lookup _ _ hpne, ← node_of_outside_eq dest S0 S path hni hout]
      exact hn
    constructor
    · intro rel2 h2ne hl
      rcases hkeys _ hl with h1 | h1
      · exact hinv rel2 h2ne h1
      · rw [isUnder_append_left] at h1
        have h2 : isUnder (src ++ rel2) path = true := by
          rw [hpath, isUnder_append_left]; exact h1
        by_cases he : src ++ rel2 = path
        · rw [he]; exact hgood
        · exact hanc rel2 h2ne (by simp [isInside, h2, Ne.symm he])
    · intro x hx hin
      have hu := isInside_snoc _ _ _ hin
      by_cases he : src ++ x = path
      · rw [he]; exact hgood
      · exact hanc x hx (by simp [isInside, hu, Ne.symm he])

theorem walkList_noStray (src dest : FPath) (S0 : FileSys)
    (step : FileSys → FPath → Bool → Option (FileSys × Option GoError))
    (hso : ∀ fs p b r pm, node fs dest = some (.dir pm) → step fs p b = some r →
      outside dest r.1 = outside dest fs)
    (hstep : ∀ S p b r pm, node S dest = some (.dir pm) → outside dest S = outside dest S0 →
      NoStray src dest S0 S → AncestorsIn src S0 p → step S p b = some r → r.2 = none →
      NoStray src dest S0 r.1)
    (path : FPath) (hanc : ∀ n, AncestorsIn src S0 (path ++ [n]))
    (dirs : List (String × Bool)) :
    ∀ (S : FileSys) (r : FileSys × Option GoError) (pm : Nat),
      node S dest = some (.dir pm) → outside dest S = outside dest S0 →
      NoStray src dest S0 S → walkList step path dirs S = some r → r.2 = none →
      NoStray src dest S0 r.1 := by
  induction dirs with
  | nil =>
    intro S r pm _ _ hinv h _
    simp only [walkList, Option.some.injEq] at h
    rw [← h]
    exact hinv
  | cons d1 rest ih =>
    intro S r pm hdir hout hinv h hr
    unfold walkList at h
    cases hs : step S (path ++ [d1.1]) d1.2 with
    | none => simp [hs] at h
    | some r1 =>
      obtain ⟨S1, e1⟩ := r1
      have h1 := hso S _ _ _ pm hdir hs
      cases e1 with
      | some err =>
        simp only [hs, Option.some.injEq] at h
        rw [← h] at hr
        exact absurd hr (by simp)
      | none =>
        simp only [hs] at h
        have hdir1 := dir_of_outside_eq dest S S1 pm hdir h1
        exact ih S1 r pm hdir1 (h1.trans hout)
          (hstep S _ _ _ pm hdir hout hinv (hanc d1.1) hs rfl) h hr

theorem walkDir_noStray (src dest : FPath) (S0 : FileSys)
    (hinc1 : isUnder dest src = false) (hinc2 : isUnder src dest = false) :
    ∀ (fuel : Nat) (S : FileSys) (path : FPath) (isDir : Bool)
      (r : FileSys × Option GoError) (pm : Nat),
      node S dest = some (.dir pm) → outside dest S = outside dest S0 →
      NoStray src dest S0 S → AncestorsIn src S0 path →
      walkDir (copyDirectoryFn src dest) fuel S path isDir = some r → r.2 = none →
      NoStray src dest S0 r.1 := by
  intro fuel
  induction fuel with
  | zero => intro S path isDir r pm _ _ _ _ h; simp [walkDir] at h
  | succ fuel ih =>
    intro S path isDir r pm hdir hout hinv hanc h hr
    unfold walkDir at h
    have h0 := copyDirectoryFn_outside src dest path S isDir none pm hdir
    have hdir0 := dir_of_outside_eq dest S _ pm hdir h0
    simp only at h
    split at h
    · have he := Option.some.inj h
      rw [← he] at hr ⊢
      exact (copyDirectoryFn_noStray src dest S0 S path isDir "" hinc1 hinc2 hout hinv hanc hr).1
    · rename_i hcond
      have hok : (copyDirectoryFn src dest S path isDir none).2 = none := by
        cases hc : (copyDirectoryFn src dest S path isDir none).2 with
        | none => rfl
        | some err => exact absurd (Or.inl (by simp [hc])) hcond
      split at h
      · have he := Option.some.inj h
        rw [← he] at hr
        simp [copyDirectoryFn] at hr
      · exact walkList_noStray src dest S0 (walkDir (copyDirectoryFn src dest) fuel)
          (fun fs p b r pm hd hs => walkDir_outside src dest fuel fs p b r pm hd hs)
          ih path
          (fun n => (copyDirectoryFn_noStray src dest S0 S path isDir n hinc1 hinc2 hout hinv
            hanc hok).2)
          _ _ r pm hdir0 (h0.trans hout)
          (copyDirectoryFn_noStray src dest S0 S path isDir "" hinc1 hinc2 hout hinv hanc hok).1
          h hr

theorem ReadDir_empty (S : FileSys) (p : FPath) (pm : Nat)
    (hdir : node S p = some (.dir pm)) (hnone : ∀ e ∈ S, isInside p e.1 = false) :
    ReadDir S p = .ok [] := by
  have hf : S.filterMap (childName p) = [] := by
    apply List.filterMap_eq_nil_iff.mpr
    intro e he
    unfold childName
    split
    · rename_i hc
      have hin : isInside p e.1 = true := by
        apply (isInside_iff _ _).mpr
        refine ⟨[e.1.getLast hc.1], by simp, ?_⟩
        have h1 := (List.dropLast_append_getLast hc.1).symm
        exact h1.trans (congrArg (fun l => l ++ [e.1.getLast hc.1]) hc.2)
      rw [hnone e he] at hin
      exact absurd hin (by simp)
    · rfl
  unfold ReadDir
  rw [hdir]
  simp [hf]

theorem fresh_lookup_inside (A1 : FileSys) (dest q : FPath) (n : FNode)
    (hA1 : ∀ e ∈ A1, isUnder dest e.1 = false) (hq : isInside dest q = true) :
    lookupNode (A1 ++ [(dest, n)]) q = none := by
  have hne : ¬ dest = q := by
    intro e
    rw [← e, not_isInside_self] at hq
    exact absurd hq (by simp)
  rw [lookupNode_append, lookupNode_none_of_not_under _ dest q (isInside_isUnder _ _ hq) hA1]
  simp [lookupNode, hne]

theorem fresh_node_dest (A1 : FileSys) (dest : FPath) (n : FNode) (hd : dest ≠ [])
    (hA1 : ∀ e ∈ A1, isUnder dest e.1 = false) :
    node (A1 ++ [(dest, n)]) dest = some n := by
  rw [node_ne_nil_lookup _ _ hd, lookupNode_append,
    lookupNode_none_of_not_under _ dest dest (isUnder_refl dest) hA1]
  simp [lookupNode]

theorem fresh_not_inside (A1 : FileSys) (dest src : FPath) (n info : FNode)
    (hA1 : ∀ e ∈ A1, isUnder dest e.1 = false)
    (hl : Lstat (A1 ++ [(dest, n)]) src = .ok info) : isInside dest src = false := by
  cases hi : isInside dest src with
  | false => rfl
  | true =>
    obtain ⟨r, hr, hsr⟩ := (isInside_iff dest src).mp hi
    have hsne : src ≠ [] := by rw [hsr]; simp [hr]
    have hn : node (A1 ++ [(dest, n)]) src = none := by
      rw [node_ne_nil_lookup _ _ hsne]
      exact fresh_lookup_inside A1 dest src n hA1 hi
    rw [Lstat_of_none _ _ hn] at hl
    exact absurd hl (by simp)

theorem walkDir_self (dest : FPath) (fuel : Nat) (B fs1 : FileSys) (isDir : Bool) (pm : Nat)
    (hdir : node B dest = some (.dir pm)) (hnone : ∀ e ∈ B, isInside dest e.1 = false)
    (h : walkDir (copyDirectoryFn dest dest) fuel B dest isDir = some (fs1, none)) :
    fs1 = B := by
  cases fuel with
  | zero => simp [walkDir] at h
  | succ fuel =>
    unfold walkDir at h
    have hfn : copyDirectoryFn dest dest B dest isDir none = (B, none) := by
      simp [copyDirectoryFn]
    rw [hfn] at h
    simp only [ReadDir_empty B dest pm hdir hnone] at h
    cases isDir with
    | false =>
      simp at h
      exact h.symm
    | true =>
      simp [walkList] at h
      exact h.symm

theorem copyDirectory_noStray (fuel : Nat) (fs fs1 : FileSys) (src dest : FPath) (perm : Nat)
    (hsrc : node fs src = some (.dir perm))
    (h : copyDirectory fuel fs src dest = some (fs1, none))
    (hnot : isInside src dest = false) :
    ∀ rel, rel ≠ [] → node fs1 (dest ++ rel) ≠ none → node fs (src ++ rel) ≠ none := by
  obtain ⟨hd, new, info, hA1, hup, hmk, hagain, hl, hw⟩ :=
    copyDirectory_stages fuel fs fs1 src dest perm hsrc h
  generalize hA : fs.filter (fun e => !isUnder dest e.1) = A at hA1 hmk hagain hl hw
  have hBdest := fresh_node_dest (A ++ new) dest (.dir perm) hd hA1
  have hBin : ∀ rel, rel ≠ [] →
      lookupNode ((A ++ new) ++ [(dest, .dir perm)]) (dest ++ rel) = none := by
    intro rel hr
    exact fresh_lookup_inside (A ++ new) dest _ _ hA1
      ((isInside_iff _ _).mpr ⟨rel, hr, rfl⟩)
  intro rel hr hn
  have hne1 : dest ++ rel ≠ [] := by simp [hr]
  have hne2 : src ++ rel ≠ [] := by simp [hr]
  rw [node_ne_nil_lookup _ _ hne1] at hn
  rw [node_ne_nil_lookup _ _ hne2]
  by_cases hsd : src = dest
  · subst hsd
    have hBnone : ∀ e ∈ (A ++ new) ++ [(src, FNode.dir perm)], isInside src e.1 = false := by
      intro e he
      rcases List.mem_append.mp he with h1 | h1
      · cases hi : isInside src e.1 with
        | false => rfl
        | true =>
          have := isInside_isUnder _ _ hi
          rw [hA1 e h1] at this
          exact absurd this (by simp)
      · simp only [List.mem_singleton] at h1
        rw [h1]
        exact not_isInside_self src
    have hfs1 := walkDir_self src fuel _ fs1 info.IsDir perm hBdest hBnone hw
    rw [hfs1, hBin rel hr] at hn
    exact absurd rfl hn
  · have hinc2 : isUnder src dest = false := by
      cases hu : isUnder src dest with
      | false => rfl
      | true =>
        have : isInside src dest = true := by simp [isInside, hu, Ne.symm hsd]
        rw [this] at hnot
        exact absurd hnot (by simp)
    have hinc1 : isUnder dest src = false := by
      have hni := fresh_not_inside (A ++ new) dest src _ info hA1 hl
      cases hu : isUnder dest src with
      | false => rfl
      | true =>
        have : isInside dest src = true := by simp [isInside, hu, hsd]
        rw [this] at hni
        exact absurd hni (by simp)
    have hinv0 : NoStray src dest ((A ++ new) ++ [(dest, .dir perm)])
        ((A ++ new) ++ [(dest, .dir perm)]) := by
      intro rel2 hr2 hl2
      exact absurd (hBin rel2 hr2) hl2
    have hanc0 : AncestorsIn src ((A ++ new) ++ [(dest, .dir perm)]) src := by
      intro x hx hin
      have hlen := isUnder_length _ _ (isInside_isUnder _ _ hin)
      simp only [List.length_append] at hlen
      have : x = [] := List.length_eq_zero.mp (by omega)
      exact absurd this hx
    have hns := walkDir_noStray src dest _ hinc1 hinc2 fuel _ src info.IsDir (fs1, none) perm
      hBdest rfl hinv0 hanc0 hw rfl
    have hB := hns rel hr hn
    have hk : KeysFrom (fun q => isUnder q dest = true) A ((A ++ new) ++ [(dest, .dir perm)]) := by
      apply KeysFrom_trans _ _ _ _ (KeysFrom_append _ A new hup)
      apply KeysFrom_append
      intro e he
      simp only [List.mem_singleton] at he
      rw [he]
      exact isUnder_refl _
    rcases hk _ hB with h1 | h1
    · rw [← hA, lookupNode_filter_under] at h1
      split at h1
      · exact absurd rfl h1
      · exact h1
    · have := isUnder_trans _ _ _ (isUnder_append src rel) h1
      rw [this] at hinc2
      exact absurd hinc2 (by simp)

/-! ### More levels do not change the result of a walk -/

theorem walkList_mono
    (step step2 : FileSys → FPath → Bool → Option (FileSys × Option GoError))
    (hstep : ∀ S p b r, step S p b = some r → step2 S p b = some r)
    (path : FPath) (dirs : List (String × Bool)) :
    ∀ (S : FileSys) (r : FileSys × Option GoError),
      walkList step path dirs S = some r → walkList step2 path dirs S = some r := by
  induction dirs with
  | nil => intro S r h; simpa [walkList] using h
  | cons d1 rest ih =>
    intro S r h
    unfold walkList at h ⊢
    cases hs : step S (path ++ [d1.1]) d1.2 with
    | none => simp [hs] at h
    | some r1 =>
      rw [hstep _ _ _ _ hs]
      rw [hs] at h
      obtain ⟨S1, e1⟩ := r1
      cases e1 with
      | some err => exact h
      | none => exact ih S1 r h

theorem walkDir_succ (fn : FileSys → FPath → Bool → Option GoError → FileSys × Option GoError) :
    ∀ (fuel : Nat) (S : FileSys) (path : FPath) (isDir : Bool) (r : FileSys × Option GoError),
      walkDir fn fuel S path isDir = some r → walkDir fn (fuel + 1) S path isDir = some r := by
  intro fuel
  induction fuel with
  | zero => intro S path isDir r h; simp [walkDir] at h
  | succ fuel ih =>
    intro S path isDir r h
    unfold walkDir at h ⊢
    simp only at h ⊢
    split
    · rename_i hc
      rw [if_pos hc] at h
      exact h
    · rename_i hc
      rw [if_neg hc] at h
      split
      · rename_i err he
        rw [he] at h
        exact h
      · rename_i dirs he
        rw [he] at h
        exact walkList_mono _ _ ih path dirs _ r h

theorem walkDir_mono (fn : FileSys → FPath → Bool → Option GoError → FileSys × Option GoError)
    (fuel k : Nat) (S : FileSys) (path : FPath) (isDir : Bool) (r : FileSys × Option GoError)
    (h : walkDir fn fuel S path isDir = some r) : walkDir fn (fuel + k) S path isDir = some r := by
  induction k with
  | zero => exact h
  | succ k ih => exact walkDir_succ fn (fuel + k) S path isDir r ih

theorem copyDirectory_mono (fuel k : Nat) (fs : FileSys) (src dest : FPath)
    (r : FileSys × Option GoError) (h : copyDirectory fuel fs src dest = some r) :
    copyDirectory (fuel + k) fs src dest = some r := by
  unfold copyDirectory at h ⊢
  split
  · rename_i err he
    rw [he] at h
    exact h
  · rename_i info he
    rw [he] at h
    simp only at h ⊢
    split
    · rename_i hc
      rw [if_pos hc] at h
      exact h
    · rename_i hc
      rw [if_neg hc] at h
      split
      · rename_i hc2
        rw [if_pos hc2] at h
        exact h
      · rename_i hc2
        rw [if_neg hc2] at h
        split
        · rename_i err hm
          rw [hm] at h
          exact h
        · rename_i hm
          rw [hm] at h
          simp only at h
          unfold WalkDir at h ⊢
          split
          · rename_i err hl
            rw [hl] at h
            exact h
          · rename_i info2 hl
            rw [hl] at h
            exact walkDir_mono _ fuel k _ _ _ r h

theorem copyDirectory_ignores_dest (fuel : Nat) (fs fs0 : FileSys) (src dest : FPath)
    (perm : Nat) (hsrc : node fs src = some (.dir perm))
    (hsrc0 : node fs0 src = some (.dir perm))
    (hrest : (RemoveAll fs0 dest).1 = (RemoveAll fs dest).1) :
    copyDirectory fuel fs0 src dest = copyDirectory fuel fs src dest := by
  have hr : RemoveAll fs0 dest = RemoveAll fs dest := Prod.ext hrest rfl
  unfold copyDirectory
  rw [Stat_of_dir fs src perm hsrc, Stat_of_dir fs0 src perm hsrc0, hr]
  rfl

/-! ### Copying a directory twice -/

/-- C14: `src` is a directory and `copyDirectory src dest` succeeds, leaving
the file system `fs1`.  Then a second `copyDirectory src dest`, run on `fs1`,
succeeds too and leaves `fs1` as it is: the same entries, kinds, contents, link
targets and permission bits, below `dest` and everywhere else (with as many
levels for the walk as the first copy had, or more).  What was below `dest`
before plays no part in the result: from any file system with the same
directory at `src` that differs from the first only at `dest` and below, the
copy ends in `fs1` as well.  And with `dest` not strictly below `src`, every
entry below `dest` after the copy has its counterpart at the same relative
path below `src`, so an entry that was below `dest` and is not in the source is
gone. -/
theorem copyDirectory_idempotent (fuel : Nat) (fs fs1 : FileSys) (src dest : FPath) (perm : Nat)
    (hsrc : node fs src = some (.dir perm))
    (h : copyDirectory fuel fs src dest = some (fs1, none)) :
    (∀ k, copyDirectory (fuel + k) fs1 src dest = some (fs1, none)) ∧
    (∀ fs0, node fs0 src = some (.dir perm) →
      (RemoveAll fs0 dest).1 = (RemoveAll fs dest).1 →
      copyDirectory fuel fs0 src dest = some (fs1, none)) ∧
    (isInside src dest = false →
      ∀ rel, rel ≠ [] → node fs1 (dest ++ rel) ≠ none → node fs (src ++ rel) ≠ none) := by
  refine ⟨?_, ?_, ?_⟩
  · intro k
    exact copyDirectory_mono fuel k fs1 src dest _
      (copyDirectory_again fuel fs fs1 src dest perm hsrc h)
  · intro fs0 hsrc0 hrest
    rw [copyDirectory_ignores_dest fuel fs fs0 src dest perm hsrc hsrc0 hrest]
    exact h
  · exact copyDirectory_noStray fuel fs fs1 src dest perm hsrc h

/-- C14, with the directory `/repo/scripts` copied to `/wt/scripts`, where the
old file `/wt/scripts/old` has no counterpart in the source. -/
theorem copyDirectory_idempotent_witness :
    node demoFs ["repo", "scripts"] = some (.dir 0o700) ∧
    copyDirectory 3 demoFs ["repo", "scripts"] ["wt", "scripts"] = some (demoMirror, none) ∧
    node demoFs ["wt", "scripts", "old"] = some (.file 0o600 "old") ∧
    copyDirectory 3 demoMirror ["repo", "scripts"] ["wt", "scripts"] = some (demoMirror, none) ∧
    node demoMirror ["wt", "scripts", "old"] = none :=
  ⟨by decide, by decide, by decide,
    (copyDirectory_idempotent 3 demoFs demoMirror ["repo", "scripts"] ["wt", "scripts"] 0o700
      (by decide) (by decide)).1 0,
    Classical.not_not.mp (fun hne =>
      (copyDirectory_idempotent 3 demoFs demoMirror ["repo", "scripts"] ["wt", "scripts"] 0o700
        (by decide) (by decide)).2.2 (by decide) ["old"] (by decide) hne (by decide))⟩

end Whq
